import Mathlib

/-!
# Verification of the floweaver weaving engine against its specification

The repository snapshot contains only the tutorial notebook
`docs/tutorials/system-boundary.ipynb`; the engine itself (partitions,
process groups, bundles, elsewhere synthesis, ordering) is not part of the
snapshot.  Following the specification document, the engine is therefore
reconstructed here as an executable shallow embedding: every definition whose
doc comment starts with "Modelled from the spec:" is a faithful translation of
the corresponding paragraph of the specification (sections are cited), and the
theorems at the end of the file settle the specification's claims against this
model.  Numeric measure values are modelled as exact integers, so the
"small numeric tolerance" left open by the spec (§9, open question) is zero.
-/

namespace Floweaver

/-- Modelled from the spec (§7): the error kinds reported by the weaving
engine.  `duplicateNodeName` and `duplicatePlacement` realise the §3
requirement that node names resp. placements be unique ("Every materialized
visible node must appear exactly once across the Ordering; violation is an
engine error"). -/
inductive Err where
  | unmatchedItem (dimension item : String)
  | ambiguousAttribution (source target : String)
  | inconsistentConservation (group : String) (label : Option String)
  | unknownNodeReference (name : String)
  | unplacedNode (name : String)
  | duplicateNodeName (name : String)
  | duplicatePlacement (name : String)
deriving DecidableEq

/-- Modelled from the spec (§3): a `FlowRecord` has a source and target
process id, a numeric measure value (a single measure suffices for the claims;
exact integers stand for the numeric type, making the zero tolerance exact) and dimension tags. -/
structure FlowRecord where
  source : String
  target : String
  value : ℤ
  tags : List (String × String)
deriving DecidableEq

/-- The value of a dimension tag on a record (empty string when absent). -/
def FlowRecord.tagValue (f : FlowRecord) (dim : String) : String :=
  ((f.tags.find? (fun pr => decide (pr.1 = dim))).map (fun pr => pr.2)).getD ""

/-- Modelled from the spec (§3): a `PartitionGroup` is a label together with a
membership rule; the rule is an explicit list of process ids / tag values, or
the group is explicitly marked catch-all. -/
structure PartitionGroup where
  label : String
  members : List String
  catchAll : Bool
deriving DecidableEq

/-- Modelled from the spec (§3): a `Partition` is an ordered sequence of
`PartitionGroup`s classifying the values of one dimension ("process" for
process ids). -/
structure Partition where
  dimension : String
  groups : List PartitionGroup
deriving DecidableEq

/-- Modelled from the spec (§4.1): classify one item.  Groups are tried in
declared order and the first whose membership rule matches wins; an item
matching no rule falls to the (first) catch-all group if one exists, and is
unmatched otherwise. -/
def resolveItem (p : Partition) (item : String) : Option String :=
  match p.groups.find? (fun g => decide (item ∈ g.members)) with
  | some g => some g.label
  | none => (p.groups.find? (fun g => g.catchAll)).map (fun g => g.label)

/-- Modelled from the spec (§4.1): classify a list of items, failing with
`UnmatchedItem` on the first item that no rule matches when no catch-all
group exists. -/
def resolveItems (p : Partition) : List String → Except Err (List (String × String))
  | [] => .ok []
  | i :: rest =>
    match resolveItem p i with
    | none => .error (.unmatchedItem p.dimension i)
    | some l =>
      match resolveItems p rest with
      | .error e => .error e
      | .ok m => .ok ((i, l) :: m)

/-- Modelled from the spec (§3): the two kinds of diagram node.  A
`processGroup` carries the user's selection of raw process ids and an optional
partition; a `waypoint` carries only an optional partition (it claims whatever
flow is routed through it by a bundle). -/
inductive NodeDef where
  | processGroup (selection : List String) (partition : Option Partition)
  | waypoint (partition : Option Partition)
deriving DecidableEq

/-- Modelled from the spec (§3, §9): a bundle endpoint is a reference to a
declared node or the `Elsewhere` sentinel. -/
inductive Endpoint where
  | ref (name : String)
  | elsewhere
deriving DecidableEq

/-- Modelled from the spec (§3): a `Bundle` declares that flow may travel from
one endpoint to the other, optionally via an ordered chain of waypoints. -/
structure Bundle where
  source : Endpoint
  target : Endpoint
  waypoints : List String
deriving DecidableEq

/-- Modelled from the spec (§2, §3): a diagram definition aggregates the named
nodes, the bundles and the ordering (layers of horizontal bands of node
names). -/
structure SankeyDefinition where
  nodes : List (String × NodeDef)
  bundles : List Bundle
  ordering : List (List (List String))
deriving DecidableEq

/-- Look a node name up in the definition. -/
def lookupDef (sdd : SankeyDefinition) (name : String) : Option NodeDef :=
  (sdd.nodes.find? (fun nd => decide (nd.1 = name))).map (fun nd => nd.2)

/-- Modelled from the spec (§3, Elsewhere): the raw processes inside the
system boundary are exactly those selected by some process group. -/
def boundaryProcs (sdd : SankeyDefinition) : List String :=
  sdd.nodes.flatMap (fun nd =>
    match nd.2 with
    | .processGroup sel _ => sel
    | .waypoint _ => [])

/-- Whether a raw process id lies inside the system boundary. -/
def insideBoundary (sdd : SankeyDefinition) (q : String) : Bool :=
  decide (q ∈ boundaryProcs sdd)

/-- Modelled from the spec (§4.3): whether a bundle's source endpoint claims
the source process of a record.  `Elsewhere` claims everything outside the
system boundary; a reference claims the processes in the group's selection.
(A waypoint used as a bundle endpoint has no selection and claims nothing.) -/
def srcMatches (sdd : SankeyDefinition) (e : Endpoint) (f : FlowRecord) : Bool :=
  match e with
  | .elsewhere => ! insideBoundary sdd f.source
  | .ref n =>
    match lookupDef sdd n with
    | some (.processGroup sel _) => decide (f.source ∈ sel)
    | _ => false

/-- Modelled from the spec (§4.3): target-side endpoint matching. -/
def tgtMatches (sdd : SankeyDefinition) (e : Endpoint) (f : FlowRecord) : Bool :=
  match e with
  | .elsewhere => ! insideBoundary sdd f.target
  | .ref n =>
    match lookupDef sdd n with
    | some (.processGroup sel _) => decide (f.target ∈ sel)
    | _ => false

/-- Modelled from the spec (§4.3): a record falls to a bundle when both its
endpoints claim the record's endpoints. -/
def bundleMatches (sdd : SankeyDefinition) (b : Bundle) (f : FlowRecord) : Bool :=
  srcMatches sdd b.source f && tgtMatches sdd b.target f

/-- All bundles matching a record, in declaration order. -/
def matchingBundles (sdd : SankeyDefinition) (f : FlowRecord) : List Bundle :=
  sdd.bundles.filter (fun b => bundleMatches sdd b f)

/-- Modelled from the spec (§4.3): a record is attributed to the unique bundle
matching it; a record matched by two bundles is an `AmbiguousAttribution`
definition error (checked separately by `ambiguityCheck`), and a record
matched by none stays unattributed (it feeds the elsewhere synthesis of
§4.4). -/
def attributeRecord (sdd : SankeyDefinition) (f : FlowRecord) : Option Bundle :=
  match matchingBundles sdd f with
  | [b] => some b
  | _ => none

/-- Modelled from the spec (§3): identity of a materialized visible node: a
sub-node of a named group (with the partition-group label it carries, `none`
when the group is unpartitioned) or the Elsewhere sentinel. -/
inductive NodeId where
  | sub (group : String) (label : Option String)
  | elsewhere
deriving DecidableEq

/-- Modelled from the spec (§4.2): the partition-group labels under which a
process group materializes: one sub-node per partition group that claims at
least one selected process, a single unlabelled sub-node when unpartitioned,
and no sub-node at all when the selection is empty. -/
def pgLabels (sel : List String) : Option Partition → List (Option String)
  | none => if sel.isEmpty then [] else [none]
  | some p =>
    ((p.groups.map (fun g => g.label)).dedup.filter
      (fun l => sel.any (fun q => decide (resolveItem p q = some l)))).map some

/-- The raw processes claimed by the sub-node of a process group that carries
a given partition-group label (spec §3, §4.2). -/
def subProcs (sel : List String) (part : Option Partition) (l : Option String) : List String :=
  match part, l with
  | none, none => sel
  | some p, some lab => sel.filter (fun q => decide (resolveItem p q = some lab))
  | none, some _ => []
  | some _, none => []

/-- The partition-group label a partitioned waypoint assigns to a record:
its partition classifies the record's tag value for the partition's
dimension (spec §3, §4.3). -/
def wpLabel (p : Partition) (f : FlowRecord) : Option String :=
  resolveItem p (f.tagValue p.dimension)

/-- Whether a record is routed through the named waypoint by the bundle it is
attributed to (spec §4.3). -/
def routedPred (sdd : SankeyDefinition) (w : String) (f : FlowRecord) : Bool :=
  match attributeRecord sdd f with
  | some b => decide (w ∈ b.waypoints)
  | none => false

/-- Modelled from the spec (§4.2): the labels under which a waypoint
materializes: a single unlabelled stub when unpartitioned, otherwise one
sub-node per partition group that receives at least one routed flow. -/
def wpLabels (sdd : SankeyDefinition) (records : List FlowRecord) (w : String) :
    Option Partition → List (Option String)
  | none => [none]
  | some p =>
    ((p.groups.map (fun g => g.label)).dedup.filter
      (fun l => (records.filter (routedPred sdd w)).any
        (fun f => decide (wpLabel p f = some l)))).map some

/-- The visible sub-node ids a declared node materializes into (spec §4.2). -/
def subIdsOf (sdd : SankeyDefinition) (records : List FlowRecord) (name : String) :
    List NodeId :=
  match lookupDef sdd name with
  | some (.processGroup sel part) => (pgLabels sel part).map (NodeId.sub name)
  | some (.waypoint part) => (wpLabels sdd records name part).map (NodeId.sub name)
  | none => []

/-- Modelled from the spec (§4.3): the visible node a bundle endpoint places a
given raw process at: Elsewhere for the sentinel, and the group's sub-node for
the partition-group label of the process otherwise. -/
def endNodeT (sdd : SankeyDefinition) (e : Endpoint) (item : String) : NodeId :=
  match e with
  | .elsewhere => .elsewhere
  | .ref n =>
    match lookupDef sdd n with
    | some (.processGroup _ (some p)) => .sub n (resolveItem p item)
    | _ => .sub n none

/-- The waypoint sub-node a routed record passes through (spec §4.3). -/
def wpNodeT (sdd : SankeyDefinition) (w : String) (f : FlowRecord) : NodeId :=
  match lookupDef sdd w with
  | some (.waypoint (some p)) => .sub w (wpLabel p f)
  | _ => .sub w none

/-- Consecutive segments of a path of visible nodes. -/
def segs : NodeId → List NodeId → List (NodeId × NodeId)
  | _, [] => []
  | s, h :: t => (s, h) :: segs h t

/-- An elementary contribution of one record to one link segment.  The `btag`
field records the endpoints of the bundle the record was attributed to
(`none` marks links synthesized by the elsewhere synthesis of §4.4). -/
structure Contrib where
  source : NodeId
  target : NodeId
  btag : Option (Endpoint × Endpoint)
  value : ℤ
deriving DecidableEq

/-- The aggregation key of a contribution. -/
def Contrib.key (c : Contrib) : NodeId × NodeId × Option (Endpoint × Endpoint) :=
  (c.source, c.target, c.btag)

/-- Modelled from the spec (§4.3): the ordered path of materialized sub-nodes
an attributed record travels: source stub, waypoint stubs in order (each
resolved by its own partition), target stub. -/
def pathNodes (sdd : SankeyDefinition) (b : Bundle) (f : FlowRecord) : List NodeId :=
  endNodeT sdd b.source f.source ::
    (b.waypoints.map (fun w => wpNodeT sdd w f) ++ [endNodeT sdd b.target f.target])

/-- The link contributions of a single record: one per consecutive segment of
its path, tagged with the endpoints of the bundle it is attributed to; an
unattributed record contributes nothing directly (spec §4.3). -/
def recordContribs (sdd : SankeyDefinition) (f : FlowRecord) : List Contrib :=
  match attributeRecord sdd f with
  | none => []
  | some b =>
    match pathNodes sdd b f with
    | [] => []
    | s :: rest =>
      (segs s rest).map (fun uv => ⟨uv.1, uv.2, some (b.source, b.target), f.value⟩)

/-- All elementary link contributions of a record set. -/
def allContribs (sdd : SankeyDefinition) (records : List FlowRecord) : List Contrib :=
  records.flatMap (recordContribs sdd)

/-- Modelled from the spec (§3, ResolvedGraph): an aggregated link of the
output graph. -/
structure AggregatedLink where
  source : NodeId
  target : NodeId
  btag : Option (Endpoint × Endpoint)
  value : ℤ
deriving DecidableEq

/-- Modelled from the spec (§4.3): aggregation sums, per (source sub-node,
target sub-node, bundle) key, the elementary contributions with that key; keys
appear in order of first occurrence. -/
def aggregate (cs : List Contrib) : List AggregatedLink :=
  ((cs.map Contrib.key).dedup).map
    (fun k => ⟨k.1, k.2.1, k.2.2,
      ((cs.filter (fun c => decide (c.key = k))).map (fun c => c.value)).sum⟩)

/-- A link carried by a bundle between two visible (non-Elsewhere) endpoints. -/
def tagDirect : Option (Endpoint × Endpoint) → Bool
  | some (.ref _, .ref _) => true
  | _ => false

/-- A link carried by a bundle whose source endpoint is Elsewhere. -/
def tagFromElse : Option (Endpoint × Endpoint) → Bool
  | some (.elsewhere, _) => true
  | _ => false

/-- A link carried by a bundle from a visible node to Elsewhere. -/
def tagToElse : Option (Endpoint × Endpoint) → Bool
  | some (.ref _, .elsewhere) => true
  | _ => false

/-- A link synthesized by the elsewhere synthesis (no bundle). -/
def tagSynth : Option (Endpoint × Endpoint) → Bool
  | none => true
  | _ => false

/-- The partition-group label an optional partition assigns to an item. -/
def partLabelOf : Option Partition → String → Option String
  | none, _ => none
  | some p, item => resolveItem p item

/-- Modelled from the spec (§4.4, step 3): `total_true` on the inflow side:
the sum of all elementary flow values into any raw process claimed by the
sub-node, whether or not the counterpart is visible. -/
def totalTrueIn (records : List FlowRecord) (procs : List String) : ℤ :=
  ((records.filter (fun f => decide (f.target ∈ procs))).map (fun f => f.value)).sum

/-- Modelled from the spec (§4.4, step 3): `total_true` on the outflow side. -/
def totalTrueOut (records : List FlowRecord) (procs : List String) : ℤ :=
  ((records.filter (fun f => decide (f.source ∈ procs))).map (fun f => f.value)).sum

/-- Predicate for §4.4 step 1 on the inflow side: the record is attributed to
the sub-node's group via a bundle whose other endpoint is a visible node. -/
def claimedInPred (sdd : SankeyDefinition) (g : String) (procs : List String)
    (f : FlowRecord) : Bool :=
  decide (f.target ∈ procs) &&
    match attributeRecord sdd f with
    | some b => decide (b.target = .ref g) && decide (b.source ≠ .elsewhere)
    | none => false

/-- Modelled from the spec (§4.4, step 1): `claimed` on the inflow side. -/
def claimedIn (sdd : SankeyDefinition) (records : List FlowRecord) (g : String)
    (procs : List String) : ℤ :=
  ((records.filter (claimedInPred sdd g procs)).map (fun f => f.value)).sum

/-- Predicate for §4.4 step 2 on the inflow side: attributed via a bundle
explicitly naming Elsewhere as the other endpoint. -/
def explicitInPred (sdd : SankeyDefinition) (g : String) (procs : List String)
    (f : FlowRecord) : Bool :=
  decide (f.target ∈ procs) &&
    match attributeRecord sdd f with
    | some b => decide (b.target = .ref g) && decide (b.source = .elsewhere)
    | none => false

/-- Modelled from the spec (§4.4, step 2): `explicit_elsewhere`, inflow. -/
def explicitIn (sdd : SankeyDefinition) (records : List FlowRecord) (g : String)
    (procs : List String) : ℤ :=
  ((records.filter (explicitInPred sdd g procs)).map (fun f => f.value)).sum

/-- Outflow-side analogue of `claimedInPred`. -/
def claimedOutPred (sdd : SankeyDefinition) (g : String) (procs : List String)
    (f : FlowRecord) : Bool :=
  decide (f.source ∈ procs) &&
    match attributeRecord sdd f with
    | some b => decide (b.source = .ref g) && decide (b.target ≠ .elsewhere)
    | none => false

/-- Modelled from the spec (§4.4, step 1): `claimed` on the outflow side. -/
def claimedOut (sdd : SankeyDefinition) (records : List FlowRecord) (g : String)
    (procs : List String) : ℤ :=
  ((records.filter (claimedOutPred sdd g procs)).map (fun f => f.value)).sum

/-- Outflow-side analogue of `explicitInPred`. -/
def explicitOutPred (sdd : SankeyDefinition) (g : String) (procs : List String)
    (f : FlowRecord) : Bool :=
  decide (f.source ∈ procs) &&
    match attributeRecord sdd f with
    | some b => decide (b.source = .ref g) && decide (b.target = .elsewhere)
    | none => false

/-- Modelled from the spec (§4.4, step 2): `explicit_elsewhere`, outflow. -/
def explicitOut (sdd : SankeyDefinition) (records : List FlowRecord) (g : String)
    (procs : List String) : ℤ :=
  ((records.filter (explicitOutPred sdd g procs)).map (fun f => f.value)).sum

/-- Modelled from the spec (§4.4, step 4):
`implicit_elsewhere = total_true - claimed - explicit_elsewhere`, inflow. -/
def implicitIn (sdd : SankeyDefinition) (records : List FlowRecord) (g : String)
    (procs : List String) : ℤ :=
  totalTrueIn records procs - claimedIn sdd records g procs - explicitIn sdd records g procs

/-- Modelled from the spec (§4.4, step 4): `implicit_elsewhere`, outflow. -/
def implicitOut (sdd : SankeyDefinition) (records : List FlowRecord) (g : String)
    (procs : List String) : ℤ :=
  totalTrueOut records procs - claimedOut sdd records g procs - explicitOut sdd records g procs

/-- Whether an explicit Elsewhere bundle into the group exists (spec §4.4:
"no explicit Elsewhere Bundle exists for that direction/path"). -/
def hasExplicitIn (sdd : SankeyDefinition) (g : String) : Bool :=
  sdd.bundles.any (fun b => decide (b.source = .elsewhere) && decide (b.target = .ref g))

/-- Whether an explicit Elsewhere bundle out of the group exists. -/
def hasExplicitOut (sdd : SankeyDefinition) (g : String) : Bool :=
  sdd.bundles.any (fun b => decide (b.source = .ref g) && decide (b.target = .elsewhere))

/-- The materialized process-group sub-nodes of a definition, as triples
(group name, partition-group label, claimed raw processes). -/
def pgSubnodes (sdd : SankeyDefinition) : List (String × Option String × List String) :=
  sdd.nodes.flatMap (fun nd =>
    match nd.2 with
    | .processGroup sel part =>
      (pgLabels sel part).map (fun l => (nd.1, l, subProcs sel part l))
    | .waypoint _ => [])

/-- Modelled from the spec (§4.4): the synthesized "from elsewhere" link of a
process-group sub-node: exactly one aggregated link attached directly to the
sub-node when `implicit_elsewhere` is positive and no explicit Elsewhere
bundle exists for that direction, nothing otherwise. -/
def synthIn (sdd : SankeyDefinition) (records : List FlowRecord)
    (x : String × Option String × List String) : List AggregatedLink :=
  if 0 < implicitIn sdd records x.1 x.2.2 ∧ hasExplicitIn sdd x.1 = false then
    [⟨.elsewhere, .sub x.1 x.2.1, none, implicitIn sdd records x.1 x.2.2⟩]
  else []

/-- Modelled from the spec (§4.4): the synthesized "to elsewhere" link. -/
def synthOut (sdd : SankeyDefinition) (records : List FlowRecord)
    (x : String × Option String × List String) : List AggregatedLink :=
  if 0 < implicitOut sdd records x.1 x.2.2 ∧ hasExplicitOut sdd x.1 = false then
    [⟨.sub x.1 x.2.1, .elsewhere, none, implicitOut sdd records x.1 x.2.2⟩]
  else []

/-- All links synthesized by the elsewhere synthesis (spec §4.4). -/
def synthLinks (sdd : SankeyDefinition) (records : List FlowRecord) :
    List AggregatedLink :=
  (pgSubnodes sdd).flatMap (fun x => synthIn sdd records x ++ synthOut sdd records x)

/-- The full aggregated link list of a weave: aggregated bundle links followed
by synthesized elsewhere links. -/
def allLinks (sdd : SankeyDefinition) (records : List FlowRecord) :
    List AggregatedLink :=
  aggregate (allContribs sdd records) ++ synthLinks sdd records

/-- Total value of the links into a visible node, synthesized links
included (spec §3, conservation invariant). -/
def totalInOf (ls : List AggregatedLink) (n : NodeId) : ℤ :=
  ((ls.filter (fun lk => decide (lk.target = n))).map (fun lk => lk.value)).sum

/-- Total value of the links out of a visible node. -/
def totalOutOf (ls : List AggregatedLink) (n : NodeId) : ℤ :=
  ((ls.filter (fun lk => decide (lk.source = n))).map (fun lk => lk.value)).sum

/-- Modelled from the spec (§3, ResolvedGraph): a laid-out visible node with
its layout triple and total throughput. -/
structure VisibleNode where
  id : NodeId
  layer : ℕ
  band : ℕ
  position : ℕ
  total_in : ℤ
  total_out : ℤ
deriving DecidableEq

/-- Modelled from the spec (§4.5): walk the ordering and assign each
materialized sub-node its (layer, band, position) triple; a referenced node
that materialized nothing is simply omitted and positions count materialized
sub-nodes only. -/
def layoutNodes (sdd : SankeyDefinition) (records : List FlowRecord)
    (links : List AggregatedLink) : List VisibleNode :=
  sdd.ordering.enum.flatMap (fun il =>
    il.2.enum.flatMap (fun jb =>
      (jb.2.flatMap (subIdsOf sdd records)).enum.map (fun kn =>
        ⟨kn.2, il.1, jb.1, kn.1, totalInOf links kn.2, totalOutOf links kn.2⟩)))

/-- Modelled from the spec (§3): the output graph. -/
structure ResolvedGraph where
  nodes : List VisibleNode
  links : List AggregatedLink
deriving DecidableEq

/-- Assemble the resolved graph of a definition that passed all checks. -/
def buildGraph (sdd : SankeyDefinition) (records : List FlowRecord) : ResolvedGraph :=
  ⟨layoutNodes sdd records (allLinks sdd records), allLinks sdd records⟩

/-- Node names must be unique (spec §3: nodes form a named collection). -/
def checkNames (sdd : SankeyDefinition) : Except Err Unit :=
  match (sdd.nodes.map Prod.fst).find?
      (fun n => decide (1 < (sdd.nodes.map Prod.fst).count n)) with
  | some n => .error (.duplicateNodeName n)
  | none => .ok ()

/-- Every bundle endpoint reference must be declared and every bundle waypoint
must name a declared waypoint (spec §4.3, §9: endpoints are matched
exhaustively; dangling references are `UnknownNodeReference`). -/
def checkBundles (sdd : SankeyDefinition) : Except Err Unit :=
  match sdd.bundles.find? (fun b =>
      (match b.source with
        | .ref n => (lookupDef sdd n).isNone
        | .elsewhere => false) ||
      (match b.target with
        | .ref n => (lookupDef sdd n).isNone
        | .elsewhere => false) ||
      b.waypoints.any (fun w =>
        match lookupDef sdd w with
        | some (.waypoint _) => false
        | _ => true)) with
  | some b =>
    .error (.unknownNodeReference
      (match b.source with | .ref n => n | .elsewhere => ""))
  | none => .ok ()

/-- Modelled from the spec (§4.1): weave-time classification check: every
selected process of a partitioned process group, and every tag value routed
through a partitioned waypoint, must classify to some partition group. -/
def classifyCheck (sdd : SankeyDefinition) (records : List FlowRecord) :
    Except Err Unit :=
  match sdd.nodes.find? (fun nd =>
      match nd.2 with
      | .processGroup sel (some p) => sel.any (fun q => (resolveItem p q).isNone)
      | _ => false) with
  | some nd =>
    .error (match nd.2 with
      | .processGroup sel (some p) =>
        match sel.find? (fun q => (resolveItem p q).isNone) with
        | some q => .unmatchedItem p.dimension q
        | none => .unmatchedItem "" ""
      | _ => .unmatchedItem "" "")
  | none =>
    match records.find? (fun f =>
        match attributeRecord sdd f with
        | some b => b.waypoints.any (fun w =>
            match lookupDef sdd w with
            | some (.waypoint (some p)) => (wpLabel p f).isNone
            | _ => false)
        | none => false) with
    | some f => .error (.unmatchedItem "" f.source)
    | none => .ok ()

/-- Modelled from the spec (§4.3): a record matching two bundles is an
`AmbiguousAttribution` definition error. -/
def ambiguityCheck (sdd : SankeyDefinition) (records : List FlowRecord) :
    Except Err Unit :=
  match records.find? (fun f => decide (2 ≤ (matchingBundles sdd f).length)) with
  | some f => .error (.ambiguousAttribution f.source f.target)
  | none => .ok ()

/-- The flattened list of node names referenced by the ordering. -/
def orderingNames (sdd : SankeyDefinition) : List String :=
  sdd.ordering.flatten.flatten

/-- Modelled from the spec (§4.5): every ordering reference must be declared
(`UnknownNodeReference` otherwise); every materialized node must be placed
(`UnplacedNode`) and placed exactly once (referencing a node that materialized
nothing is permitted and simply omitted). -/
def orderingCheck (sdd : SankeyDefinition) (records : List FlowRecord) :
    Except Err Unit :=
  match (orderingNames sdd).find? (fun n => (lookupDef sdd n).isNone) with
  | some n => .error (.unknownNodeReference n)
  | none =>
    match ((orderingNames sdd).filter
        (fun n => !(subIdsOf sdd records n).isEmpty)).find?
        (fun n => decide (1 < ((orderingNames sdd).filter
          (fun m => !(subIdsOf sdd records m).isEmpty)).count n)) with
    | some n => .error (.duplicatePlacement n)
    | none =>
      match sdd.nodes.find? (fun nd =>
          !(subIdsOf sdd records nd.1).isEmpty &&
            decide (nd.1 ∉ orderingNames sdd)) with
      | some nd => .error (.unplacedNode nd.1)
      | none => .ok ()

/-- Modelled from the spec (§4.4): a negative `implicit_elsewhere` (beyond the
zero tolerance of this exact-arithmetic model) signals a definition
inconsistency and is reported as `InconsistentConservation`, never clamped. -/
def conservationCheck (sdd : SankeyDefinition) (records : List FlowRecord) :
    Except Err Unit :=
  match (pgSubnodes sdd).find? (fun x =>
      decide (implicitIn sdd records x.1 x.2.2 < 0) ||
      decide (implicitOut sdd records x.1 x.2.2 < 0)) with
  | some x => .error (.inconsistentConservation x.1 x.2.1)
  | none => .ok ()

/-- Modelled from the spec (§2, §5, §7): the weaving engine.  A pure,
synchronous transformation of a definition and a record set into a conserved
resolved graph; all errors are detected at weave time and a failed weave
produces no graph. -/
def weave (sdd : SankeyDefinition) (records : List FlowRecord) :
    Except Err ResolvedGraph :=
  match checkNames sdd with
  | .error e => .error e
  | .ok _ =>
    match checkBundles sdd with
    | .error e => .error e
    | .ok _ =>
      match classifyCheck sdd records with
      | .error e => .error e
      | .ok _ =>
        match ambiguityCheck sdd records with
        | .error e => .error e
        | .ok _ =>
          match orderingCheck sdd records with
          | .error e => .error e
          | .ok _ =>
            match conservationCheck sdd records with
            | .error e => .error e
            | .ok _ => .ok (buildGraph sdd records)

/-- Modelled from the spec (§4.2): removing a process group from a definition
as if it had never been declared: its node entry, every bundle referencing it
as an endpoint, and its ordering references are dropped. -/
def dropGroup (sdd : SankeyDefinition) (g : String) : SankeyDefinition :=
  ⟨sdd.nodes.filter (fun nd => !decide (nd.1 = g)),
   sdd.bundles.filter
     (fun b => !decide (b.source = Endpoint.ref g) && !decide (b.target = Endpoint.ref g)),
   sdd.ordering.map (fun layer => layer.map (fun band => band.filter (fun n => !decide (n = g))))⟩

/-- Modelled from the spec (§3): the per-node-entry edit performed when the
caller replaces a process group's selection. -/
def updateSelNode (g : String) (sel' : List String) (nd : String × NodeDef) :
    String × NodeDef :=
  if nd.1 = g then
    (nd.1, match nd.2 with
      | NodeDef.processGroup _ part => NodeDef.processGroup sel' part
      | d => d)
  else nd

/-- Modelled from the spec (§3): the caller edits a process group's selection
between weaves; this rebuilds the definition with the new selection. -/
def updateSel (sdd : SankeyDefinition) (g : String) (sel' : List String) :
    SankeyDefinition :=
  ⟨sdd.nodes.map (updateSelNode g sel'), sdd.bundles, sdd.ordering⟩

/-- Modelled from the spec (§5): a session of weave invocations, one after the
other; the engine keeps no state between invocations, so a session is just the
list of the individual results. -/
def weaveSession (l : List (SankeyDefinition × List FlowRecord)) :
    List (Except Err ResolvedGraph) :=
  l.map (fun pr => weave pr.1 pr.2)

/-! ## Concrete scenario data (from the system-boundary tutorial) -/

/-- Two farms and one customer, one direct bundle, no explicit Elsewhere
routing (quickstart-like scenario of the tutorial). -/
def demoSdd : SankeyDefinition :=
  ⟨[("farms", .processGroup ["f1", "f2"] none), ("cust", .processGroup ["J"] none)],
   [⟨.ref "farms", .ref "cust", []⟩],
   [[["farms"]], [["cust"]]]⟩

/-- Flow records for `demoSdd`: one internal flow and one flow leaving the
system boundary. -/
def demoRecords : List FlowRecord :=
  [⟨"f1", "J", 3, []⟩, ⟨"f2", "x", 2, []⟩]

/-- The fruit-type partition of the tutorial (apples/bananas). -/
def fruitPart : Partition :=
  ⟨"type", [⟨"ap", ["ap"], false⟩, ⟨"ba", ["ba"], false⟩]⟩

/-- Scenario D of the spec: farms and a customer, plus an explicit Bundle
from the farm group to Elsewhere through the `exp` waypoint, whose partition
is a parameter. -/
def c8Sdd (wpart : Option Partition) : SankeyDefinition :=
  ⟨[("farms", .processGroup ["f1", "f2"] none), ("cust", .processGroup ["J"] none),
    ("exp", .waypoint wpart)],
   [⟨.ref "farms", .ref "cust", []⟩, ⟨.ref "farms", .elsewhere, ["exp"]⟩],
   [[["farms"]], [["exp", "cust"]]]⟩

/-- Records for scenario D: one internal flow and two boundary-crossing flows
of different fruit types. -/
def c8Records : List FlowRecord :=
  [⟨"f1", "J", 3, [("type", "ap")]⟩, ⟨"f1", "x1", 4, [("type", "ap")]⟩,
   ⟨"f2", "x2", 5, [("type", "ba")]⟩]

/-- A one-group definition used to exhibit a negative implicit-elsewhere
remainder. -/
def negSdd : SankeyDefinition :=
  ⟨[("A", .processGroup ["a"] none)], [], [[["A"]]]⟩

/-- A single negative-valued record into the selected process. -/
def negRecords : List FlowRecord := [⟨"q", "a", -1, []⟩]

/-- A two-group partition used as a concrete partition-resolution input. -/
def c6Part : Partition :=
  ⟨"process", [⟨"g1", ["a"], false⟩, ⟨"g2", ["b"], false⟩]⟩

/-- Base definition for the explicit-overrides-implicit scenario: group `A`,
counterpart `C`, an unused waypoint `w`, and a single direct bundle. -/
def c3Sdd : SankeyDefinition :=
  ⟨[("A", .processGroup ["a"] none), ("C", .processGroup ["c"] none),
    ("w", .waypoint none)],
   [⟨.ref "A", .ref "C", []⟩],
   [[["A"]], [["w", "C"]]]⟩

/-- The same definition with the explicit Bundle `A → Elsewhere via w`. -/
def c3SddE : SankeyDefinition :=
  ⟨c3Sdd.nodes, c3Sdd.bundles ++ [⟨.ref "A", .elsewhere, ["w"]⟩], c3Sdd.ordering⟩

/-- Records for the explicit-overrides-implicit scenario: one claimed internal
flow and one boundary-crossing flow out of `A`. -/
def c3Records : List FlowRecord := [⟨"a", "c", 3, []⟩, ⟨"a", "x", 2, []⟩]

/-- Counterexample data: two visible groups with no bundle between them, so an
unclaimed internal flow exists besides a boundary-crossing one. -/
def c3CexSdd : SankeyDefinition :=
  ⟨[("A", .processGroup ["a"] none), ("B", .processGroup ["b"] none),
    ("w", .waypoint none)],
   [],
   [[["A"]], [["w", "B"]]]⟩

/-- The counterexample definition with the explicit Bundle added. -/
def c3CexSddE : SankeyDefinition :=
  ⟨c3CexSdd.nodes, c3CexSdd.bundles ++ [⟨.ref "A", .elsewhere, ["w"]⟩],
   c3CexSdd.ordering⟩

/-- Records for the counterexample: an unclaimed internal flow of value 1 and
a boundary-crossing flow of value 2. -/
def c3CexRecords : List FlowRecord := [⟨"a", "b", 1, []⟩, ⟨"a", "x", 2, []⟩]

/-- Selection-monotonicity scenario: two farms feeding one customer. -/
def c4Sdd : SankeyDefinition :=
  ⟨[("F", .processGroup ["f1", "f2"] none), ("C", .processGroup ["c"] none)],
   [⟨.ref "F", .ref "C", []⟩],
   [[["F"]], [["C"]]]⟩

/-- Records for the selection-monotonicity scenario. -/
def c4Records : List FlowRecord := [⟨"f1", "c", 1, []⟩, ⟨"f2", "c", 2, []⟩]

/-- Counterexample data for selection monotonicity as literally stated: the
same scenario with an explicit Bundle from Elsewhere into the customer
group. -/
def c4CexSdd : SankeyDefinition :=
  ⟨[("F", .processGroup ["f1", "f2"] none), ("C", .processGroup ["c"] none)],
   [⟨.ref "F", .ref "C", []⟩, ⟨.elsewhere, .ref "C", []⟩],
   [[["F"]], [["C"]]]⟩

/-- A definition containing a process group with an empty selection. -/
def c7Sdd : SankeyDefinition :=
  ⟨[("E", .processGroup [] none), ("A", .processGroup ["a"] none)],
   [⟨.ref "E", .ref "A", []⟩],
   [[["E", "A"]]]⟩

/-- A record flowing into the system from outside. -/
def c7Records : List FlowRecord := [⟨"q", "a", 1, []⟩]

/-- Counterexample data for unconditional conservation: two visible groups, a
record flowing between them that no bundle claims, and an explicit Elsewhere
bundle suppressing the implicit synthesis at the source group. -/
def c1CexSdd : SankeyDefinition :=
  ⟨[("A", .processGroup ["a"] none), ("B", .processGroup ["b"] none)],
   [⟨.ref "A", .elsewhere, []⟩],
   [[["A"]], [["B"]]]⟩

/-- The single unclaimed internal record of the conservation counterexample. -/
def c1CexRecords : List FlowRecord := [⟨"a", "b", 1, []⟩]

/-- A definition with one group, one waypoint-routed elsewhere bundle and a
two-band ordering (layout-rearrangement scenario, first arrangement). -/
def c10Sdd1 : SankeyDefinition :=
  ⟨[("farms", .processGroup ["f1", "f2"] none), ("cust", .processGroup ["J"] none),
    ("exp", .waypoint none)],
   [⟨.ref "farms", .ref "cust", []⟩, ⟨.ref "farms", .elsewhere, ["exp"]⟩],
   [[["farms"]], [["exp", "cust"]]]⟩

/-- The same definition with the second layer rearranged into two horizontal
bands, one of them preceded by an empty band. -/
def c10Sdd2 : SankeyDefinition :=
  ⟨c10Sdd1.nodes, c10Sdd1.bundles,
   [[[], ["farms"]], [["cust"], ["exp"]]]⟩

/-! ### Named forms of the check predicates (used to reason about the checks) -/

/-- The per-name predicate of `checkNames`. -/
def nameBad (sdd : SankeyDefinition) (n : String) : Bool :=
  decide (1 < (sdd.nodes.map Prod.fst).count n)

/-- The per-bundle predicate of `checkBundles`. -/
def bundleBad (sdd : SankeyDefinition) (b : Bundle) : Bool :=
  (match b.source with
    | .ref n => (lookupDef sdd n).isNone
    | .elsewhere => false) ||
  (match b.target with
    | .ref n => (lookupDef sdd n).isNone
    | .elsewhere => false) ||
  b.waypoints.any (fun w =>
    match lookupDef sdd w with
    | some (.waypoint _) => false
    | _ => true)

/-- The error name reported by `checkBundles`. -/
def bundleErrName (b : Bundle) : String :=
  match b.source with | .ref n => n | .elsewhere => ""

/-- The per-node predicate of `classifyCheck`. -/
def classifyNodeBad (nd : String × NodeDef) : Bool :=
  match nd.2 with
  | .processGroup sel (some p) => sel.any (fun q => (resolveItem p q).isNone)
  | _ => false

/-- The error reported by `classifyCheck` for an offending node. -/
def classifyNodeErr (nd : String × NodeDef) : Err :=
  match nd.2 with
  | .processGroup sel (some p) =>
    match sel.find? (fun q => (resolveItem p q).isNone) with
    | some q => .unmatchedItem p.dimension q
    | none => .unmatchedItem "" ""
  | _ => .unmatchedItem "" ""

/-- The per-record predicate of `classifyCheck`. -/
def classifyRecBad (sdd : SankeyDefinition) (f : FlowRecord) : Bool :=
  match attributeRecord sdd f with
  | some b => b.waypoints.any (fun w =>
      match lookupDef sdd w with
      | some (.waypoint (some p)) => (wpLabel p f).isNone
      | _ => false)
  | none => false

/-- The per-record predicate of `ambiguityCheck`. -/
def ambigBad (sdd : SankeyDefinition) (f : FlowRecord) : Bool :=
  decide (2 ≤ (matchingBundles sdd f).length)

/-- The unknown-reference predicate of `orderingCheck`. -/
def ordUnknown (sdd : SankeyDefinition) (n : String) : Bool :=
  (lookupDef sdd n).isNone

/-- Whether an ordering reference materializes at least one sub-node. -/
def ordMat (sdd : SankeyDefinition) (records : List FlowRecord) (n : String) : Bool :=
  !(subIdsOf sdd records n).isEmpty

/-- The duplicate-placement predicate of `orderingCheck`. -/
def ordDup (sdd : SankeyDefinition) (records : List FlowRecord) (n : String) : Bool :=
  decide (1 < ((orderingNames sdd).filter (ordMat sdd records)).count n)

/-- The unplaced-node predicate of `orderingCheck`. -/
def ordUnplaced (sdd : SankeyDefinition) (records : List FlowRecord)
    (nd : String × NodeDef) : Bool :=
  !(subIdsOf sdd records nd.1).isEmpty && decide (nd.1 ∉ orderingNames sdd)

/-- The per-sub-node predicate of `conservationCheck`. -/
def consBad (sdd : SankeyDefinition) (records : List FlowRecord)
    (x : String × Option String × List String) : Bool :=
  decide (implicitIn sdd records x.1 x.2.2 < 0) ||
  decide (implicitOut sdd records x.1 x.2.2 < 0)

/-! ## Generic list-sum lemmas -/

theorem sum_map_filter_split {α : Type} (l : List α) (p : α → Bool) (v : α → ℤ) :
    (l.map v).sum
      = ((l.filter p).map v).sum + ((l.filter (fun a => !p a)).map v).sum := by
  induction l with
  | nil => simp
  | cons a t ih =>
    by_cases h : p a = true
    · simp only [List.filter_cons, h, List.map_cons, List.sum_cons, Bool.not_true,
        if_true, if_false, Bool.false_eq_true]
      rw [ih]; ring
    · simp only [List.filter_cons, h, List.map_cons, List.sum_cons, Bool.not_eq_true',
        if_false, Bool.false_eq_true]
      simp only [Bool.not_eq_true] at h
      simp only [h, Bool.not_false, if_true, List.map_cons, List.sum_cons]
      rw [ih]; ring

theorem sum_flatMap_filter {α β : Type} (l : List α) (f : α → List β) (p : β → Bool)
    (v : β → ℤ) :
    (((l.flatMap f).filter p).map v).sum
      = (l.map (fun a => (((f a).filter p).map v).sum)).sum := by
  induction l with
  | nil => simp
  | cons a t ih =>
    simp only [List.flatMap_cons, List.filter_append, List.map_append, List.sum_append,
      List.map_cons, List.sum_cons, ih]

theorem sum_over_keys {β K : Type} [DecidableEq K] (key : β → K) (v : β → ℤ) :
    ∀ (ks : List K) (cs : List β), ks.Nodup → (∀ c ∈ cs, key c ∈ ks) →
      (ks.map (fun k => ((cs.filter (fun c => decide (key c = k))).map v).sum)).sum
        = (cs.map v).sum := by
  intro ks
  induction ks with
  | nil =>
    intro cs _ hcov
    have : cs = [] := by
      cases cs with
      | nil => rfl
      | cons c t => exact absurd (hcov c (by simp)) (by simp)
    simp [this]
  | cons k ks ih =>
    intro cs hnd hcov
    have hk : k ∉ ks := (List.nodup_cons.mp hnd).1
    have hnd' : ks.Nodup := (List.nodup_cons.mp hnd).2
    have hrw : ∀ k' ∈ ks,
        ((cs.filter (fun c => decide (key c = k'))).map v).sum
          = (((cs.filter (fun c => !decide (key c = k))).filter
              (fun c => decide (key c = k'))).map v).sum := by
      intro k' hk'
      have hne : k' ≠ k := fun h => hk (h ▸ hk')
      rw [List.filter_filter]
      congr 1
      apply congrArg
      apply List.filter_congr
      intro c _
      by_cases hc : key c = k'
      · have : key c ≠ k := fun h => hne (by rw [← hc, h])
        simp [hc, this, hne]
      · simp [hc]
    have hcong : (ks.map (fun k' => ((cs.filter (fun c => decide (key c = k'))).map v).sum))
        = (ks.map (fun k' => (((cs.filter (fun c => !decide (key c = k))).filter
            (fun c => decide (key c = k'))).map v).sum)) :=
      List.map_congr_left hrw
    have hcov' : ∀ c ∈ cs.filter (fun c => !decide (key c = k)), key c ∈ ks := by
      intro c hc
      have hm := List.of_mem_filter hc
      have hcmem := List.mem_of_mem_filter hc
      have := hcov c hcmem
      simp only [Bool.not_eq_true', decide_eq_false_iff_not] at hm
      rcases List.mem_cons.mp this with h | h
      · exact absurd h hm
      · exact h
    calc (((k :: ks).map (fun k' => ((cs.filter (fun c => decide (key c = k'))).map v).sum)).sum)
        = ((cs.filter (fun c => decide (key c = k))).map v).sum
          + (ks.map (fun k' => ((cs.filter (fun c => decide (key c = k'))).map v).sum)).sum := by
          simp
      _ = ((cs.filter (fun c => decide (key c = k))).map v).sum
          + ((cs.filter (fun c => !decide (key c = k))).map v).sum := by
          rw [hcong, ih (cs.filter (fun c => !decide (key c = k))) hnd' hcov']
      _ = (cs.map v).sum := (sum_map_filter_split cs (fun c => decide (key c = k)) v).symm

theorem flatMap_filter_nil {α β : Type} (L : List α) (f : α → List β) (p : β → Bool)
    (h : ∀ a ∈ L, (f a).filter p = []) : (L.flatMap f).filter p = [] := by
  induction L with
  | nil => simp
  | cons a t ih =>
    simp only [List.flatMap_cons, List.filter_append]
    rw [h a (by simp), ih (fun a ha => h a (by simp [ha]))]
    rfl

theorem flatMap_filter_single {α β : Type} [DecidableEq α] (L : List α) (f : α → List β)
    (p : β → Bool) (a₀ : α) (h1 : L.count a₀ = 1)
    (h2 : ∀ a ∈ L, a ≠ a₀ → (f a).filter p = []) :
    (L.flatMap f).filter p = (f a₀).filter p := by
  induction L with
  | nil => simp at h1
  | cons a t ih =>
    by_cases ha : a = a₀
    · subst ha
      have hcnt : t.count a = 0 := by
        have := List.count_cons_self a t
        omega
      have hnot : a ∉ t := by
        intro hmem
        have := List.count_pos_iff.mpr hmem
        omega
      have : (t.flatMap f).filter p = [] := by
        apply flatMap_filter_nil
        intro b hb
        exact h2 b (by simp [hb]) (fun h => hnot (h ▸ hb))
      simp only [List.flatMap_cons, List.filter_append, this, List.append_nil]
    · have hcnt : t.count a₀ = 1 := by
        rw [List.count_cons] at h1
        simpa [ha] using h1
      have := h2 a (by simp) ha
      simp only [List.flatMap_cons, List.filter_append, this, List.nil_append]
      exact ih hcnt (fun b hb hne => h2 b (by simp [hb]) hne)

theorem sum_filter_mono {α : Type} (l : List α) (p q : α → Bool) (v : α → ℤ)
    (hpq : ∀ a ∈ l, p a = true → q a = true) (hv : ∀ a ∈ l, 0 ≤ v a) :
    ((l.filter p).map v).sum ≤ ((l.filter q).map v).sum := by
  induction l with
  | nil => simp
  | cons a t ih =>
    have iht := ih (fun b hb => hpq b (by simp [hb])) (fun b hb => hv b (by simp [hb]))
    by_cases hp : p a = true
    · have hq := hpq a (by simp) hp
      simp only [List.filter_cons, hp, hq, if_true, List.map_cons, List.sum_cons]
      linarith
    · by_cases hq : q a = true
      · simp only [List.filter_cons, hp, hq, if_true, if_false, Bool.false_eq_true,
          List.map_cons, List.sum_cons]
        have := hv a (by simp)
        linarith
      · simp only [List.filter_cons, hp, hq, if_false, Bool.false_eq_true]
        exact iht

theorem sum_filter_eq_map_ite {α : Type} (l : List α) (p : α → Bool) (v : α → ℤ) :
    ((l.filter p).map v).sum = (l.map (fun a => if p a = true then v a else 0)).sum := by
  induction l with
  | nil => simp
  | cons a t ih =>
    by_cases hp : p a = true
    · simp [List.filter_cons, hp, ih]
    · simp [List.filter_cons, hp, ih]

/-! ## Aggregation preserves filtered sums -/

theorem aggregate_filter_sum (cs : List Contrib)
    (P : NodeId × NodeId × Option (Endpoint × Endpoint) → Bool) :
    (((aggregate cs).filter (fun lk => P (lk.source, lk.target, lk.btag))).map
        (fun lk => lk.value)).sum
      = ((cs.filter (fun c => P c.key)).map (fun c => c.value)).sum := by
  unfold aggregate
  rw [List.filter_map]
  rw [List.map_map]
  have hcomp : ∀ k : NodeId × NodeId × Option (Endpoint × Endpoint),
      ((fun lk : AggregatedLink => P (lk.source, lk.target, lk.btag)) ∘
        (fun k : NodeId × NodeId × Option (Endpoint × Endpoint) =>
          (⟨k.1, k.2.1, k.2.2,
            ((cs.filter (fun c => decide (c.key = k))).map (fun c => c.value)).sum⟩ :
            AggregatedLink))) k = P k := by
    intro k; rfl
  rw [List.filter_congr (fun k _ => hcomp k)]
  have hks : ((cs.map Contrib.key).dedup.filter P).Nodup :=
    (List.nodup_dedup (cs.map Contrib.key)).filter P
  have hcov : ∀ c ∈ cs.filter (fun c => P c.key),
      c.key ∈ (cs.map Contrib.key).dedup.filter P := by
    intro c hc
    rw [List.mem_filter]
    refine ⟨List.mem_dedup.mpr (List.mem_map.mpr ⟨c, List.mem_of_mem_filter hc, rfl⟩), ?_⟩
    exact (List.mem_filter.mp hc).2
  have hinner : ∀ k ∈ (cs.map Contrib.key).dedup.filter P,
      ((cs.filter (fun c => decide (c.key = k))).map (fun c => c.value)).sum
        = (((cs.filter (fun c => P c.key)).filter
            (fun c => decide (c.key = k))).map (fun c => c.value)).sum := by
    intro k hk
    have hPk : P k = true := List.of_mem_filter hk
    rw [List.filter_filter]
    congr 1
    apply congrArg
    apply List.filter_congr
    intro c _
    by_cases hc : c.key = k
    · simp [hc, hPk]
    · simp [hc]
  calc (((cs.map Contrib.key).dedup.filter P).map
          (fun k => ((cs.filter (fun c => decide (c.key = k))).map (fun c => c.value)).sum)).sum
      = (((cs.map Contrib.key).dedup.filter P).map
          (fun k => (((cs.filter (fun c => P c.key)).filter
            (fun c => decide (c.key = k))).map (fun c => c.value)).sum)).sum := by
        exact congrArg List.sum (List.map_congr_left hinner)
    _ = ((cs.filter (fun c => P c.key)).map (fun c => c.value)).sum :=
        sum_over_keys Contrib.key (fun c => c.value) _ _ hks hcov

theorem aggregate_filter_sum_tb (cs : List Contrib) (n : NodeId)
    (P : Option (Endpoint × Endpoint) → Bool) :
    (((aggregate cs).filter (fun lk => decide (lk.target = n) && P lk.btag)).map
        (fun lk => lk.value)).sum
      = ((cs.filter (fun c => decide (c.target = n) && P c.btag)).map
          (fun c => c.value)).sum := by
  have h := aggregate_filter_sum cs
    (fun k : NodeId × NodeId × Option (Endpoint × Endpoint) =>
      decide (k.2.1 = n) && P k.2.2)
  exact h

theorem aggregate_filter_sum_sb (cs : List Contrib) (n : NodeId)
    (P : Option (Endpoint × Endpoint) → Bool) :
    (((aggregate cs).filter (fun lk => decide (lk.source = n) && P lk.btag)).map
        (fun lk => lk.value)).sum
      = ((cs.filter (fun c => decide (c.source = n) && P c.btag)).map
          (fun c => c.value)).sum := by
  have h := aggregate_filter_sum cs
    (fun k : NodeId × NodeId × Option (Endpoint × Endpoint) =>
      decide (k.1 = n) && P k.2.2)
  exact h

/-! ## Elimination lemmas for the weave-time checks -/

theorem weave_ok_parts {sdd : SankeyDefinition} {records : List FlowRecord}
    {G : ResolvedGraph} (h : weave sdd records = .ok G) :
    checkNames sdd = .ok () ∧ checkBundles sdd = .ok () ∧
      classifyCheck sdd records = .ok () ∧ ambiguityCheck sdd records = .ok () ∧
      orderingCheck sdd records = .ok () ∧ conservationCheck sdd records = .ok () ∧
      G = buildGraph sdd records := by
  unfold weave at h
  cases h1 : checkNames sdd with
  | error e => rw [h1] at h; exact absurd h (by simp)
  | ok u =>
    cases u
    rw [h1] at h
    cases h2 : checkBundles sdd with
    | error e => rw [h2] at h; exact absurd h (by simp)
    | ok u =>
      cases u
      rw [h2] at h
      cases h3 : classifyCheck sdd records with
      | error e => rw [h3] at h; exact absurd h (by simp)
      | ok u =>
        cases u
        rw [h3] at h
        cases h4 : ambiguityCheck sdd records with
        | error e => rw [h4] at h; exact absurd h (by simp)
        | ok u =>
          cases u
          rw [h4] at h
          cases h5 : orderingCheck sdd records with
          | error e => rw [h5] at h; exact absurd h (by simp)
          | ok u =>
            cases u
            rw [h5] at h
            cases h6 : conservationCheck sdd records with
            | error e => rw [h6] at h; exact absurd h (by simp)
            | ok u =>
              cases u
              rw [h6] at h
              simp only [Except.ok.injEq] at h
              exact ⟨rfl, rfl, rfl, rfl, rfl, rfl, h.symm⟩

theorem checkNames_ok_nodup {sdd : SankeyDefinition}
    (h : checkNames sdd = .ok ()) : (sdd.nodes.map Prod.fst).Nodup := by
  unfold checkNames at h
  cases hf : (sdd.nodes.map Prod.fst).find?
      (fun n => decide (1 < (sdd.nodes.map Prod.fst).count n)) with
  | some n => rw [hf] at h; exact absurd h (by simp)
  | none =>
    rw [List.nodup_iff_count_le_one]
    intro a
    by_cases ha : a ∈ sdd.nodes.map Prod.fst
    · have := List.find?_eq_none.mp hf a ha
      simp only [decide_eq_true_eq] at this
      omega
    · rw [List.count_eq_zero.mpr ha]; omega

theorem checkBundles_ok_wp {sdd : SankeyDefinition} (h : checkBundles sdd = .ok ())
    {b : Bundle} (hb : b ∈ sdd.bundles) :
    ∀ w ∈ b.waypoints, ∃ part, lookupDef sdd w = some (.waypoint part) := by
  unfold checkBundles at h
  cases hf : sdd.bundles.find? (fun b =>
      (match b.source with
        | .ref n => (lookupDef sdd n).isNone
        | .elsewhere => false) ||
      (match b.target with
        | .ref n => (lookupDef sdd n).isNone
        | .elsewhere => false) ||
      b.waypoints.any (fun w =>
        match lookupDef sdd w with
        | some (.waypoint _) => false
        | _ => true)) with
  | some b' => rw [hf] at h; exact absurd h (by simp)
  | none =>
    have hbf := List.find?_eq_none.mp hf b hb
    simp only [Bool.or_eq_true, not_or] at hbf
    intro w hw
    have hwf : ¬ (b.waypoints.any (fun w =>
        match lookupDef sdd w with
        | some (.waypoint _) => false
        | _ => true) = true) := hbf.2
    rw [List.any_eq_true] at hwf
    push_neg at hwf
    have := hwf w hw
    cases hl : lookupDef sdd w with
    | none => rw [hl] at this; simp at this
    | some d =>
      cases d with
      | processGroup sel part => rw [hl] at this; simp at this
      | waypoint part => exact ⟨part, rfl⟩

theorem classifyCheck_ok_pg {sdd : SankeyDefinition} {records : List FlowRecord}
    (h : classifyCheck sdd records = .ok ()) :
    ∀ nd ∈ sdd.nodes, ∀ sel p, nd.2 = NodeDef.processGroup sel (some p) →
      ∀ q ∈ sel, (resolveItem p q).isSome := by
  unfold classifyCheck at h
  cases hf : sdd.nodes.find? (fun nd =>
      match nd.2 with
      | .processGroup sel (some p) => sel.any (fun q => (resolveItem p q).isNone)
      | _ => false) with
  | some nd => rw [hf] at h; exact absurd h (by simp)
  | none =>
    intro nd hnd sel p hdef q hq
    have := List.find?_eq_none.mp hf nd hnd
    rw [hdef] at this
    simp only [Bool.not_eq_true, List.any_eq_false] at this
    have := this q hq
    cases hri : resolveItem p q with
    | none => rw [hri] at this; simp at this
    | some l => simp

theorem classifyCheck_ok_wp {sdd : SankeyDefinition} {records : List FlowRecord}
    (h : classifyCheck sdd records = .ok ()) :
    ∀ f ∈ records, ∀ b, attributeRecord sdd f = some b →
      ∀ w ∈ b.waypoints, ∀ p, lookupDef sdd w = some (.waypoint (some p)) →
        (wpLabel p f).isSome := by
  unfold classifyCheck at h
  cases hf : sdd.nodes.find? (fun nd =>
      match nd.2 with
      | .processGroup sel (some p) => sel.any (fun q => (resolveItem p q).isNone)
      | _ => false) with
  | some nd => rw [hf] at h; exact absurd h (by simp)
  | none =>
    rw [hf] at h
    cases hg : records.find? (fun f =>
        match attributeRecord sdd f with
        | some b => b.waypoints.any (fun w =>
            match lookupDef sdd w with
            | some (.waypoint (some p)) => (wpLabel p f).isNone
            | _ => false)
        | none => false) with
    | some f => rw [hg] at h; exact absurd h (by simp)
    | none =>
      intro f hfm b hb w hw p hp
      have := List.find?_eq_none.mp hg f hfm
      rw [hb] at this
      simp only [Bool.not_eq_true, List.any_eq_false] at this
      have := this w hw
      simp only [hp] at this
      cases hwl : wpLabel p f with
      | none => rw [hwl] at this; simp at this
      | some l => simp

theorem ambiguityCheck_ok {sdd : SankeyDefinition} {records : List FlowRecord}
    (h : ambiguityCheck sdd records = .ok ()) :
    ∀ f ∈ records, (matchingBundles sdd f).length ≤ 1 := by
  unfold ambiguityCheck at h
  cases hf : records.find? (fun f => decide (2 ≤ (matchingBundles sdd f).length)) with
  | some f => rw [hf] at h; exact absurd h (by simp)
  | none =>
    intro f hfm
    have := List.find?_eq_none.mp hf f hfm
    simp only [decide_eq_true_eq] at this
    omega

theorem conservationCheck_ok {sdd : SankeyDefinition} {records : List FlowRecord}
    (h : conservationCheck sdd records = .ok ()) :
    ∀ x ∈ pgSubnodes sdd, 0 ≤ implicitIn sdd records x.1 x.2.2 ∧
      0 ≤ implicitOut sdd records x.1 x.2.2 := by
  unfold conservationCheck at h
  cases hf : (pgSubnodes sdd).find? (fun x =>
      decide (implicitIn sdd records x.1 x.2.2 < 0) ||
      decide (implicitOut sdd records x.1 x.2.2 < 0)) with
  | some x => rw [hf] at h; exact absurd h (by simp)
  | none =>
    intro x hx
    have := List.find?_eq_none.mp hf x hx
    simp only [Bool.or_eq_true, decide_eq_true_eq, not_or, not_lt] at this
    exact this

/-! ## Attribution and lookup facts -/

theorem attributeRecord_eq_iff {sdd : SankeyDefinition} {f : FlowRecord} {b : Bundle} :
    attributeRecord sdd f = some b ↔ matchingBundles sdd f = [b] := by
  unfold attributeRecord
  cases hl : matchingBundles sdd f with
  | nil => simp
  | cons x t =>
    cases t with
    | nil => simp
    | cons y s => simp

theorem attributeRecord_mem {sdd : SankeyDefinition} {f : FlowRecord} {b : Bundle}
    (h : attributeRecord sdd f = some b) :
    b ∈ sdd.bundles ∧ bundleMatches sdd b f = true := by
  have hl := attributeRecord_eq_iff.mp h
  have hb : b ∈ matchingBundles sdd f := by rw [hl]; simp
  unfold matchingBundles at hb
  exact ⟨(List.mem_filter.mp hb).1, (List.mem_filter.mp hb).2⟩

theorem attributeRecord_of_matches {sdd : SankeyDefinition} {f : FlowRecord} {b : Bundle}
    (hlen : (matchingBundles sdd f).length ≤ 1) (hb : b ∈ sdd.bundles)
    (hm : bundleMatches sdd b f = true) : attributeRecord sdd f = some b := by
  have hmem : b ∈ matchingBundles sdd f := List.mem_filter.mpr ⟨hb, hm⟩
  rw [attributeRecord_eq_iff]
  cases hl : matchingBundles sdd f with
  | nil => rw [hl] at hmem; exact absurd hmem (by simp)
  | cons x t =>
    cases t with
    | nil =>
      rw [hl] at hmem
      simp only [List.mem_singleton] at hmem
      rw [hmem]
    | cons y s => rw [hl] at hlen; simp at hlen

theorem lookupDef_mem {sdd : SankeyDefinition} {n : String} {d : NodeDef}
    (h : lookupDef sdd n = some d) : (n, d) ∈ sdd.nodes := by
  unfold lookupDef at h
  cases hf : sdd.nodes.find? (fun nd => decide (nd.1 = n)) with
  | none => rw [hf] at h; simp at h
  | some nd =>
    rw [hf] at h
    have hmem := List.mem_of_find?_eq_some hf
    have hpred := List.find?_some hf
    simp only [decide_eq_true_eq] at hpred
    obtain ⟨a, b⟩ := nd
    simp only at hpred
    have hb : b = d := by simpa using h
    rw [← hpred, ← hb]
    exact hmem

theorem find_pair_eq {n : String} {d : NodeDef} :
    ∀ (L : List (String × NodeDef)), (L.map Prod.fst).Nodup → (n, d) ∈ L →
      L.find? (fun nd => decide (nd.1 = n)) = some (n, d) := by
  intro L
  induction L with
  | nil => intro _ hmem; exact absurd hmem (by simp)
  | cons nd t ih =>
    intro hnod hmem
    simp only [List.map_cons, List.nodup_cons] at hnod
    rcases List.mem_cons.mp hmem with h | h
    · rw [← h]
      simp [List.find?_cons]
    · have hne : nd.1 ≠ n := by
        intro he
        exact hnod.1 (he ▸ (List.mem_map.mpr ⟨(n, d), h, rfl⟩))
      rw [List.find?_cons]
      have : (decide (nd.1 = n)) = false := by simp [hne]
      rw [this]
      exact ih hnod.2 h

theorem lookupDef_eq_of_mem {sdd : SankeyDefinition} {n : String} {d : NodeDef}
    (hnod : (sdd.nodes.map Prod.fst).Nodup) (hmem : (n, d) ∈ sdd.nodes) :
    lookupDef sdd n = some d := by
  unfold lookupDef
  rw [find_pair_eq sdd.nodes hnod hmem]
  rfl

/-! ## Per-record link contributions -/

theorem segs_map_snd : ∀ (s : NodeId) (L : List NodeId),
    (segs s L).map (fun uv => uv.2) = L := by
  intro s L
  induction L generalizing s with
  | nil => rfl
  | cons h t ih => simp [segs, ih]

theorem segs_map_fst : ∀ (s : NodeId) (L : List NodeId),
    (segs s L).map (fun uv => uv.1) = (s :: L).dropLast := by
  intro s L
  induction L generalizing s with
  | nil => rfl
  | cons h t ih =>
    simp only [segs, List.map_cons, ih]
    rfl

theorem count_mul_of_filter_snd (L : List (NodeId × NodeId)) (v : ℤ) (n : NodeId) :
    ((L.filter (fun uv => decide (uv.2 = n))).map
        (fun _ : NodeId × NodeId => v)).sum
      = ((L.map (fun uv => uv.2)).count n : ℤ) * v := by
  induction L with
  | nil => simp
  | cons uv t ih =>
    by_cases hn : uv.2 = n
    · rw [List.filter_cons_of_pos (by simp [hn])]
      simp only [List.map_cons, List.sum_cons, List.count_cons, hn, beq_self_eq_true,
        if_true]
      rw [ih]
      push_cast
      ring
    · rw [List.filter_cons_of_neg (by simp [hn])]
      simp only [List.map_cons, List.count_cons]
      rw [ih]
      have hb : (uv.2 == n) = false := by
        simp only [beq_eq_false_iff_ne]
        exact hn
      rw [hb]
      simp

theorem count_mul_of_filter_fst (L : List (NodeId × NodeId)) (v : ℤ) (n : NodeId) :
    ((L.filter (fun uv => decide (uv.1 = n))).map
        (fun _ : NodeId × NodeId => v)).sum
      = ((L.map (fun uv => uv.1)).count n : ℤ) * v := by
  induction L with
  | nil => simp
  | cons uv t ih =>
    by_cases hn : uv.1 = n
    · rw [List.filter_cons_of_pos (by simp [hn])]
      simp only [List.map_cons, List.sum_cons, List.count_cons, hn, beq_self_eq_true,
        if_true]
      rw [ih]
      push_cast
      ring
    · rw [List.filter_cons_of_neg (by simp [hn])]
      simp only [List.map_cons, List.count_cons]
      rw [ih]
      have hb : (uv.1 == n) = false := by
        simp only [beq_eq_false_iff_ne]
        exact hn
      rw [hb]
      simp

theorem mapmk_filter_target_sum (L : List (NodeId × NodeId))
    (tg : Option (Endpoint × Endpoint)) (v : ℤ) (n : NodeId)
    (P : Option (Endpoint × Endpoint) → Bool) :
    (((L.map (fun uv => (⟨uv.1, uv.2, tg, v⟩ : Contrib))).filter
        (fun c => decide (c.target = n) && P c.btag)).map (fun c => c.value)).sum
      = if P tg = true then ((L.map (fun uv => uv.2)).count n : ℤ) * v else 0 := by
  have hfm : (L.map (fun uv => (⟨uv.1, uv.2, tg, v⟩ : Contrib))).filter
      (fun c => decide (c.target = n) && P c.btag)
      = (L.filter (fun uv => decide (uv.2 = n) && P tg)).map
          (fun uv => (⟨uv.1, uv.2, tg, v⟩ : Contrib)) := by
    rw [List.filter_map]
    rfl
  rw [hfm, List.map_map]
  by_cases hP : P tg = true
  · rw [if_pos hP]
    have hfe : L.filter (fun uv => decide (uv.2 = n) && P tg)
        = L.filter (fun uv => decide (uv.2 = n)) := by
      apply List.filter_congr
      intro uv _
      rw [hP, Bool.and_true]
    rw [hfe]
    exact count_mul_of_filter_snd L v n
  · rw [if_neg hP]
    have hPf : P tg = false := by
      cases hpp : P tg with
      | true => exact absurd hpp hP
      | false => rfl
    have hfe : L.filter (fun uv => decide (uv.2 = n) && P tg) = [] := by
      apply List.filter_eq_nil_iff.mpr
      intro uv _
      simp [hPf]
    rw [hfe]
    simp

theorem mapmk_filter_source_sum (L : List (NodeId × NodeId))
    (tg : Option (Endpoint × Endpoint)) (v : ℤ) (n : NodeId)
    (P : Option (Endpoint × Endpoint) → Bool) :
    (((L.map (fun uv => (⟨uv.1, uv.2, tg, v⟩ : Contrib))).filter
        (fun c => decide (c.source = n) && P c.btag)).map (fun c => c.value)).sum
      = if P tg = true then ((L.map (fun uv => uv.1)).count n : ℤ) * v else 0 := by
  have hfm : (L.map (fun uv => (⟨uv.1, uv.2, tg, v⟩ : Contrib))).filter
      (fun c => decide (c.source = n) && P c.btag)
      = (L.filter (fun uv => decide (uv.1 = n) && P tg)).map
          (fun uv => (⟨uv.1, uv.2, tg, v⟩ : Contrib)) := by
    rw [List.filter_map]
    rfl
  rw [hfm, List.map_map]
  by_cases hP : P tg = true
  · rw [if_pos hP]
    have hfe : L.filter (fun uv => decide (uv.1 = n) && P tg)
        = L.filter (fun uv => decide (uv.1 = n)) := by
      apply List.filter_congr
      intro uv _
      rw [hP, Bool.and_true]
    rw [hfe]
    exact count_mul_of_filter_fst L v n
  · rw [if_neg hP]
    have hPf : P tg = false := by
      cases hpp : P tg with
      | true => exact absurd hpp hP
      | false => rfl
    have hfe : L.filter (fun uv => decide (uv.1 = n) && P tg) = [] := by
      apply List.filter_eq_nil_iff.mpr
      intro uv _
      simp [hPf]
    rw [hfe]
    simp

theorem recordContribs_none {sdd : SankeyDefinition} {f : FlowRecord}
    (h : attributeRecord sdd f = none) : recordContribs sdd f = [] := by
  unfold recordContribs
  rw [h]

theorem recordContribs_eq {sdd : SankeyDefinition} {f : FlowRecord} {b : Bundle}
    (h : attributeRecord sdd f = some b) :
    recordContribs sdd f
      = (segs (endNodeT sdd b.source f.source)
          (b.waypoints.map (fun w => wpNodeT sdd w f)
            ++ [endNodeT sdd b.target f.target])).map
        (fun uv => ⟨uv.1, uv.2, some (b.source, b.target), f.value⟩) := by
  unfold recordContribs
  rw [h]
  rfl

theorem wp_nodes_ne_pg {sdd : SankeyDefinition} {f : FlowRecord} {b : Bundle}
    {m : String} {l : Option String}
    (hm : ∃ sel part, lookupDef sdd m = some (.processGroup sel part))
    (hwp : ∀ w ∈ b.waypoints, ∃ part, lookupDef sdd w = some (.waypoint part)) :
    NodeId.sub m l ∉ b.waypoints.map (fun w => wpNodeT sdd w f) := by
  intro hmem
  rcases List.mem_map.mp hmem with ⟨w, hw, heq⟩
  rcases hwp w hw with ⟨part, hlw⟩
  have hwm : w = m := by
    unfold wpNodeT at heq
    rw [hlw] at heq
    cases part with
    | none => exact (NodeId.sub.injEq _ _ _ _ ▸ heq).1.symm ▸ rfl
    | some p => exact (NodeId.sub.injEq _ _ _ _ ▸ heq).1.symm ▸ rfl
  rcases hm with ⟨sel, pt, hlm⟩
  rw [hwm] at hlw
  rw [hlm] at hlw
  simp at hlw

theorem recordContribs_target_sum {sdd : SankeyDefinition} {f : FlowRecord} {b : Bundle}
    {m : String} {l : Option String}
    (hab : attributeRecord sdd f = some b)
    (hm : ∃ sel part, lookupDef sdd m = some (.processGroup sel part))
    (hwp : ∀ w ∈ b.waypoints, ∃ part, lookupDef sdd w = some (.waypoint part))
    (P : Option (Endpoint × Endpoint) → Bool) :
    (((recordContribs sdd f).filter
        (fun c => decide (c.target = NodeId.sub m l) && P c.btag)).map
      (fun c => c.value)).sum
      = if endNodeT sdd b.target f.target = NodeId.sub m l
            ∧ P (some (b.source, b.target)) = true
        then f.value else 0 := by
  rw [recordContribs_eq hab, mapmk_filter_target_sum, segs_map_snd]
  have hnot := wp_nodes_ne_pg (f := f) (b := b) (l := l) hm hwp
  rw [List.count_append]
  rw [List.count_eq_zero.mpr hnot]
  by_cases hP : P (some (b.source, b.target)) = true
  · by_cases ht : endNodeT sdd b.target f.target = NodeId.sub m l
    · simp [hP, ht, List.count_singleton]
    · have : (NodeId.sub m l == endNodeT sdd b.target f.target) = false := by
        simp only [beq_eq_false_iff_ne]
        exact fun h => ht h.symm
      simp [hP, ht, List.count_singleton, this]
  · have hPf : P (some (b.source, b.target)) = false := by
      cases hpp : P (some (b.source, b.target)) with
      | true => exact absurd hpp hP
      | false => rfl
    simp [hPf]

theorem recordContribs_source_sum {sdd : SankeyDefinition} {f : FlowRecord} {b : Bundle}
    {m : String} {l : Option String}
    (hab : attributeRecord sdd f = some b)
    (hm : ∃ sel part, lookupDef sdd m = some (.processGroup sel part))
    (hwp : ∀ w ∈ b.waypoints, ∃ part, lookupDef sdd w = some (.waypoint part))
    (P : Option (Endpoint × Endpoint) → Bool) :
    (((recordContribs sdd f).filter
        (fun c => decide (c.source = NodeId.sub m l) && P c.btag)).map
      (fun c => c.value)).sum
      = if endNodeT sdd b.source f.source = NodeId.sub m l
            ∧ P (some (b.source, b.target)) = true
        then f.value else 0 := by
  rw [recordContribs_eq hab, mapmk_filter_source_sum, segs_map_fst]
  have hsrc : (endNodeT sdd b.source f.source ::
      (b.waypoints.map (fun w => wpNodeT sdd w f)
        ++ [endNodeT sdd b.target f.target])).dropLast
      = endNodeT sdd b.source f.source :: b.waypoints.map (fun w => wpNodeT sdd w f) := by
    rw [← List.cons_append]
    exact List.dropLast_concat
  rw [hsrc]
  have hnot := wp_nodes_ne_pg (f := f) (b := b) (l := l) hm hwp
  by_cases hP : P (some (b.source, b.target)) = true
  · by_cases hs : endNodeT sdd b.source f.source = NodeId.sub m l
    · rw [List.count_cons]
      rw [List.count_eq_zero.mpr hnot]
      simp [hP, hs]
    · rw [List.count_cons]
      rw [List.count_eq_zero.mpr hnot]
      have : (NodeId.sub m l == endNodeT sdd b.source f.source) = false := by
        simp only [beq_eq_false_iff_ne]
        exact fun h => hs h.symm
      simp [hP, hs, this]
  · have hPf : P (some (b.source, b.target)) = false := by
      cases hpp : P (some (b.source, b.target)) with
      | true => exact absurd hpp hP
      | false => rfl
    simp [hPf]

/-! ## Link classification by bundle tag -/

theorem sum_filter_split4 (ls : List AggregatedLink) (q : AggregatedLink → Bool) :
    ((ls.filter q).map (fun lk => lk.value)).sum
      = ((ls.filter (fun lk => q lk && tagDirect lk.btag)).map (fun lk => lk.value)).sum
      + ((ls.filter (fun lk => q lk && tagFromElse lk.btag)).map (fun lk => lk.value)).sum
      + ((ls.filter (fun lk => q lk && tagToElse lk.btag)).map (fun lk => lk.value)).sum
      + ((ls.filter (fun lk => q lk && tagSynth lk.btag)).map (fun lk => lk.value)).sum := by
  induction ls with
  | nil => simp
  | cons lk t ih =>
    by_cases hq : q lk = true
    · rcases hb : lk.btag with _ | ⟨es, et⟩
      · have hd : tagDirect lk.btag = false := by rw [hb]; rfl
        have hf : tagFromElse lk.btag = false := by rw [hb]; rfl
        have ht2 : tagToElse lk.btag = false := by rw [hb]; rfl
        have hs : tagSynth lk.btag = true := by rw [hb]; rfl
        simp only [List.filter_cons, hq, hd, hf, ht2, hs, Bool.true_and, Bool.and_false,
          Bool.and_true, if_true, if_false, Bool.false_eq_true, List.map_cons,
          List.sum_cons]
        rw [ih]; ring
      · cases es with
        | ref n1 =>
          cases et with
          | ref n2 =>
            have hd : tagDirect lk.btag = true := by rw [hb]; rfl
            have hf : tagFromElse lk.btag = false := by rw [hb]; rfl
            have ht2 : tagToElse lk.btag = false := by rw [hb]; rfl
            have hs : tagSynth lk.btag = false := by rw [hb]; rfl
            simp only [List.filter_cons, hq, hd, hf, ht2, hs, Bool.true_and, Bool.and_false,
              Bool.and_true, if_true, if_false, Bool.false_eq_true, List.map_cons,
              List.sum_cons]
            rw [ih]; ring
          | elsewhere =>
            have hd : tagDirect lk.btag = false := by rw [hb]; rfl
            have hf : tagFromElse lk.btag = false := by rw [hb]; rfl
            have ht2 : tagToElse lk.btag = true := by rw [hb]; rfl
            have hs : tagSynth lk.btag = false := by rw [hb]; rfl
            simp only [List.filter_cons, hq, hd, hf, ht2, hs, Bool.true_and, Bool.and_false,
              Bool.and_true, if_true, if_false, Bool.false_eq_true, List.map_cons,
              List.sum_cons]
            rw [ih]; ring
        | elsewhere =>
          have hd : tagDirect lk.btag = false := by rw [hb]; rfl
          have hf : tagFromElse lk.btag = true := by rw [hb]; rfl
          have ht2 : tagToElse lk.btag = false := by
            rw [hb]; cases et <;> rfl
          have hs : tagSynth lk.btag = false := by rw [hb]; rfl
          simp only [List.filter_cons, hq, hd, hf, ht2, hs, Bool.true_and, Bool.and_false,
            Bool.and_true, if_true, if_false, Bool.false_eq_true, List.map_cons,
            List.sum_cons]
          rw [ih]; ring
    · have hqf : q lk = false := by
        cases hqq : q lk with
        | true => exact absurd hqq hq
        | false => rfl
      simp only [List.filter_cons, hqf, Bool.false_and, if_false, Bool.false_eq_true]
      exact ih

/-! ## Synthesized links -/

theorem synthLinks_btag_none {sdd : SankeyDefinition} {records : List FlowRecord} :
    ∀ lk ∈ synthLinks sdd records, lk.btag = none := by
  intro lk hmem
  unfold synthLinks at hmem
  rcases List.mem_flatMap.mp hmem with ⟨x, _, hx⟩
  rcases List.mem_append.mp hx with h | h
  · unfold synthIn at h
    by_cases hc : 0 < implicitIn sdd records x.1 x.2.2 ∧ hasExplicitIn sdd x.1 = false
    · rw [if_pos hc] at h
      simp only [List.mem_singleton] at h
      rw [h]
    · rw [if_neg hc] at h
      exact absurd h (by simp)
  · unfold synthOut at h
    by_cases hc : 0 < implicitOut sdd records x.1 x.2.2 ∧ hasExplicitOut sdd x.1 = false
    · rw [if_pos hc] at h
      simp only [List.mem_singleton] at h
      rw [h]
    · rw [if_neg hc] at h
      exact absurd h (by simp)

theorem allContribs_btag_some {sdd : SankeyDefinition} {records : List FlowRecord} :
    ∀ c ∈ allContribs sdd records, c.btag ≠ none := by
  intro c hmem
  unfold allContribs at hmem
  rcases List.mem_flatMap.mp hmem with ⟨f, _, hf⟩
  cases hab : attributeRecord sdd f with
  | none => rw [recordContribs_none hab] at hf; exact absurd hf (by simp)
  | some b =>
    rw [recordContribs_eq hab] at hf
    rcases List.mem_map.mp hf with ⟨uv, _, heq⟩
    rw [← heq]
    simp

theorem aggregate_btag_some {cs : List Contrib} (hcs : ∀ c ∈ cs, c.btag ≠ none) :
    ∀ lk ∈ aggregate cs, lk.btag ≠ none := by
  intro lk hmem
  unfold aggregate at hmem
  rcases List.mem_map.mp hmem with ⟨k, hk, heq⟩
  have hk2 : k ∈ cs.map Contrib.key := List.mem_dedup.mp hk
  rcases List.mem_map.mp hk2 with ⟨c, hc, hck⟩
  have := hcs c hc
  rw [← heq]
  simp only
  rw [← hck]
  exact this

/-! ## Materialized process-group sub-nodes -/

theorem pgLabels_nodup (sel : List String) (part : Option Partition) :
    (pgLabels sel part).Nodup := by
  cases part with
  | none =>
    unfold pgLabels
    by_cases h : sel.isEmpty <;> simp [h]
  | some p =>
    unfold pgLabels
    apply List.Nodup.map
    · intro a b hab
      simpa using hab
    · exact ((p.groups.map (fun g => g.label)).nodup_dedup).filter _

theorem pgSubnodes_block_fst {nd : String × NodeDef}
    {x : String × Option String × List String}
    (hx : x ∈ (match nd.2 with
      | NodeDef.processGroup sel part =>
        (pgLabels sel part).map (fun l => (nd.1, l, subProcs sel part l))
      | NodeDef.waypoint _ => [])) : x.1 = nd.1 := by
  cases hd : nd.2 with
  | processGroup sel part =>
    rw [hd] at hx
    rcases List.mem_map.mp hx with ⟨l, _, heq⟩
    rw [← heq]
  | waypoint part => rw [hd] at hx; exact absurd hx (by simp)

theorem keys_nodup_aux :
    ∀ (L : List (String × NodeDef)), (L.map Prod.fst).Nodup →
      ((L.flatMap (fun nd => match nd.2 with
        | NodeDef.processGroup sel part =>
          (pgLabels sel part).map (fun l => (nd.1, l, subProcs sel part l))
        | NodeDef.waypoint _ => [])).map (fun x => (x.1, x.2.1))).Nodup := by
  intro L
  induction L with
  | nil => intro _; simp
  | cons nd t ih =>
    intro h
    simp only [List.map_cons, List.nodup_cons] at h
    rw [List.flatMap_cons, List.map_append]
    apply List.Nodup.append
    · cases hd : nd.2 with
      | processGroup sel part =>
        simp only [hd]
        rw [List.map_map]
        apply List.Nodup.map
        · intro a b hab
          simpa using hab
        · exact pgLabels_nodup sel part
      | waypoint part => simp [hd]
    · exact ih h.2
    · intro k hk1 hk2
      rcases List.mem_map.mp hk1 with ⟨x, hx, hxe⟩
      rcases List.mem_map.mp hk2 with ⟨y, hy, hye⟩
      have hx1 : x.1 = nd.1 := pgSubnodes_block_fst hx
      rcases List.mem_flatMap.mp hy with ⟨nd', hnd', hy'⟩
      have hy1 : y.1 = nd'.1 := pgSubnodes_block_fst hy'
      have hkx : k.1 = nd.1 := by rw [← hxe]; exact hx1
      have hky : k.1 = nd'.1 := by rw [← hye]; exact hy1
      have : nd.1 ∈ t.map Prod.fst :=
        List.mem_map.mpr ⟨nd', hnd', by rw [← hky, hkx]⟩
      exact h.1 this

theorem pgSubnodes_keys_nodup {sdd : SankeyDefinition}
    (h : (sdd.nodes.map Prod.fst).Nodup) :
    ((pgSubnodes sdd).map (fun x => (x.1, x.2.1))).Nodup :=
  keys_nodup_aux sdd.nodes h

theorem pgSubnodes_mem_elim {sdd : SankeyDefinition}
    {x : String × Option String × List String} (hx : x ∈ pgSubnodes sdd) :
    ∃ sel part, (x.1, NodeDef.processGroup sel part) ∈ sdd.nodes ∧
      x.2.1 ∈ pgLabels sel part ∧ x.2.2 = subProcs sel part x.2.1 := by
  unfold pgSubnodes at hx
  rcases List.mem_flatMap.mp hx with ⟨nd, hnd, hxm⟩
  cases hd : nd.2 with
  | processGroup sel part =>
    rw [hd] at hxm
    rcases List.mem_map.mp hxm with ⟨l, hl, heq⟩
    refine ⟨sel, part, ?_, ?_, ?_⟩
    · have : (nd.1, nd.2) ∈ sdd.nodes := by
        cases nd; exact hnd
      rw [← heq]
      simp only
      rw [← hd]
      exact this
    · rw [← heq]; exact hl
    · rw [← heq]
  | waypoint part => rw [hd] at hxm; exact absurd hxm (by simp)

theorem flatMap_filter_single_keyed {α β K : Type} [DecidableEq K]
    (key : α → K) (p : β → Bool) :
    ∀ (L : List α) (f : α → List β) (a₀ : α), (L.map key).Nodup → a₀ ∈ L →
      (∀ a ∈ L, key a ≠ key a₀ → (f a).filter p = []) →
      (L.flatMap f).filter p = (f a₀).filter p := by
  intro L
  induction L with
  | nil => intro f a₀ _ ha; exact absurd ha (by simp)
  | cons a t ih =>
    intro f a₀ hnd ha h2
    simp only [List.map_cons, List.nodup_cons] at hnd
    by_cases hk : key a = key a₀
    · have haa : a = a₀ := by
        rcases List.mem_cons.mp ha with h | h
        · exact h.symm
        · exact absurd (hk ▸ List.mem_map.mpr ⟨a₀, h, rfl⟩) hnd.1
      subst haa
      have hrest : (t.flatMap f).filter p = [] := by
        apply flatMap_filter_nil
        intro b hb
        apply h2 b (by simp [hb])
        intro hkb
        exact hnd.1 (hkb ▸ List.mem_map.mpr ⟨b, hb, rfl⟩)
      simp only [List.flatMap_cons, List.filter_append, hrest, List.append_nil]
    · have ha0 : a₀ ∈ t := by
        rcases List.mem_cons.mp ha with h | h
        · exact absurd (by rw [h] : key a = key a₀) hk
        · exact h
      have hfa : (f a).filter p = [] := h2 a (by simp) hk
      simp only [List.flatMap_cons, List.filter_append, hfa, List.nil_append]
      exact ih f a₀ hnd.2 ha0 (fun b hb => h2 b (by simp [hb]))

theorem pgSubnodes_key_inj {sdd : SankeyDefinition}
    (hnames : (sdd.nodes.map Prod.fst).Nodup)
    {x y : String × Option String × List String}
    (hx : x ∈ pgSubnodes sdd) (hy : y ∈ pgSubnodes sdd)
    (hkey : x.1 = y.1 ∧ x.2.1 = y.2.1) : x = y := by
  have hkeys := pgSubnodes_keys_nodup hnames
  have hinj := List.inj_on_of_nodup_map hkeys
  exact hinj hx hy (by simp only [hkey.1, hkey.2])

/-! ## Link sums over the woven graph -/

theorem synthLinks_filter_nil (sdd : SankeyDefinition) (records : List FlowRecord)
    (q : AggregatedLink → Bool) (P : Option (Endpoint × Endpoint) → Bool)
    (hPn : P none = false) :
    (synthLinks sdd records).filter (fun lk => q lk && P lk.btag) = [] := by
  apply List.filter_eq_nil_iff.mpr
  intro lk hmem
  simp [synthLinks_btag_none lk hmem, hPn]

theorem allLinks_target_sum {sdd : SankeyDefinition} {records : List FlowRecord}
    (hbund : checkBundles sdd = .ok ())
    {m : String} {l : Option String}
    (hm : ∃ sel part, lookupDef sdd m = some (.processGroup sel part))
    (P : Option (Endpoint × Endpoint) → Bool) (hPn : P none = false) :
    (((allLinks sdd records).filter
        (fun lk => decide (lk.target = NodeId.sub m l) && P lk.btag)).map
      (fun lk => lk.value)).sum
      = (records.map (fun f =>
          match attributeRecord sdd f with
          | some b =>
            if endNodeT sdd b.target f.target = NodeId.sub m l
                ∧ P (some (b.source, b.target)) = true
            then f.value else 0
          | none => 0)).sum := by
  unfold allLinks
  rw [List.filter_append, List.map_append, List.sum_append]
  rw [synthLinks_filter_nil sdd records _ P hPn]
  simp only [List.map_nil, List.sum_nil, add_zero]
  rw [aggregate_filter_sum_tb (allContribs sdd records) (NodeId.sub m l) P]
  unfold allContribs
  rw [sum_flatMap_filter]
  apply congrArg List.sum
  apply List.map_congr_left
  intro f _
  cases hab : attributeRecord sdd f with
  | none => rw [recordContribs_none hab]; simp
  | some b =>
    have hwp : ∀ w ∈ b.waypoints, ∃ part, lookupDef sdd w = some (.waypoint part) :=
      checkBundles_ok_wp hbund (attributeRecord_mem hab).1
    exact recordContribs_target_sum hab hm hwp P

theorem allLinks_source_sum {sdd : SankeyDefinition} {records : List FlowRecord}
    (hbund : checkBundles sdd = .ok ())
    {m : String} {l : Option String}
    (hm : ∃ sel part, lookupDef sdd m = some (.processGroup sel part))
    (P : Option (Endpoint × Endpoint) → Bool) (hPn : P none = false) :
    (((allLinks sdd records).filter
        (fun lk => decide (lk.source = NodeId.sub m l) && P lk.btag)).map
      (fun lk => lk.value)).sum
      = (records.map (fun f =>
          match attributeRecord sdd f with
          | some b =>
            if endNodeT sdd b.source f.source = NodeId.sub m l
                ∧ P (some (b.source, b.target)) = true
            then f.value else 0
          | none => 0)).sum := by
  unfold allLinks
  rw [List.filter_append, List.map_append, List.sum_append]
  rw [synthLinks_filter_nil sdd records _ P hPn]
  simp only [List.map_nil, List.sum_nil, add_zero]
  rw [aggregate_filter_sum_sb (allContribs sdd records) (NodeId.sub m l) P]
  unfold allContribs
  rw [sum_flatMap_filter]
  apply congrArg List.sum
  apply List.map_congr_left
  intro f _
  cases hab : attributeRecord sdd f with
  | none => rw [recordContribs_none hab]; simp
  | some b =>
    have hwp : ∀ w ∈ b.waypoints, ∃ part, lookupDef sdd w = some (.waypoint part) :=
      checkBundles_ok_wp hbund (attributeRecord_mem hab).1
    exact recordContribs_source_sum hab hm hwp P

/-! ## Sub-node membership and path endpoints -/

theorem subProcs_subset {sel : List String} {part : Option Partition} {l : Option String}
    {q : String} (h : q ∈ subProcs sel part l) : q ∈ sel := by
  cases part with
  | none =>
    cases l with
    | none => exact h
    | some lab => exact absurd h (by simp [subProcs])
  | some p =>
    cases l with
    | none => exact absurd h (by simp [subProcs])
    | some lab => exact List.mem_of_mem_filter h

theorem endNodeT_ref_group (sdd : SankeyDefinition) (g : String) (item : String) :
    ∃ X, endNodeT sdd (.ref g) item = NodeId.sub g X := by
  have h0 : endNodeT sdd (.ref g) item = (match lookupDef sdd g with
      | some (.processGroup _ (some p)) => NodeId.sub g (resolveItem p item)
      | _ => NodeId.sub g none) := rfl
  rw [h0]
  cases lookupDef sdd g with
  | none => exact ⟨none, rfl⟩
  | some d =>
    cases d with
    | processGroup sel part =>
      cases part with
      | none => exact ⟨none, rfl⟩
      | some p => exact ⟨resolveItem p item, rfl⟩
    | waypoint _ => exact ⟨none, rfl⟩

theorem endNodeT_pg_label {sdd : SankeyDefinition} {m : String} {sel : List String}
    {part : Option Partition} (hlm : lookupDef sdd m = some (.processGroup sel part))
    (item : String) :
    endNodeT sdd (.ref m) item = NodeId.sub m (partLabelOf part item) := by
  have h0 : endNodeT sdd (.ref m) item = (match lookupDef sdd m with
      | some (.processGroup _ (some p)) => NodeId.sub m (resolveItem p item)
      | _ => NodeId.sub m none) := rfl
  rw [h0, hlm]
  cases part <;> rfl

theorem label_mem_subProcs {sel : List String} {part : Option Partition} {q : String}
    (hsel : q ∈ sel)
    (hcls : ∀ r ∈ sel, ∀ p, part = some p → (resolveItem p r).isSome)
    (l : Option String) :
    partLabelOf part q = l ↔ q ∈ subProcs sel part l := by
  cases part with
  | none =>
    cases l with
    | none => simp [partLabelOf, subProcs, hsel]
    | some lab => simp [partLabelOf, subProcs]
  | some p =>
    have hsome := hcls q hsel p rfl
    cases hri : resolveItem p q with
    | none => rw [hri] at hsome; exact absurd hsome (by simp)
    | some lab0 =>
      cases l with
      | none => simp [partLabelOf, subProcs, hri]
      | some lab =>
        simp only [partLabelOf, subProcs]
        rw [hri]
        constructor
        · intro h
          injection h with h
          subst h
          exact List.mem_filter.mpr ⟨hsel, by simp [hri]⟩
        · intro h
          have h2 := (List.mem_filter.mp h).2
          simp only [decide_eq_true_eq] at h2
          rw [hri] at h2
          exact h2

theorem endNode_target_iff {sdd : SankeyDefinition} {f : FlowRecord} {b : Bundle}
    (hab : attributeRecord sdd f = some b)
    {m : String} {sel : List String} {part : Option Partition}
    (hlm : lookupDef sdd m = some (.processGroup sel part))
    (hcls : ∀ q ∈ sel, ∀ p, part = some p → (resolveItem p q).isSome)
    (l : Option String) :
    endNodeT sdd b.target f.target = NodeId.sub m l
      ↔ (b.target = Endpoint.ref m ∧ f.target ∈ subProcs sel part l) := by
  have hmatch := (attributeRecord_mem hab).2
  unfold bundleMatches at hmatch
  simp only [Bool.and_eq_true] at hmatch
  constructor
  · intro hend
    cases hbt : b.target with
    | elsewhere =>
      rw [hbt] at hend
      exact absurd hend (by simp [endNodeT])
    | ref g =>
      rw [hbt] at hend
      obtain ⟨X, hX⟩ := endNodeT_ref_group sdd g f.target
      rw [hX] at hend
      injection hend with hgm hXl
      subst hgm
      have htgt := hmatch.2
      rw [hbt] at htgt
      have htEq : tgtMatches sdd (.ref g) f = (match lookupDef sdd g with
          | some (.processGroup sel2 _) => decide (f.target ∈ sel2)
          | _ => false) := rfl
      rw [htEq, hlm] at htgt
      have hsel : f.target ∈ sel := by simpa using htgt
      refine ⟨rfl, ?_⟩
      rw [endNodeT_pg_label hlm f.target] at hX
      injection hX with _ hXv
      exact (label_mem_subProcs hsel hcls l).mp (by rw [hXv]; exact hXl)
  · rintro ⟨hbt, hmem⟩
    have hsel : f.target ∈ sel := subProcs_subset hmem
    rw [hbt, endNodeT_pg_label hlm f.target]
    have := (label_mem_subProcs hsel hcls l).mpr hmem
    rw [this]

theorem endNode_source_iff {sdd : SankeyDefinition} {f : FlowRecord} {b : Bundle}
    (hab : attributeRecord sdd f = some b)
    {m : String} {sel : List String} {part : Option Partition}
    (hlm : lookupDef sdd m = some (.processGroup sel part))
    (hcls : ∀ q ∈ sel, ∀ p, part = some p → (resolveItem p q).isSome)
    (l : Option String) :
    endNodeT sdd b.source f.source = NodeId.sub m l
      ↔ (b.source = Endpoint.ref m ∧ f.source ∈ subProcs sel part l) := by
  have hmatch := (attributeRecord_mem hab).2
  unfold bundleMatches at hmatch
  simp only [Bool.and_eq_true] at hmatch
  constructor
  · intro hend
    cases hbt : b.source with
    | elsewhere =>
      rw [hbt] at hend
      exact absurd hend (by simp [endNodeT])
    | ref g =>
      rw [hbt] at hend
      obtain ⟨X, hX⟩ := endNodeT_ref_group sdd g f.source
      rw [hX] at hend
      injection hend with hgm hXl
      subst hgm
      have hsrc := hmatch.1
      rw [hbt] at hsrc
      have hsEq : srcMatches sdd (.ref g) f = (match lookupDef sdd g with
          | some (.processGroup sel2 _) => decide (f.source ∈ sel2)
          | _ => false) := rfl
      rw [hsEq, hlm] at hsrc
      have hsel : f.source ∈ sel := by simpa using hsrc
      refine ⟨rfl, ?_⟩
      rw [endNodeT_pg_label hlm f.source] at hX
      injection hX with _ hXv
      exact (label_mem_subProcs hsel hcls l).mp (by rw [hXv]; exact hXl)
  · rintro ⟨hbt, hmem⟩
    have hsel : f.source ∈ sel := subProcs_subset hmem
    rw [hbt, endNodeT_pg_label hlm f.source]
    have := (label_mem_subProcs hsel hcls l).mpr hmem
    rw [this]

/-! ## Graph link sums equal the §4.4 quantities -/

theorem weave_links {sdd : SankeyDefinition} {records : List FlowRecord}
    {G : ResolvedGraph} (hok : weave sdd records = .ok G) :
    G.links = allLinks sdd records := by
  rw [(weave_ok_parts hok).2.2.2.2.2.2]
  rfl

theorem pgSubnode_ctx {sdd : SankeyDefinition} {records : List FlowRecord}
    {G : ResolvedGraph} (hok : weave sdd records = .ok G)
    {x : String × Option String × List String} (hx : x ∈ pgSubnodes sdd) :
    ∃ sel part, lookupDef sdd x.1 = some (.processGroup sel part)
      ∧ x.2.2 = subProcs sel part x.2.1
      ∧ (∀ q ∈ sel, ∀ p, part = some p → (resolveItem p q).isSome) := by
  obtain ⟨hnames, hbund, hcls, hamb, hord, hcons, hG⟩ := weave_ok_parts hok
  obtain ⟨sel, part, hmem, hlab, hprocs⟩ := pgSubnodes_mem_elim hx
  have hnod := checkNames_ok_nodup hnames
  have hlm := lookupDef_eq_of_mem hnod hmem
  refine ⟨sel, part, hlm, hprocs, ?_⟩
  intro q hq p hp
  exact classifyCheck_ok_pg hcls _ hmem sel p
    (by show NodeDef.processGroup sel part = NodeDef.processGroup sel (some p); rw [hp])
    q hq

theorem tagDirect_iff (es et : Endpoint) :
    tagDirect (some (es, et)) = true ↔ (es ≠ .elsewhere ∧ et ≠ .elsewhere) := by
  cases es <;> cases et <;> simp [tagDirect]

theorem tagFromElse_iff (es et : Endpoint) :
    tagFromElse (some (es, et)) = true ↔ es = .elsewhere := by
  cases es <;> cases et <;> simp [tagFromElse]

theorem tagToElse_iff (es et : Endpoint) :
    tagToElse (some (es, et)) = true ↔ (es ≠ .elsewhere ∧ et = .elsewhere) := by
  cases es <;> cases et <;> simp [tagToElse]

theorem graph_in_sum {sdd : SankeyDefinition} {records : List FlowRecord}
    {G : ResolvedGraph} (hok : weave sdd records = .ok G)
    {x : String × Option String × List String} (hx : x ∈ pgSubnodes sdd)
    (P : Option (Endpoint × Endpoint) → Bool) (hPn : P none = false)
    (p2 : FlowRecord → Bool)
    (hp2 : ∀ f ∈ records, ∀ b, attributeRecord sdd f = some b →
      (p2 f = true ↔ (b.target = Endpoint.ref x.1 ∧ f.target ∈ x.2.2
        ∧ P (some (b.source, b.target)) = true)))
    (hp2n : ∀ f ∈ records, attributeRecord sdd f = none → p2 f = false) :
    ((G.links.filter (fun lk => decide (lk.target = NodeId.sub x.1 x.2.1)
        && P lk.btag)).map (fun lk => lk.value)).sum
      = ((records.filter p2).map (fun f => f.value)).sum := by
  obtain ⟨hnames, hbund, hcls, hamb, hord, hcons, hG⟩ := weave_ok_parts hok
  obtain ⟨sel, part, hlm, hprocs, hclsq⟩ := pgSubnode_ctx hok hx
  rw [weave_links hok]
  rw [allLinks_target_sum hbund ⟨sel, part, hlm⟩ P hPn]
  rw [sum_filter_eq_map_ite records p2 (fun f => f.value)]
  apply congrArg List.sum
  apply List.map_congr_left
  intro f hf
  cases hab : attributeRecord sdd f with
  | none =>
    rw [hp2n f hf hab]
    simp
  | some b =>
    have hiff1 := endNode_target_iff hab hlm hclsq x.2.1
    have hiff2 := hp2 f hf b hab
    apply if_congr _ rfl rfl
    rw [hiff1, hiff2, hprocs, and_assoc]

theorem graph_out_sum {sdd : SankeyDefinition} {records : List FlowRecord}
    {G : ResolvedGraph} (hok : weave sdd records = .ok G)
    {x : String × Option String × List String} (hx : x ∈ pgSubnodes sdd)
    (P : Option (Endpoint × Endpoint) → Bool) (hPn : P none = false)
    (p2 : FlowRecord → Bool)
    (hp2 : ∀ f ∈ records, ∀ b, attributeRecord sdd f = some b →
      (p2 f = true ↔ (b.source = Endpoint.ref x.1 ∧ f.source ∈ x.2.2
        ∧ P (some (b.source, b.target)) = true)))
    (hp2n : ∀ f ∈ records, attributeRecord sdd f = none → p2 f = false) :
    ((G.links.filter (fun lk => decide (lk.source = NodeId.sub x.1 x.2.1)
        && P lk.btag)).map (fun lk => lk.value)).sum
      = ((records.filter p2).map (fun f => f.value)).sum := by
  obtain ⟨hnames, hbund, hcls, hamb, hord, hcons, hG⟩ := weave_ok_parts hok
  obtain ⟨sel, part, hlm, hprocs, hclsq⟩ := pgSubnode_ctx hok hx
  rw [weave_links hok]
  rw [allLinks_source_sum hbund ⟨sel, part, hlm⟩ P hPn]
  rw [sum_filter_eq_map_ite records p2 (fun f => f.value)]
  apply congrArg List.sum
  apply List.map_congr_left
  intro f hf
  cases hab : attributeRecord sdd f with
  | none =>
    rw [hp2n f hf hab]
    simp
  | some b =>
    have hiff1 := endNode_source_iff hab hlm hclsq x.2.1
    have hiff2 := hp2 f hf b hab
    apply if_congr _ rfl rfl
    rw [hiff1, hiff2, hprocs, and_assoc]

theorem graph_claimedIn {sdd : SankeyDefinition} {records : List FlowRecord}
    {G : ResolvedGraph} (hok : weave sdd records = .ok G)
    {x : String × Option String × List String} (hx : x ∈ pgSubnodes sdd) :
    ((G.links.filter (fun lk => decide (lk.target = NodeId.sub x.1 x.2.1)
        && tagDirect lk.btag)).map (fun lk => lk.value)).sum
      = claimedIn sdd records x.1 x.2.2 := by
  unfold claimedIn
  apply graph_in_sum hok hx tagDirect rfl
  · intro f hf b hab
    unfold claimedInPred
    rw [hab]
    simp only [Bool.and_eq_true, decide_eq_true_eq]
    constructor
    · rintro ⟨hmem2, hbt, hsrc2⟩
      refine ⟨hbt, hmem2, (tagDirect_iff _ _).mpr ⟨hsrc2, ?_⟩⟩
      rw [hbt]
      exact fun h => Endpoint.noConfusion h
    · rintro ⟨hbt, hmem2, htag⟩
      exact ⟨hmem2, hbt, ((tagDirect_iff _ _).mp htag).1⟩
  · intro f hf hab
    unfold claimedInPred
    rw [hab]
    simp

theorem graph_explicitIn {sdd : SankeyDefinition} {records : List FlowRecord}
    {G : ResolvedGraph} (hok : weave sdd records = .ok G)
    {x : String × Option String × List String} (hx : x ∈ pgSubnodes sdd) :
    ((G.links.filter (fun lk => decide (lk.target = NodeId.sub x.1 x.2.1)
        && tagFromElse lk.btag)).map (fun lk => lk.value)).sum
      = explicitIn sdd records x.1 x.2.2 := by
  unfold explicitIn
  apply graph_in_sum hok hx tagFromElse rfl
  · intro f hf b hab
    unfold explicitInPred
    rw [hab]
    simp only [Bool.and_eq_true, decide_eq_true_eq]
    constructor
    · rintro ⟨hmem2, hbt, hsrc2⟩
      exact ⟨hbt, hmem2, (tagFromElse_iff _ _).mpr hsrc2⟩
    · rintro ⟨hbt, hmem2, htag⟩
      exact ⟨hmem2, hbt, (tagFromElse_iff _ _).mp htag⟩
  · intro f hf hab
    unfold explicitInPred
    rw [hab]
    simp

theorem graph_toElseIn {sdd : SankeyDefinition} {records : List FlowRecord}
    {G : ResolvedGraph} (hok : weave sdd records = .ok G)
    {x : String × Option String × List String} (hx : x ∈ pgSubnodes sdd) :
    ((G.links.filter (fun lk => decide (lk.target = NodeId.sub x.1 x.2.1)
        && tagToElse lk.btag)).map (fun lk => lk.value)).sum = 0 := by
  have h := graph_in_sum hok hx tagToElse rfl (fun _ => false) ?hp2 ?hp2n
  · rw [h]
    simp
  case hp2 =>
    intro f hf b hab
    constructor
    · intro h; exact absurd h (by simp)
    · rintro ⟨hbt, _, htag⟩
      have := (tagToElse_iff _ _).mp htag
      rw [hbt] at this
      exact absurd this.2 (fun h => Endpoint.noConfusion h)
  case hp2n =>
    intro f hf hab
    rfl

theorem graph_claimedOut {sdd : SankeyDefinition} {records : List FlowRecord}
    {G : ResolvedGraph} (hok : weave sdd records = .ok G)
    {x : String × Option String × List String} (hx : x ∈ pgSubnodes sdd) :
    ((G.links.filter (fun lk => decide (lk.source = NodeId.sub x.1 x.2.1)
        && tagDirect lk.btag)).map (fun lk => lk.value)).sum
      = claimedOut sdd records x.1 x.2.2 := by
  unfold claimedOut
  apply graph_out_sum hok hx tagDirect rfl
  · intro f hf b hab
    unfold claimedOutPred
    rw [hab]
    simp only [Bool.and_eq_true, decide_eq_true_eq]
    constructor
    · rintro ⟨hmem2, hbs, htgt2⟩
      refine ⟨hbs, hmem2, (tagDirect_iff _ _).mpr ⟨?_, htgt2⟩⟩
      rw [hbs]
      exact fun h => Endpoint.noConfusion h
    · rintro ⟨hbs, hmem2, htag⟩
      exact ⟨hmem2, hbs, ((tagDirect_iff _ _).mp htag).2⟩
  · intro f hf hab
    unfold claimedOutPred
    rw [hab]
    simp

theorem graph_explicitOut {sdd : SankeyDefinition} {records : List FlowRecord}
    {G : ResolvedGraph} (hok : weave sdd records = .ok G)
    {x : String × Option String × List String} (hx : x ∈ pgSubnodes sdd) :
    ((G.links.filter (fun lk => decide (lk.source = NodeId.sub x.1 x.2.1)
        && tagToElse lk.btag)).map (fun lk => lk.value)).sum
      = explicitOut sdd records x.1 x.2.2 := by
  unfold explicitOut
  apply graph_out_sum hok hx tagToElse rfl
  · intro f hf b hab
    unfold explicitOutPred
    rw [hab]
    simp only [Bool.and_eq_true, decide_eq_true_eq]
    constructor
    · rintro ⟨hmem2, hbs, htgt2⟩
      refine ⟨hbs, hmem2, (tagToElse_iff _ _).mpr ⟨?_, htgt2⟩⟩
      rw [hbs]
      exact fun h => Endpoint.noConfusion h
    · rintro ⟨hbs, hmem2, htag⟩
      exact ⟨hmem2, hbs, ((tagToElse_iff _ _).mp htag).2⟩
  · intro f hf hab
    unfold explicitOutPred
    rw [hab]
    simp

theorem graph_fromElseOut {sdd : SankeyDefinition} {records : List FlowRecord}
    {G : ResolvedGraph} (hok : weave sdd records = .ok G)
    {x : String × Option String × List String} (hx : x ∈ pgSubnodes sdd) :
    ((G.links.filter (fun lk => decide (lk.source = NodeId.sub x.1 x.2.1)
        && tagFromElse lk.btag)).map (fun lk => lk.value)).sum = 0 := by
  have h := graph_out_sum hok hx tagFromElse rfl (fun _ => false) ?hp2 ?hp2n
  · rw [h]
    simp
  case hp2 =>
    intro f hf b hab
    constructor
    · intro h; exact absurd h (by simp)
    · rintro ⟨hbs, _, htag⟩
      have := (tagFromElse_iff _ _).mp htag
      rw [hbs] at this
      exact Endpoint.noConfusion this
  case hp2n =>
    intro f hf hab
    rfl

theorem tagSynth_eq (o : Option (Endpoint × Endpoint)) :
    tagSynth o = decide (o = none) := by
  cases o <;> simp [tagSynth]

theorem sub_ne_of_key_ne {a x : String × Option String × List String}
    (h : (fun y : String × Option String × List String => (y.1, y.2.1)) a
      ≠ (fun y : String × Option String × List String => (y.1, y.2.1)) x) :
    NodeId.sub a.1 a.2.1 ≠ NodeId.sub x.1 x.2.1 := by
  intro he
  injection he with h1 h2
  exact h (by simp only [h1, h2])

theorem graph_synthIn_filter {sdd : SankeyDefinition} {records : List FlowRecord}
    {G : ResolvedGraph} (hok : weave sdd records = .ok G)
    {x : String × Option String × List String} (hx : x ∈ pgSubnodes sdd) :
    G.links.filter (fun lk => decide (lk.target = NodeId.sub x.1 x.2.1)
        && tagSynth lk.btag) = synthIn sdd records x := by
  obtain ⟨hnames, hbund, hcls, hamb, hord, hcons, hG⟩ := weave_ok_parts hok
  rw [weave_links hok]
  unfold allLinks
  rw [List.filter_append]
  have h1 : (aggregate (allContribs sdd records)).filter
      (fun lk => decide (lk.target = NodeId.sub x.1 x.2.1) && tagSynth lk.btag) = [] := by
    apply List.filter_eq_nil_iff.mpr
    intro lk hmem
    have hb := aggregate_btag_some allContribs_btag_some lk hmem
    cases hbo : lk.btag with
    | none => exact absurd hbo hb
    | some pr => simp [hbo, tagSynth]
  rw [h1, List.nil_append]
  unfold synthLinks
  rw [flatMap_filter_single_keyed (fun y => (y.1, y.2.1)) _ (pgSubnodes sdd) _ x
    (pgSubnodes_keys_nodup (checkNames_ok_nodup hnames)) hx ?hblocks]
  · rw [List.filter_append]
    have hso : (synthOut sdd records x).filter
        (fun lk => decide (lk.target = NodeId.sub x.1 x.2.1) && tagSynth lk.btag) = [] := by
      unfold synthOut
      by_cases hc : 0 < implicitOut sdd records x.1 x.2.2 ∧ hasExplicitOut sdd x.1 = false
      · rw [if_pos hc]
        simp [tagSynth]
      · rw [if_neg hc]
        rfl
    have hsi : (synthIn sdd records x).filter
        (fun lk => decide (lk.target = NodeId.sub x.1 x.2.1) && tagSynth lk.btag)
        = synthIn sdd records x := by
      unfold synthIn
      by_cases hc : 0 < implicitIn sdd records x.1 x.2.2 ∧ hasExplicitIn sdd x.1 = false
      · rw [if_pos hc]
        simp [tagSynth]
      · rw [if_neg hc]
        rfl
    rw [hso, hsi, List.append_nil]
  case hblocks =>
    intro a ha hkey
    rw [List.filter_append]
    have hne := sub_ne_of_key_ne hkey
    have ha1 : (synthIn sdd records a).filter
        (fun lk => decide (lk.target = NodeId.sub x.1 x.2.1) && tagSynth lk.btag) = [] := by
      unfold synthIn
      by_cases hc : 0 < implicitIn sdd records a.1 a.2.2 ∧ hasExplicitIn sdd a.1 = false
      · rw [if_pos hc]
        simp [hne]
      · rw [if_neg hc]
        rfl
    have ha2 : (synthOut sdd records a).filter
        (fun lk => decide (lk.target = NodeId.sub x.1 x.2.1) && tagSynth lk.btag) = [] := by
      unfold synthOut
      by_cases hc : 0 < implicitOut sdd records a.1 a.2.2 ∧ hasExplicitOut sdd a.1 = false
      · rw [if_pos hc]
        simp [tagSynth]
      · rw [if_neg hc]
        rfl
    rw [ha1, ha2]
    rfl

theorem graph_synthOut_filter {sdd : SankeyDefinition} {records : List FlowRecord}
    {G : ResolvedGraph} (hok : weave sdd records = .ok G)
    {x : String × Option String × List String} (hx : x ∈ pgSubnodes sdd) :
    G.links.filter (fun lk => decide (lk.source = NodeId.sub x.1 x.2.1)
        && tagSynth lk.btag) = synthOut sdd records x := by
  obtain ⟨hnames, hbund, hcls, hamb, hord, hcons, hG⟩ := weave_ok_parts hok
  rw [weave_links hok]
  unfold allLinks
  rw [List.filter_append]
  have h1 : (aggregate (allContribs sdd records)).filter
      (fun lk => decide (lk.source = NodeId.sub x.1 x.2.1) && tagSynth lk.btag) = [] := by
    apply List.filter_eq_nil_iff.mpr
    intro lk hmem
    have hb := aggregate_btag_some allContribs_btag_some lk hmem
    cases hbo : lk.btag with
    | none => exact absurd hbo hb
    | some pr => simp [hbo, tagSynth]
  rw [h1, List.nil_append]
  unfold synthLinks
  rw [flatMap_filter_single_keyed (fun y => (y.1, y.2.1)) _ (pgSubnodes sdd) _ x
    (pgSubnodes_keys_nodup (checkNames_ok_nodup hnames)) hx ?hblocks]
  · rw [List.filter_append]
    have hsi : (synthIn sdd records x).filter
        (fun lk => decide (lk.source = NodeId.sub x.1 x.2.1) && tagSynth lk.btag) = [] := by
      unfold synthIn
      by_cases hc : 0 < implicitIn sdd records x.1 x.2.2 ∧ hasExplicitIn sdd x.1 = false
      · rw [if_pos hc]
        simp [tagSynth]
      · rw [if_neg hc]
        rfl
    have hso : (synthOut sdd records x).filter
        (fun lk => decide (lk.source = NodeId.sub x.1 x.2.1) && tagSynth lk.btag)
        = synthOut sdd records x := by
      unfold synthOut
      by_cases hc : 0 < implicitOut sdd records x.1 x.2.2 ∧ hasExplicitOut sdd x.1 = false
      · rw [if_pos hc]
        simp [tagSynth]
      · rw [if_neg hc]
        rfl
    rw [hso, hsi, List.nil_append]
  case hblocks =>
    intro a ha hkey
    rw [List.filter_append]
    have hne := sub_ne_of_key_ne hkey
    have ha1 : (synthIn sdd records a).filter
        (fun lk => decide (lk.source = NodeId.sub x.1 x.2.1) && tagSynth lk.btag) = [] := by
      unfold synthIn
      by_cases hc : 0 < implicitIn sdd records a.1 a.2.2 ∧ hasExplicitIn sdd a.1 = false
      · rw [if_pos hc]
        simp [tagSynth]
      · rw [if_neg hc]
        rfl
    have ha2 : (synthOut sdd records a).filter
        (fun lk => decide (lk.source = NodeId.sub x.1 x.2.1) && tagSynth lk.btag) = [] := by
      unfold synthOut
      by_cases hc : 0 < implicitOut sdd records a.1 a.2.2 ∧ hasExplicitOut sdd a.1 = false
      · rw [if_pos hc]
        simp [hne]
      · rw [if_neg hc]
        rfl
    rw [ha1, ha2]
    rfl

theorem synthIn_sum (sdd : SankeyDefinition) (records : List FlowRecord)
    (x : String × Option String × List String) :
    ((synthIn sdd records x).map (fun lk => lk.value)).sum
      = if 0 < implicitIn sdd records x.1 x.2.2 ∧ hasExplicitIn sdd x.1 = false
        then implicitIn sdd records x.1 x.2.2 else 0 := by
  unfold synthIn
  by_cases hc : 0 < implicitIn sdd records x.1 x.2.2 ∧ hasExplicitIn sdd x.1 = false
  · simp [hc]
  · simp [hc]

theorem synthOut_sum (sdd : SankeyDefinition) (records : List FlowRecord)
    (x : String × Option String × List String) :
    ((synthOut sdd records x).map (fun lk => lk.value)).sum
      = if 0 < implicitOut sdd records x.1 x.2.2 ∧ hasExplicitOut sdd x.1 = false
        then implicitOut sdd records x.1 x.2.2 else 0 := by
  unfold synthOut
  by_cases hc : 0 < implicitOut sdd records x.1 x.2.2 ∧ hasExplicitOut sdd x.1 = false
  · simp [hc]
  · simp [hc]

theorem graph_totalIn {sdd : SankeyDefinition} {records : List FlowRecord}
    {G : ResolvedGraph} (hok : weave sdd records = .ok G)
    {x : String × Option String × List String} (hx : x ∈ pgSubnodes sdd) :
    totalInOf G.links (NodeId.sub x.1 x.2.1)
      = claimedIn sdd records x.1 x.2.2 + explicitIn sdd records x.1 x.2.2
        + (if 0 < implicitIn sdd records x.1 x.2.2 ∧ hasExplicitIn sdd x.1 = false
           then implicitIn sdd records x.1 x.2.2 else 0) := by
  unfold totalInOf
  rw [sum_filter_split4 G.links (fun lk => decide (lk.target = NodeId.sub x.1 x.2.1))]
  rw [graph_claimedIn hok hx, graph_explicitIn hok hx, graph_toElseIn hok hx]
  rw [graph_synthIn_filter hok hx, synthIn_sum]
  ring

theorem graph_totalOut {sdd : SankeyDefinition} {records : List FlowRecord}
    {G : ResolvedGraph} (hok : weave sdd records = .ok G)
    {x : String × Option String × List String} (hx : x ∈ pgSubnodes sdd) :
    totalOutOf G.links (NodeId.sub x.1 x.2.1)
      = claimedOut sdd records x.1 x.2.2 + explicitOut sdd records x.1 x.2.2
        + (if 0 < implicitOut sdd records x.1 x.2.2 ∧ hasExplicitOut sdd x.1 = false
           then implicitOut sdd records x.1 x.2.2 else 0) := by
  unfold totalOutOf
  rw [sum_filter_split4 G.links (fun lk => decide (lk.source = NodeId.sub x.1 x.2.1))]
  rw [graph_claimedOut hok hx, graph_explicitOut hok hx, graph_fromElseOut hok hx]
  rw [graph_synthOut_filter hok hx, synthOut_sum]
  ring

/-! ## Layout assignment facts -/

theorem enum_snd_mem {α : Type} {l : List α} {p : ℕ × α} (h : p ∈ l.enum) : p.2 ∈ l := by
  have : p.2 ∈ l.enum.map Prod.snd := List.mem_map.mpr ⟨p, h, rfl⟩
  rwa [List.enum_map_snd] at this

theorem mem_enum_exists {α : Type} {l : List α} {a : α} (h : a ∈ l) :
    ∃ p ∈ l.enum, p.2 = a := by
  have h2 : a ∈ l.enum.map Prod.snd := by rwa [List.enum_map_snd]
  exact List.mem_map.mp h2

theorem mem_layoutNodes_fields {sdd : SankeyDefinition} {records : List FlowRecord}
    {links : List AggregatedLink} {vn : VisibleNode}
    (h : vn ∈ layoutNodes sdd records links) :
    vn.total_in = totalInOf links vn.id ∧ vn.total_out = totalOutOf links vn.id := by
  unfold layoutNodes at h
  rcases List.mem_flatMap.mp h with ⟨il, hil, h2⟩
  rcases List.mem_flatMap.mp h2 with ⟨jb, hjb, h3⟩
  rcases List.mem_map.mp h3 with ⟨kn, hkn, heq⟩
  rw [← heq]
  exact ⟨rfl, rfl⟩

theorem layoutNodes_id_mem {sdd : SankeyDefinition} {records : List FlowRecord}
    {links : List AggregatedLink} {id : NodeId} :
    (∃ vn ∈ layoutNodes sdd records links, vn.id = id)
      ↔ ∃ name ∈ orderingNames sdd, id ∈ subIdsOf sdd records name := by
  constructor
  · rintro ⟨vn, hvn, hid⟩
    unfold layoutNodes at hvn
    rcases List.mem_flatMap.mp hvn with ⟨il, hil, h2⟩
    rcases List.mem_flatMap.mp h2 with ⟨jb, hjb, h3⟩
    rcases List.mem_map.mp h3 with ⟨kn, hkn, heq⟩
    have hkn2 : kn.2 ∈ jb.2.flatMap (subIdsOf sdd records) := enum_snd_mem hkn
    rcases List.mem_flatMap.mp hkn2 with ⟨name, hname, hidm⟩
    refine ⟨name, ?_, ?_⟩
    · unfold orderingNames
      rw [List.mem_flatten]
      refine ⟨jb.2, ?_, hname⟩
      rw [List.mem_flatten]
      exact ⟨il.2, enum_snd_mem hil, enum_snd_mem hjb⟩
    · rw [← hid, ← heq]
      exact hidm
  · rintro ⟨name, hname, hid⟩
    unfold orderingNames at hname
    rw [List.mem_flatten] at hname
    rcases hname with ⟨band, hband, hnb⟩
    rw [List.mem_flatten] at hband
    rcases hband with ⟨layer, hlayer, hbl⟩
    rcases mem_enum_exists hlayer with ⟨il, hil, hil2⟩
    rcases mem_enum_exists (hil2 ▸ hbl) with ⟨jb, hjb, hjb2⟩
    have hidf : id ∈ jb.2.flatMap (subIdsOf sdd records) :=
      List.mem_flatMap.mpr ⟨name, hjb2 ▸ hnb, hid⟩
    rcases mem_enum_exists hidf with ⟨kn, hkn, hkn2⟩
    refine ⟨⟨kn.2, il.1, jb.1, kn.1, totalInOf links kn.2, totalOutOf links kn.2⟩, ?_, hkn2⟩
    unfold layoutNodes
    apply List.mem_flatMap.mpr
    refine ⟨il, hil, ?_⟩
    apply List.mem_flatMap.mpr
    refine ⟨jb, hjb, ?_⟩
    apply List.mem_map.mpr
    exact ⟨kn, hkn, rfl⟩

theorem weave_nodes {sdd : SankeyDefinition} {records : List FlowRecord}
    {G : ResolvedGraph} (hok : weave sdd records = .ok G) :
    G.nodes = layoutNodes sdd records (allLinks sdd records) := by
  rw [(weave_ok_parts hok).2.2.2.2.2.2]
  rfl

theorem allLinks_ordering_free (N : List (String × NodeDef)) (B : List Bundle)
    (o₁ o₂ : List (List (List String))) (r : List FlowRecord) :
    allLinks ⟨N, B, o₁⟩ r = allLinks ⟨N, B, o₂⟩ r := rfl

theorem subIdsOf_ordering_free (N : List (String × NodeDef)) (B : List Bundle)
    (o₁ o₂ : List (List (List String))) (r : List FlowRecord) (name : String) :
    subIdsOf ⟨N, B, o₁⟩ r name = subIdsOf ⟨N, B, o₂⟩ r name := rfl

/-! ## Claim C6: partition resolution -/

theorem resolveItem_none_iff (p : Partition) (i : String) :
    resolveItem p i = none
      ↔ ((∀ g ∈ p.groups, i ∉ g.members) ∧ ∀ g ∈ p.groups, g.catchAll = false) := by
  unfold resolveItem
  cases hf : p.groups.find? (fun g => decide (i ∈ g.members)) with
  | some g =>
    have hmem := List.mem_of_find?_eq_some hf
    have hpred := List.find?_some hf
    simp only [decide_eq_true_eq] at hpred
    simp only [Option.some.injEq]
    constructor
    · intro h; exact absurd h (by simp)
    · rintro ⟨hnone, _⟩
      exact absurd hpred (hnone g hmem)
  | none =>
    have hrules : ∀ g ∈ p.groups, i ∉ g.members := by
      intro g hg
      have := List.find?_eq_none.mp hf g hg
      simpa using this
    cases hc : p.groups.find? (fun g => g.catchAll) with
    | some g =>
      have hmem := List.mem_of_find?_eq_some hc
      have hpred := List.find?_some hc
      simp only [Option.map_some]
      constructor
      · intro h; exact absurd h (by simp)
      · rintro ⟨_, hnoc⟩
        rw [hnoc g hmem] at hpred
        exact absurd hpred (by simp)
    | none =>
      simp only [Option.map_none]
      refine ⟨fun _ => ⟨hrules, ?_⟩, fun _ => rfl⟩
      intro g hg
      have := List.find?_eq_none.mp hc g hg
      simpa using this

theorem resolveItems_error_iff (p : Partition) :
    ∀ items : List String,
      (∃ e, resolveItems p items = .error e) ↔ ∃ i ∈ items, resolveItem p i = none := by
  intro items
  induction items with
  | nil => simp [resolveItems]
  | cons i rest ih =>
    unfold resolveItems
    cases hri : resolveItem p i with
    | none =>
      simp only [List.mem_cons]
      exact ⟨fun _ => ⟨i, Or.inl rfl, hri⟩, fun _ => ⟨.unmatchedItem p.dimension i, rfl⟩⟩
    | some l =>
      cases hrest : resolveItems p rest with
      | error e =>
        constructor
        · intro _
          rcases ih.mp ⟨e, hrest⟩ with ⟨j, hj, hjn⟩
          exact ⟨j, by simp [hj], hjn⟩
        · intro _
          exact ⟨e, rfl⟩
      | ok m =>
        constructor
        · rintro ⟨e, he⟩
          exact absurd he (by simp)
        · rintro ⟨j, hj, hjn⟩
          rcases List.mem_cons.mp hj with h | h
          · rw [h] at hjn
            rw [hjn] at hri
            exact absurd hri (by simp)
          · rcases ih.mpr ⟨j, h, hjn⟩ with ⟨e, he⟩
            rw [he] at hrest
            exact absurd hrest (by simp)

theorem resolveItems_error_shape (p : Partition) :
    ∀ (items : List String) (e : Err), resolveItems p items = .error e →
      ∃ d i, e = Err.unmatchedItem d i := by
  intro items
  induction items with
  | nil => intro e he; exact absurd he (by simp [resolveItems])
  | cons i rest ih =>
    intro e he
    unfold resolveItems at he
    cases hri : resolveItem p i with
    | none =>
      rw [hri] at he
      simp only [Except.error.injEq] at he
      exact ⟨p.dimension, i, he.symm⟩
    | some l =>
      rw [hri] at he
      cases hrest : resolveItems p rest with
      | error e2 =>
        rw [hrest] at he
        simp only [Except.error.injEq] at he
        rcases ih e2 hrest with ⟨d, j, hd⟩
        exact ⟨d, j, by rw [← he]; exact hd⟩
      | ok m => rw [hrest] at he; exact absurd he (by simp)

theorem resolveItems_ok_shape (p : Partition) :
    ∀ (items : List String) (m : List (String × String)), resolveItems p items = .ok m →
      m.map Prod.fst = items ∧ ∀ pr ∈ m, resolveItem p pr.1 = some pr.2 := by
  intro items
  induction items with
  | nil =>
    intro m hm
    simp only [resolveItems, Except.ok.injEq] at hm
    rw [← hm]
    exact ⟨rfl, by simp⟩
  | cons i rest ih =>
    intro m hm
    unfold resolveItems at hm
    cases hri : resolveItem p i with
    | none => rw [hri] at hm; exact absurd hm (by simp)
    | some l =>
      rw [hri] at hm
      cases hrest : resolveItems p rest with
      | error e => rw [hrest] at hm; exact absurd hm (by simp)
      | ok m2 =>
        rw [hrest] at hm
        simp only [Except.ok.injEq] at hm
        rcases ih m2 hrest with ⟨hmap, hall⟩
        rw [← hm]
        constructor
        · simp [hmap]
        · intro pr hpr
          rcases List.mem_cons.mp hpr with h | h
          · rw [h]; exact hri
          · exact hall pr h

/-- C6: partition resolution maps each input item to exactly one
partition-group label; it fails with `UnmatchedItem` exactly when some item
matches no group's membership rule and no catch-all group exists; and when
several groups could match, the group earliest in the declared order wins
(the label comes from the first group whose rule matches). -/
theorem partition_resolution_correct (p : Partition) (items : List String) :
    ((∃ e, resolveItems p items = .error e)
        ↔ ((∃ i ∈ items, ∀ g ∈ p.groups, i ∉ g.members)
            ∧ ∀ g ∈ p.groups, g.catchAll = false))
    ∧ (∀ e, resolveItems p items = .error e → ∃ d i, e = Err.unmatchedItem d i)
    ∧ (∀ m, resolveItems p items = .ok m →
        m.map Prod.fst = items ∧ ∀ pr ∈ m, resolveItem p pr.1 = some pr.2)
    ∧ (∀ i g, p.groups.find? (fun g => decide (i ∈ g.members)) = some g →
        resolveItem p i = some g.label) := by
  refine ⟨?_, fun e => resolveItems_error_shape p items e,
    fun m => resolveItems_ok_shape p items m, ?_⟩
  · rw [resolveItems_error_iff]
    constructor
    · rintro ⟨i, hi, hni⟩
      rcases (resolveItem_none_iff p i).mp hni with ⟨ha, hb⟩
      exact ⟨⟨i, hi, ha⟩, hb⟩
    · rintro ⟨⟨i, hi, ha⟩, hb⟩
      exact ⟨i, hi, (resolveItem_none_iff p i).mpr ⟨ha, hb⟩⟩
  · intro i g hf
    unfold resolveItem
    rw [hf]

theorem partition_resolution_correct_witness :
    (resolveItems c6Part ["a", "b"] = .ok [("a", "g1"), ("b", "g2")])
    ∧ ([("a", "g1"), ("b", "g2")].map Prod.fst = ["a", "b"]
        ∧ ∀ pr ∈ [("a", "g1"), ("b", "g2")], resolveItem c6Part pr.1 = some pr.2)
    ∧ resolveItem c6Part "a" = some "g1" :=
  ⟨by rfl,
   (partition_resolution_correct c6Part ["a", "b"]).2.2.1 _ (by rfl),
   (partition_resolution_correct c6Part ["a", "b"]).2.2.2 "a" ⟨"g1", ["a"], false⟩
     (by rfl)⟩

/-! ## Claim C5: negative implicit elsewhere is a reported error -/

/-- C5: if for some visible process-group sub-node and direction the computed
implicit-elsewhere remainder is negative (beyond the zero tolerance of this
exact-arithmetic model), and the earlier weave-time checks pass, then weave
fails with `InconsistentConservation` and produces no ResolvedGraph — the
negative value is never silently clamped to zero. -/
theorem negative_implicit_errors (sdd : SankeyDefinition) (records : List FlowRecord)
    (h1 : checkNames sdd = .ok ()) (h2 : checkBundles sdd = .ok ())
    (h3 : classifyCheck sdd records = .ok ())
    (h4 : ambiguityCheck sdd records = .ok ())
    (h5 : orderingCheck sdd records = .ok ())
    (hneg : ∃ x ∈ pgSubnodes sdd, implicitIn sdd records x.1 x.2.2 < 0
      ∨ implicitOut sdd records x.1 x.2.2 < 0) :
    (∃ g l, weave sdd records = .error (Err.inconsistentConservation g l))
    ∧ ∀ G, weave sdd records ≠ .ok G := by
  have hcons : ∃ x, (pgSubnodes sdd).find? (fun x =>
      decide (implicitIn sdd records x.1 x.2.2 < 0) ||
      decide (implicitOut sdd records x.1 x.2.2 < 0)) = some x := by
    rcases hneg with ⟨x, hx, hor⟩
    have : ((pgSubnodes sdd).find? (fun x =>
        decide (implicitIn sdd records x.1 x.2.2 < 0) ||
        decide (implicitOut sdd records x.1 x.2.2 < 0))).isSome := by
      rw [List.find?_isSome]
      refine ⟨x, hx, ?_⟩
      rcases hor with h | h <;> simp [h]
    exact Option.isSome_iff_exists.mp this
  rcases hcons with ⟨x, hfind⟩
  have hcc : conservationCheck sdd records
      = .error (Err.inconsistentConservation x.1 x.2.1) := by
    unfold conservationCheck
    rw [hfind]
  have hw : weave sdd records = .error (Err.inconsistentConservation x.1 x.2.1) := by
    unfold weave
    rw [h1, h2, h3, h4, h5, hcc]
  exact ⟨⟨x.1, x.2.1, hw⟩, fun G hG => by rw [hw] at hG; exact absurd hG (by simp)⟩

theorem negative_implicit_errors_witness :
    (implicitIn negSdd negRecords "A" ["a"] < 0)
    ∧ ((∃ g l, weave negSdd negRecords = .error (Err.inconsistentConservation g l))
        ∧ ∀ G, weave negSdd negRecords ≠ .ok G) :=
  ⟨by decide,
   negative_implicit_errors negSdd negRecords (by rfl) (by rfl) (by rfl)
     (by rfl) (by rfl) ⟨("A", none, ["a"]), by decide, Or.inl (by decide)⟩⟩

/-! ## Claim C9: the engine is a pure function of its inputs -/

/-- C9: weave is a pure, deterministic function of its two arguments: in any
session of weave invocations, each result is `weave` of that invocation's own
definition and records, independent of every other invocation in the
session — there is no hidden mutable state between calls. -/
theorem weave_pure_session (pre post : List (SankeyDefinition × List FlowRecord))
    (sdd : SankeyDefinition) (records : List FlowRecord) :
    (weaveSession (pre ++ (sdd, records) :: post))[pre.length]?
      = some (weave sdd records) := by
  unfold weaveSession
  rw [List.map_append]
  rw [List.getElem?_append_right (by simp)]
  simp

/-! ## Claim C8: partitioning a waypoint splits the elsewhere link -/

/-- C8: starting from a definition with an explicit Bundle from a process
group to Elsewhere via a waypoint, setting the waypoint's partition to a
two-group dimension-tag Partition makes the weave produce exactly two
elsewhere links through the waypoint in place of the previous single link,
and their values sum to the prior single link's value. -/
theorem waypoint_partition_splits_elsewhere :
    (weave (c8Sdd none) c8Records = .ok (buildGraph (c8Sdd none) c8Records))
    ∧ (weave (c8Sdd (some fruitPart)) c8Records
        = .ok (buildGraph (c8Sdd (some fruitPart)) c8Records))
    ∧ (((buildGraph (c8Sdd none) c8Records).links.filter
          (fun lk => (match lk.source with
              | NodeId.sub g _ => decide (g = "exp")
              | NodeId.elsewhere => false)
            && decide (lk.target = NodeId.elsewhere))).map (fun lk => lk.value)
        = [9])
    ∧ (((buildGraph (c8Sdd (some fruitPart)) c8Records).links.filter
          (fun lk => (match lk.source with
              | NodeId.sub g _ => decide (g = "exp")
              | NodeId.elsewhere => false)
            && decide (lk.target = NodeId.elsewhere))).map (fun lk => lk.value)
        = [4, 5])
    ∧ (4 : ℤ) + 5 = 9 := by
  refine ⟨by rfl, by rfl, by decide, by decide, by norm_num⟩

/-! ## Claim C2: the elsewhere synthesis rule -/

/-- C2: for every visible process-group sub-node and each direction
independently, the engine computes
`implicit_elsewhere = total_true - claimed - explicit_elsewhere` over the
elementary records touching the raw processes claimed by the sub-node, and
the woven graph contains exactly one synthesized aggregated elsewhere link
(bundle tag `none`) attached directly to the sub-node — bypassing waypoints —
if and only if the remainder is positive (within the exact zero tolerance)
and no explicit Elsewhere bundle exists for that direction, the link carrying
exactly the remainder as its value. -/
theorem elsewhere_synthesis_rule {sdd : SankeyDefinition} {records : List FlowRecord}
    {G : ResolvedGraph} (hok : weave sdd records = .ok G) :
    ∀ x ∈ pgSubnodes sdd,
      implicitIn sdd records x.1 x.2.2
          = totalTrueIn records x.2.2 - claimedIn sdd records x.1 x.2.2
            - explicitIn sdd records x.1 x.2.2
      ∧ implicitOut sdd records x.1 x.2.2
          = totalTrueOut records x.2.2 - claimedOut sdd records x.1 x.2.2
            - explicitOut sdd records x.1 x.2.2
      ∧ G.links.filter (fun lk => decide (lk.target = NodeId.sub x.1 x.2.1)
            && decide (lk.btag = none))
          = (if 0 < implicitIn sdd records x.1 x.2.2
                ∧ hasExplicitIn sdd x.1 = false
             then [⟨NodeId.elsewhere, NodeId.sub x.1 x.2.1, none,
                    implicitIn sdd records x.1 x.2.2⟩]
             else [])
      ∧ G.links.filter (fun lk => decide (lk.source = NodeId.sub x.1 x.2.1)
            && decide (lk.btag = none))
          = (if 0 < implicitOut sdd records x.1 x.2.2
                ∧ hasExplicitOut sdd x.1 = false
             then [⟨NodeId.sub x.1 x.2.1, NodeId.elsewhere, none,
                    implicitOut sdd records x.1 x.2.2⟩]
             else []) := by
  intro x hx
  refine ⟨rfl, rfl, ?_, ?_⟩
  · have hc : G.links.filter (fun lk => decide (lk.target = NodeId.sub x.1 x.2.1)
        && decide (lk.btag = none))
        = G.links.filter (fun lk => decide (lk.target = NodeId.sub x.1 x.2.1)
          && tagSynth lk.btag) := by
      apply List.filter_congr
      intro lk _
      rw [tagSynth_eq]
    rw [hc, graph_synthIn_filter hok hx]
    rfl
  · have hc : G.links.filter (fun lk => decide (lk.source = NodeId.sub x.1 x.2.1)
        && decide (lk.btag = none))
        = G.links.filter (fun lk => decide (lk.source = NodeId.sub x.1 x.2.1)
          && tagSynth lk.btag) := by
      apply List.filter_congr
      intro lk _
      rw [tagSynth_eq]
    rw [hc, graph_synthOut_filter hok hx]
    rfl

theorem elsewhere_synthesis_rule_witness :
    (weave demoSdd demoRecords = .ok (buildGraph demoSdd demoRecords))
    ∧ ((buildGraph demoSdd demoRecords).links.filter
        (fun lk => decide (lk.source = NodeId.sub "farms" none)
          && decide (lk.btag = none))
        = [⟨NodeId.sub "farms" none, NodeId.elsewhere, none, 2⟩]) := by
  have hok : weave demoSdd demoRecords = .ok (buildGraph demoSdd demoRecords) := by rfl
  have h := elsewhere_synthesis_rule hok ("farms", none, ["f1", "f2"]) (by decide)
  refine ⟨hok, ?_⟩
  rw [h.2.2.2]
  decide

/-! ## Claim C1: conservation (corrected) -/

/-- C1 counterexample: with an unclaimed flow between two visible groups and
an explicit Elsewhere bundle at the source group, the weave succeeds but the
source sub-node's displayed total outflow is 0 while the elementary outflow
of its claimed raw process is 1 — the claim's unconditional conservation
equality fails. -/
theorem conservation_counterexample :
    (weave c1CexSdd c1CexRecords = .ok (buildGraph c1CexSdd c1CexRecords))
    ∧ (("A", (none : Option String), ["a"]) ∈ pgSubnodes c1CexSdd)
    ∧ totalOutOf (buildGraph c1CexSdd c1CexRecords).links (NodeId.sub "A" none) = 0
    ∧ totalTrueOut c1CexRecords ["a"] = 1
    ∧ (0 : ℤ) ≠ 1 :=
  ⟨by rfl, by decide, by decide, by decide, by decide⟩

/-- C1 (amended): after a successful weave, every visible node's recorded
totals equal the sums of its incoming resp. outgoing aggregated link values
(synthesized Elsewhere links included); and for every process-group sub-node,
those totals equal the sums of the elementary flow-record values touching its
claimed raw processes — provided that whenever an explicit Elsewhere bundle
exists for a node and direction, the implicit-elsewhere remainder there is
zero (otherwise §4.4 suppresses the synthesis and the remainder is
undisplayed, as the counterexample shows). -/
theorem conservation_amended {sdd : SankeyDefinition} {records : List FlowRecord}
    {G : ResolvedGraph} (hok : weave sdd records = .ok G)
    (hamend : ∀ x ∈ pgSubnodes sdd,
      (hasExplicitIn sdd x.1 = true → implicitIn sdd records x.1 x.2.2 = 0) ∧
      (hasExplicitOut sdd x.1 = true → implicitOut sdd records x.1 x.2.2 = 0)) :
    (∀ vn ∈ G.nodes, vn.total_in = totalInOf G.links vn.id
        ∧ vn.total_out = totalOutOf G.links vn.id)
    ∧ ∀ x ∈ pgSubnodes sdd,
        totalInOf G.links (NodeId.sub x.1 x.2.1) = totalTrueIn records x.2.2
        ∧ totalOutOf G.links (NodeId.sub x.1 x.2.1) = totalTrueOut records x.2.2 := by
  constructor
  · intro vn hvn
    rw [weave_nodes hok] at hvn
    have := mem_layoutNodes_fields hvn
    rw [← weave_links hok] at this
    exact this
  · intro x hx
    have hcons := conservationCheck_ok (weave_ok_parts hok).2.2.2.2.2.1 x hx
    have hqin : implicitIn sdd records x.1 x.2.2
        = totalTrueIn records x.2.2 - claimedIn sdd records x.1 x.2.2
          - explicitIn sdd records x.1 x.2.2 := rfl
    have hqout : implicitOut sdd records x.1 x.2.2
        = totalTrueOut records x.2.2 - claimedOut sdd records x.1 x.2.2
          - explicitOut sdd records x.1 x.2.2 := rfl
    constructor
    · rw [graph_totalIn hok hx]
      by_cases hex : hasExplicitIn sdd x.1 = true
      · have h0 := (hamend x hx).1 hex
        rw [if_neg (fun hc => by rw [hex] at hc; exact absurd hc.2 (by simp))]
        linarith [hqin, h0]
      · have hexf : hasExplicitIn sdd x.1 = false := by
          cases hb : hasExplicitIn sdd x.1 with
          | true => exact absurd hb hex
          | false => rfl
        by_cases hpos : 0 < implicitIn sdd records x.1 x.2.2
        · rw [if_pos ⟨hpos, hexf⟩]
          linarith [hqin]
        · have h0 : implicitIn sdd records x.1 x.2.2 = 0 := le_antisymm
            (not_lt.mp hpos) hcons.1
          rw [if_neg (fun hc => hpos hc.1)]
          linarith [hqin, h0]
    · rw [graph_totalOut hok hx]
      by_cases hex : hasExplicitOut sdd x.1 = true
      · have h0 := (hamend x hx).2 hex
        rw [if_neg (fun hc => by rw [hex] at hc; exact absurd hc.2 (by simp))]
        linarith [hqout, h0]
      · have hexf : hasExplicitOut sdd x.1 = false := by
          cases hb : hasExplicitOut sdd x.1 with
          | true => exact absurd hb hex
          | false => rfl
        by_cases hpos : 0 < implicitOut sdd records x.1 x.2.2
        · rw [if_pos ⟨hpos, hexf⟩]
          linarith [hqout]
        · have h0 : implicitOut sdd records x.1 x.2.2 = 0 := le_antisymm
            (not_lt.mp hpos) hcons.2
          rw [if_neg (fun hc => hpos hc.1)]
          linarith [hqout, h0]

theorem conservation_amended_witness :
    (weave demoSdd demoRecords = .ok (buildGraph demoSdd demoRecords))
    ∧ totalInOf (buildGraph demoSdd demoRecords).links (NodeId.sub "cust" none)
        = totalTrueIn demoRecords ["J"]
    ∧ totalOutOf (buildGraph demoSdd demoRecords).links (NodeId.sub "farms" none)
        = totalTrueOut demoRecords ["f1", "f2"] := by
  have hok : weave demoSdd demoRecords = .ok (buildGraph demoSdd demoRecords) := by rfl
  have h := conservation_amended hok (by decide)
  exact ⟨hok, (h.2 ("cust", none, ["J"]) (by decide)).1,
    (h.2 ("farms", none, ["f1", "f2"]) (by decide)).2⟩

/-! ## Record-level accounting for explicit Elsewhere bundles -/

theorem hasExplicitOut_true_iff (sdd : SankeyDefinition) (g : String) :
    hasExplicitOut sdd g = true
      ↔ ∃ b ∈ sdd.bundles, b.source = Endpoint.ref g ∧ b.target = Endpoint.elsewhere := by
  unfold hasExplicitOut
  rw [List.any_eq_true]
  constructor
  · rintro ⟨b, hb, hpred⟩
    simp only [Bool.and_eq_true, decide_eq_true_eq] at hpred
    exact ⟨b, hb, hpred⟩
  · rintro ⟨b, hb, h1, h2⟩
    exact ⟨b, hb, by simp [h1, h2]⟩

theorem attribute_of_mem_matching {sdd : SankeyDefinition} {f : FlowRecord} {b : Bundle}
    (hlen : (matchingBundles sdd f).length ≤ 1) (hb : b ∈ matchingBundles sdd f) :
    attributeRecord sdd f = some b := by
  rw [attributeRecord_eq_iff]
  cases hl : matchingBundles sdd f with
  | nil => rw [hl] at hb; exact absurd hb (by simp)
  | cons y t =>
    cases t with
    | nil =>
      rw [hl] at hb
      simp only [List.mem_singleton] at hb
      rw [hb]
    | cons z s => rw [hl] at hlen; simp at hlen

theorem attribute_none_of_matching_nil {sdd : SankeyDefinition} {f : FlowRecord}
    (h : matchingBundles sdd f = []) : attributeRecord sdd f = none := by
  unfold attributeRecord
  rw [h]

/-- §4.4 accounting: with every attributed record out of `procs` attributed to
a bundle sourced at `g`, the true total splits into claimed, explicit and
unattributed mass. -/
theorem out_partition (sdd : SankeyDefinition) (g : String) (procs : List String) :
    ∀ records : List FlowRecord,
      (∀ f ∈ records, f.source ∈ procs → ∀ b, attributeRecord sdd f = some b →
        b.source = Endpoint.ref g) →
      totalTrueOut records procs
        = claimedOut sdd records g procs + explicitOut sdd records g procs
          + ((records.filter (fun f => decide (f.source ∈ procs)
              && (attributeRecord sdd f).isNone)).map (fun f => f.value)).sum := by
  intro records
  induction records with
  | nil => intro _; simp [totalTrueOut, claimedOut, explicitOut]
  | cons f t ih =>
    intro hc
    have iht := ih (fun f2 hf2 => hc f2 (by simp [hf2]))
    unfold totalTrueOut claimedOut explicitOut at iht ⊢
    by_cases hA : f.source ∈ procs
    · cases hab : attributeRecord sdd f with
      | none =>
        rw [List.filter_cons_of_pos (by simp [hA]),
          List.filter_cons_of_neg (by unfold claimedOutPred; rw [hab]; simp),
          List.filter_cons_of_neg (by unfold explicitOutPred; rw [hab]; simp),
          List.filter_cons_of_pos (by rw [hab]; simp [hA])]
        simp only [List.map_cons, List.sum_cons]
        rw [iht]
        ring
      | some b =>
        have hbs := hc f (by simp) hA b hab
        cases hbt : b.target with
        | elsewhere =>
          rw [List.filter_cons_of_pos (by simp [hA]),
            List.filter_cons_of_neg (by
              unfold claimedOutPred
              rw [hab]
              simp [hbt]),
            List.filter_cons_of_pos (by
              unfold explicitOutPred
              rw [hab]
              simp [hA, hbs, hbt]),
            List.filter_cons_of_neg (by rw [hab]; simp)]
          simp only [List.map_cons, List.sum_cons]
          rw [iht]
          ring
        | ref n2 =>
          rw [List.filter_cons_of_pos (by simp [hA]),
            List.filter_cons_of_pos (by
              unfold claimedOutPred
              rw [hab]
              simp [hA, hbs, hbt]),
            List.filter_cons_of_neg (by
              unfold explicitOutPred
              rw [hab]
              simp [hbt]),
            List.filter_cons_of_neg (by rw [hab]; simp)]
          simp only [List.map_cons, List.sum_cons]
          rw [iht]
          ring
    · rw [List.filter_cons_of_neg (by simp [hA]),
        List.filter_cons_of_neg (by unfold claimedOutPred; simp [hA]),
        List.filter_cons_of_neg (by unfold explicitOutPred; simp [hA]),
        List.filter_cons_of_neg (by simp [hA])]
      exact iht

theorem srcMatches_pg {sdd : SankeyDefinition} {g : String} {sel : List String}
    {part : Option Partition} (hg : lookupDef sdd g = some (.processGroup sel part))
    (f : FlowRecord) :
    srcMatches sdd (.ref g) f = decide (f.source ∈ sel) := by
  have h0 : srcMatches sdd (.ref g) f = (match lookupDef sdd g with
      | some (.processGroup sel2 _) => decide (f.source ∈ sel2)
      | _ => false) := rfl
  rw [h0, hg]

theorem bundleMatches_star {sdd : SankeyDefinition} {g : String} {sel : List String}
    {part : Option Partition} (hg : lookupDef sdd g = some (.processGroup sel part))
    (w : String) (f : FlowRecord) :
    bundleMatches sdd ⟨.ref g, .elsewhere, [w]⟩ f
      = (decide (f.source ∈ sel) && ! insideBoundary sdd f.target) := by
  have h0 : bundleMatches sdd ⟨.ref g, .elsewhere, [w]⟩ f
      = (srcMatches sdd (.ref g) f && tgtMatches sdd .elsewhere f) := rfl
  rw [h0, srcMatches_pg hg]
  rfl

theorem matchingBundles_extend (sdd : SankeyDefinition) (b0 : Bundle) (f : FlowRecord) :
    matchingBundles ⟨sdd.nodes, sdd.bundles ++ [b0], sdd.ordering⟩ f
      = matchingBundles sdd f
        ++ (if bundleMatches sdd b0 f then [b0] else []) := by
  have h0 : matchingBundles ⟨sdd.nodes, sdd.bundles ++ [b0], sdd.ordering⟩ f
      = (sdd.bundles ++ [b0]).filter (fun b => bundleMatches sdd b f) := by
    apply List.filter_congr
    intro b _
    rfl
  rw [h0, List.filter_append]
  congr 1
  rw [List.filter_cons]
  by_cases hm : bundleMatches sdd b0 f = true
  · rw [if_pos hm, if_pos hm]
    rfl
  · have hmf : bundleMatches sdd b0 f = false := by
      cases hb : bundleMatches sdd b0 f with
      | true => exact absurd hb hm
      | false => rfl
    rw [hmf]
    simp

theorem extend_attribution_pos {sdd : SankeyDefinition} {b0 : Bundle} {f : FlowRecord}
    (hlen : (matchingBundles ⟨sdd.nodes, sdd.bundles ++ [b0], sdd.ordering⟩ f).length ≤ 1)
    (hm : bundleMatches sdd b0 f = true) :
    matchingBundles sdd f = []
      ∧ attributeRecord ⟨sdd.nodes, sdd.bundles ++ [b0], sdd.ordering⟩ f = some b0 := by
  rw [matchingBundles_extend, if_pos hm] at hlen
  have hnil : matchingBundles sdd f = [] := by
    cases hl : matchingBundles sdd f with
    | nil => rfl
    | cons a t => rw [hl] at hlen; simp at hlen
  refine ⟨hnil, ?_⟩
  rw [attributeRecord_eq_iff, matchingBundles_extend, hnil, if_pos hm]
  rfl

theorem extend_attribution_neg {sdd : SankeyDefinition} {b0 : Bundle} {f : FlowRecord}
    (hm : bundleMatches sdd b0 f = false) :
    attributeRecord ⟨sdd.nodes, sdd.bundles ++ [b0], sdd.ordering⟩ f
      = attributeRecord sdd f := by
  unfold attributeRecord
  rw [matchingBundles_extend]
  rw [hm]
  simp

/-! ## Claim C3: explicit routing overrides implicit synthesis (corrected) -/

/-- C3 counterexample: with an unclaimed internal flow (value 1) besides the
boundary-crossing flow (value 2), the implicit elsewhere link of the weave
without the explicit Bundle carries 3, while the routed link of the weave with
the Bundle carries only 2 — the masses are not equal, so the claim as stated
fails. -/
theorem explicit_overrides_implicit_counterexample :
    (weave c3CexSdd c3CexRecords = .ok (buildGraph c3CexSdd c3CexRecords))
    ∧ (weave c3CexSddE c3CexRecords = .ok (buildGraph c3CexSddE c3CexRecords))
    ∧ (((buildGraph c3CexSdd c3CexRecords).links.filter
          (fun lk => decide (lk.source = NodeId.sub "A" none)
            && decide (lk.btag = none))).map (fun lk => lk.value) = [3])
    ∧ (((buildGraph c3CexSddE c3CexRecords).links.filter
          (fun lk => decide (lk.source = NodeId.sub "A" none)
            && tagToElse lk.btag)).map (fun lk => lk.value) = [2])
    ∧ ((3 : ℤ) ≠ 2) :=
  ⟨by rfl, by rfl, by decide, by decide, by decide⟩

/-- C3 (amended): for a definition and the same definition extended with a
Bundle from process group `g` to Elsewhere via waypoint `w`, and any sub-node
of `g`: in the weave of the extended definition the implicit-elsewhere link at
that sub-node is absent, and the mass routed into the explicit elsewhere path
equals the mass of the implicit-elsewhere link of the weave without the
Bundle — provided every unclaimed flow out of `g` actually leaves the system
boundary and flows out of `g`'s processes are only ever attributed to bundles
sourced at `g` (with an unclaimed internal flow the two masses differ, as the
counterexample shows). -/
theorem explicit_overrides_implicit_amended (sdd : SankeyDefinition)
    (records : List FlowRecord) (g w : String) (sel : List String)
    (part : Option Partition) (G GE : ResolvedGraph)
    (hg : lookupDef sdd g = some (.processGroup sel part))
    (hok : weave sdd records = .ok G)
    (hokE : weave ⟨sdd.nodes, sdd.bundles ++ [⟨.ref g, .elsewhere, [w]⟩], sdd.ordering⟩
      records = .ok GE)
    (hinternal : ∀ f ∈ records, f.source ∈ sel → attributeRecord sdd f = none →
      insideBoundary sdd f.target = false)
    (hcross : ∀ f ∈ records, f.source ∈ sel → ∀ b, attributeRecord sdd f = some b →
      b.source = Endpoint.ref g) :
    ∀ x ∈ pgSubnodes sdd, x.1 = g →
      (GE.links.filter (fun lk => decide (lk.source = NodeId.sub x.1 x.2.1)
          && decide (lk.btag = none)) = [])
      ∧ (((GE.links.filter (fun lk => decide (lk.source = NodeId.sub x.1 x.2.1)
            && tagToElse lk.btag)).map (fun lk => lk.value)).sum
          = ((G.links.filter (fun lk => decide (lk.source = NodeId.sub x.1 x.2.1)
              && decide (lk.btag = none))).map (fun lk => lk.value)).sum) := by
  intro x hx hxg
  have hxE : x ∈ pgSubnodes
      ⟨sdd.nodes, sdd.bundles ++ [⟨.ref g, .elsewhere, [w]⟩], sdd.ordering⟩ := hx
  obtain ⟨sel2, part2, hlm2, hprocs2, hcls2⟩ := pgSubnode_ctx hok hx
  have hsel2 : sel = sel2 := by
    rw [hxg, hg] at hlm2
    have h := Option.some.inj hlm2
    exact congrArg (fun d => match d with
      | NodeDef.processGroup s _ => s
      | NodeDef.waypoint _ => []) h
  subst hsel2
  have hsub : ∀ q ∈ x.2.2, q ∈ sel := by
    intro q hq
    rw [hprocs2] at hq
    exact subProcs_subset hq
  have hexE : hasExplicitOut
      ⟨sdd.nodes, sdd.bundles ++ [⟨.ref g, .elsewhere, [w]⟩], sdd.ordering⟩ x.1 = true := by
    rw [hxg]
    apply (hasExplicitOut_true_iff _ g).mpr
    exact ⟨⟨.ref g, .elsewhere, [w]⟩, by simp, rfl, rfl⟩
  have hambE := ambiguityCheck_ok (weave_ok_parts hokE).2.2.2.1
  have hamb := ambiguityCheck_ok (weave_ok_parts hok).2.2.2.1
  constructor
  · have hc : GE.links.filter (fun lk => decide (lk.source = NodeId.sub x.1 x.2.1)
        && decide (lk.btag = none))
        = GE.links.filter (fun lk => decide (lk.source = NodeId.sub x.1 x.2.1)
          && tagSynth lk.btag) := by
      apply List.filter_congr
      intro lk _
      rw [tagSynth_eq]
    rw [hc, graph_synthOut_filter hokE hxE]
    unfold synthOut
    rw [if_neg (fun hcond => by rw [hexE] at hcond; exact absurd hcond.2 (by simp))]
  · rw [graph_explicitOut hokE hxE]
    have hcr : G.links.filter (fun lk => decide (lk.source = NodeId.sub x.1 x.2.1)
        && decide (lk.btag = none))
        = G.links.filter (fun lk => decide (lk.source = NodeId.sub x.1 x.2.1)
          && tagSynth lk.btag) := by
      apply List.filter_congr
      intro lk _
      rw [tagSynth_eq]
    rw [hcr, graph_synthOut_filter hok hx, synthOut_sum]
    -- explicit mass in the extended weave = filtered boundary-crossing mass
    have hstep1 : explicitOut
        ⟨sdd.nodes, sdd.bundles ++ [⟨.ref g, .elsewhere, [w]⟩], sdd.ordering⟩
        records x.1 x.2.2
        = ((records.filter (fun f => decide (f.source ∈ x.2.2)
            && bundleMatches sdd ⟨.ref g, .elsewhere, [w]⟩ f)).map
          (fun f => f.value)).sum := by
      unfold explicitOut
      congr 1
      apply congrArg
      apply List.filter_congr
      intro f hf
      cases hm : bundleMatches sdd ⟨.ref g, .elsewhere, [w]⟩ f with
      | true =>
        have habE := (extend_attribution_pos (hambE f hf) hm).2
        unfold explicitOutPred
        rw [habE, hxg]
        simp
      | false =>
        have habE := extend_attribution_neg hm
        unfold explicitOutPred
        rw [habE]
        cases hab : attributeRecord sdd f with
        | none => simp
        | some b =>
          suffices hs : (decide (b.source = Endpoint.ref x.1)
              && decide (b.target = Endpoint.elsewhere)) = false by
            show (decide (f.source ∈ x.2.2) && (decide (b.source = Endpoint.ref x.1)
                && decide (b.target = Endpoint.elsewhere)))
              = (decide (f.source ∈ x.2.2) && false)
            rw [hs]
          cases hd1 : decide (b.source = Endpoint.ref x.1) with
          | false => rfl
          | true =>
            cases hd2 : decide (b.target = Endpoint.elsewhere) with
            | false => rfl
            | true =>
              exfalso
              simp only [decide_eq_true_eq] at hd1 hd2
              have hbm := (attributeRecord_mem hab).2
              unfold bundleMatches at hbm
              rw [hd1, hd2, hxg, srcMatches_pg hg] at hbm
              have htgt : tgtMatches sdd Endpoint.elsewhere f
                  = ! insideBoundary sdd f.target := rfl
              rw [bundleMatches_star hg w f] at hm
              rw [htgt, hm] at hbm
              exact absurd hbm (by simp)
    rw [hstep1]
    -- the implicit mass of the base weave is the unattributed mass
    have hpart := out_partition sdd g x.2.2 records
      (fun f hf hfp b hab => hcross f hf (hsub f.source hfp) b hab)
    have himp : implicitOut sdd records x.1 x.2.2
        = ((records.filter (fun f => decide (f.source ∈ x.2.2)
            && (attributeRecord sdd f).isNone)).map (fun f => f.value)).sum := by
      have hq : implicitOut sdd records x.1 x.2.2
          = totalTrueOut records x.2.2 - claimedOut sdd records x.1 x.2.2
            - explicitOut sdd records x.1 x.2.2 := rfl
      rw [hxg] at hq ⊢
      linarith [hpart, hq]
    by_cases hexo : hasExplicitOut sdd x.1 = true
    · -- an explicit elsewhere bundle already existed: nothing matches the new
      -- bundle (it would be ambiguous), and nothing is unattributed out of g
      rcases (hasExplicitOut_true_iff sdd g).mp (by rw [← hxg]; exact hexo)
        with ⟨b0, hb0, hb0s, hb0t⟩
      have hnil1 : records.filter (fun f => decide (f.source ∈ x.2.2)
          && bundleMatches sdd ⟨.ref g, .elsewhere, [w]⟩ f) = [] := by
        apply List.filter_eq_nil_iff.mpr
        intro f hf
        intro hpred
        simp only [Bool.and_eq_true] at hpred
        have hm := hpred.2
        have hnilm := (extend_attribution_pos (hambE f hf) hm).1
        have hb0m : bundleMatches sdd b0 f = true := by
          unfold bundleMatches
          rw [hb0s, hb0t, srcMatches_pg hg]
          have htgt : tgtMatches sdd Endpoint.elsewhere f
              = ! insideBoundary sdd f.target := rfl
          rw [htgt]
          rw [bundleMatches_star hg w f] at hm
          exact hm
        have : b0 ∈ matchingBundles sdd f := List.mem_filter.mpr ⟨hb0, hb0m⟩
        rw [hnilm] at this
        exact absurd this (by simp)
      rw [hnil1]
      rw [if_neg (fun hcond => by rw [hexo] at hcond; exact absurd hcond.2 (by simp))]
      rfl
    · have hexf : hasExplicitOut sdd x.1 = false := by
        cases hb : hasExplicitOut sdd x.1 with
        | true => exact absurd hb hexo
        | false => rfl
      -- without a prior explicit bundle, the new bundle claims exactly the
      -- unattributed mass
      have hfeq : records.filter (fun f => decide (f.source ∈ x.2.2)
            && bundleMatches sdd ⟨.ref g, .elsewhere, [w]⟩ f)
          = records.filter (fun f => decide (f.source ∈ x.2.2)
            && (attributeRecord sdd f).isNone) := by
        apply List.filter_congr
        intro f hf
        cases hA : decide (f.source ∈ x.2.2) with
        | false => simp
        | true =>
          simp only [Bool.true_and]
          have hfs : f.source ∈ sel := hsub f.source (by simpa using hA)
          cases hm : bundleMatches sdd ⟨.ref g, .elsewhere, [w]⟩ f with
          | true =>
            have hnilm := (extend_attribution_pos (hambE f hf) hm).1
            rw [attribute_none_of_matching_nil hnilm]
            rfl
          | false =>
            cases hab : attributeRecord sdd f with
            | some b => rfl
            | none =>
              exfalso
              have hout := hinternal f hf hfs hab
              rw [bundleMatches_star hg w f] at hm
              rw [hout] at hm
              simp [hfs] at hm

      rw [hfeq, ← himp]
      have hge := (conservationCheck_ok (weave_ok_parts hok).2.2.2.2.2.1 x hx).2
      by_cases hpos : 0 < implicitOut sdd records x.1 x.2.2
      · rw [if_pos ⟨hpos, hexf⟩]
      · have h0 : implicitOut sdd records x.1 x.2.2 = 0 :=
          le_antisymm (not_lt.mp hpos) hge
        rw [if_neg (fun hcond => hpos hcond.1), h0]

theorem explicit_overrides_implicit_witness :
    (weave c3Sdd c3Records = .ok (buildGraph c3Sdd c3Records))
    ∧ (weave c3SddE c3Records = .ok (buildGraph c3SddE c3Records))
    ∧ ((buildGraph c3SddE c3Records).links.filter
        (fun lk => decide (lk.source = NodeId.sub "A" none)
          && decide (lk.btag = none)) = [])
    ∧ (((buildGraph c3SddE c3Records).links.filter
          (fun lk => decide (lk.source = NodeId.sub "A" none)
            && tagToElse lk.btag)).map (fun lk => lk.value)).sum
        = (((buildGraph c3Sdd c3Records).links.filter
            (fun lk => decide (lk.source = NodeId.sub "A" none)
              && decide (lk.btag = none))).map (fun lk => lk.value)).sum := by
  have hok : weave c3Sdd c3Records = .ok (buildGraph c3Sdd c3Records) := by rfl
  have hokE : weave c3SddE c3Records = .ok (buildGraph c3SddE c3Records) := by rfl
  have h := explicit_overrides_implicit_amended c3Sdd c3Records "A" "w" ["a"] none
    (buildGraph c3Sdd c3Records) (buildGraph c3SddE c3Records) (by rfl) hok hokE
    (by decide) (by decide) ("A", none, ["a"]) (by decide) (by rfl)
  exact ⟨hok, hokE, h.1, h.2⟩

/-! ## Claim C4: selection monotonicity (corrected) -/

theorem tgtMatches_pg {sdd : SankeyDefinition} {g : String} {sel : List String}
    {part : Option Partition} (hg : lookupDef sdd g = some (.processGroup sel part))
    (f : FlowRecord) :
    tgtMatches sdd (.ref g) f = decide (f.target ∈ sel) := by
  have h0 : tgtMatches sdd (.ref g) f = (match lookupDef sdd g with
      | some (.processGroup sel2 _) => decide (f.target ∈ sel2)
      | _ => false) := rfl
  rw [h0, hg]

theorem updateSelNode_fst (g : String) (sel' : List String) (nd : String × NodeDef) :
    (updateSelNode g sel' nd).1 = nd.1 := by
  unfold updateSelNode
  by_cases h : nd.1 = g <;> simp [h]

theorem lookupDef_updateSel_ne (sdd : SankeyDefinition) (g : String)
    (sel' : List String) (k : String) (hk : ¬ k = g) :
    lookupDef (updateSel sdd g sel') k = lookupDef sdd k := by
  unfold lookupDef updateSel
  rw [List.find?_map]
  have hp : ((fun nd : String × NodeDef => decide (nd.1 = k)) ∘ updateSelNode g sel')
      = (fun nd : String × NodeDef => decide (nd.1 = k)) := by
    funext nd
    simp only [Function.comp]
    rw [updateSelNode_fst]
  rw [hp]
  cases hf : sdd.nodes.find? (fun nd => decide (nd.1 = k)) with
  | none => rfl
  | some a =>
    have ha : a.1 = k := by
      have := List.find?_some hf
      simpa using this
    have hfix : updateSelNode g sel' a = a := by
      unfold updateSelNode
      rw [if_neg (by rw [ha]; exact hk)]
    simp [hfix]

theorem lookupDef_updateSel_eq (sdd : SankeyDefinition) (g : String)
    (sel' : List String) {sel : List String} {part : Option Partition}
    (hg : lookupDef sdd g = some (.processGroup sel part)) :
    lookupDef (updateSel sdd g sel') g = some (.processGroup sel' part) := by
  unfold lookupDef updateSel
  rw [List.find?_map]
  have hp : ((fun nd : String × NodeDef => decide (nd.1 = g)) ∘ updateSelNode g sel')
      = (fun nd : String × NodeDef => decide (nd.1 = g)) := by
    funext nd
    simp only [Function.comp]
    rw [updateSelNode_fst]
  rw [hp]
  unfold lookupDef at hg
  cases hf : sdd.nodes.find? (fun nd => decide (nd.1 = g)) with
  | none => rw [hf] at hg; exact absurd hg (by simp)
  | some a =>
    rw [hf] at hg
    have ha2 : a.2 = NodeDef.processGroup sel part := by
      simpa using hg
    have ha1 : a.1 = g := by
      have := List.find?_some hf
      simpa using this
    have hfix : updateSelNode g sel' a = (a.1, NodeDef.processGroup sel' part) := by
      unfold updateSelNode
      rw [if_pos ha1, ha2]
    simp [hfix]

theorem pgSubnodes_updateSel_mem {sdd : SankeyDefinition} {g : String}
    {sel' : List String} {x : String × Option String × List String}
    (hx : x ∈ pgSubnodes sdd) (hxg : ¬ x.1 = g) :
    x ∈ pgSubnodes (updateSel sdd g sel') := by
  unfold pgSubnodes at hx ⊢
  rcases List.mem_flatMap.mp hx with ⟨nd, hnd, hxm⟩
  have h1 : x.1 = nd.1 := pgSubnodes_block_fst hxm
  apply List.mem_flatMap.mpr
  refine ⟨nd, ?_, hxm⟩
  show nd ∈ sdd.nodes.map (updateSelNode g sel')
  have hfix : updateSelNode g sel' nd = nd := by
    unfold updateSelNode
    rw [if_neg (by rw [← h1]; exact hxg)]
  exact List.mem_map.mpr ⟨nd, hnd, hfix⟩

theorem srcMatches_ref_congr {sdd sdd' : SankeyDefinition} {k : String}
    (h : lookupDef sdd' k = lookupDef sdd k) (f : FlowRecord) :
    srcMatches sdd' (.ref k) f = srcMatches sdd (.ref k) f := by
  have e1 : srcMatches sdd' (.ref k) f = (match lookupDef sdd' k with
      | some (.processGroup sel2 _) => decide (f.source ∈ sel2)
      | _ => false) := rfl
  have e2 : srcMatches sdd (.ref k) f = (match lookupDef sdd k with
      | some (.processGroup sel2 _) => decide (f.source ∈ sel2)
      | _ => false) := rfl
  rw [e1, e2, h]

theorem tgtMatches_ref_congr {sdd sdd' : SankeyDefinition} {k : String}
    (h : lookupDef sdd' k = lookupDef sdd k) (f : FlowRecord) :
    tgtMatches sdd' (.ref k) f = tgtMatches sdd (.ref k) f := by
  have e1 : tgtMatches sdd' (.ref k) f = (match lookupDef sdd' k with
      | some (.processGroup sel2 _) => decide (f.target ∈ sel2)
      | _ => false) := rfl
  have e2 : tgtMatches sdd (.ref k) f = (match lookupDef sdd k with
      | some (.processGroup sel2 _) => decide (f.target ∈ sel2)
      | _ => false) := rfl
  rw [e1, e2, h]

theorem bundleMatches_updateSel_ref {sdd : SankeyDefinition} {g : String}
    {sel sel' : List String} {part : Option Partition}
    (hg : lookupDef sdd g = some (.processGroup sel part))
    (hsub : ∀ p ∈ sel', p ∈ sel) {b : Bundle} {f : FlowRecord}
    {k1 k2 : String} (hbs : b.source = .ref k1) (hbt : b.target = .ref k2)
    (hm : bundleMatches (updateSel sdd g sel') b f = true) :
    bundleMatches sdd b f = true := by
  unfold bundleMatches at hm ⊢
  rw [hbs, hbt] at hm ⊢
  rw [Bool.and_eq_true] at hm ⊢
  obtain ⟨hs, ht⟩ := hm
  constructor
  · by_cases hk : k1 = g
    · subst hk
      rw [srcMatches_pg (lookupDef_updateSel_eq sdd k1 sel' hg)] at hs
      rw [srcMatches_pg hg]
      simp only [decide_eq_true_eq] at hs ⊢
      exact hsub _ hs
    · rw [srcMatches_ref_congr (lookupDef_updateSel_ne sdd g sel' k1 hk) f] at hs
      exact hs
  · by_cases hk : k2 = g
    · subst hk
      rw [tgtMatches_pg (lookupDef_updateSel_eq sdd k2 sel' hg)] at ht
      rw [tgtMatches_pg hg]
      simp only [decide_eq_true_eq] at ht ⊢
      exact hsub _ ht
    · rw [tgtMatches_ref_congr (lookupDef_updateSel_ne sdd g sel' k2 hk) f] at ht
      exact ht

theorem attributeRecord_updateSel_ref {sdd : SankeyDefinition} {g : String}
    {sel sel' : List String} {part : Option Partition}
    (hg : lookupDef sdd g = some (.processGroup sel part))
    (hsub : ∀ p ∈ sel', p ∈ sel) {f : FlowRecord} {b : Bundle}
    (hambf : (matchingBundles sdd f).length ≤ 1)
    (hab' : attributeRecord (updateSel sdd g sel') f = some b)
    {k1 k2 : String} (hbs : b.source = .ref k1) (hbt : b.target = .ref k2) :
    attributeRecord sdd f = some b := by
  have hmem := attributeRecord_mem hab'
  exact attributeRecord_of_matches hambf hmem.1
    (bundleMatches_updateSel_ref hg hsub hbs hbt hmem.2)

theorem claimedInPred_updateSel_imp {sdd : SankeyDefinition} {g : String}
    {sel sel' : List String} {part : Option Partition}
    (hg : lookupDef sdd g = some (.processGroup sel part))
    (hsub : ∀ p ∈ sel', p ∈ sel) (h : String) (procs : List String)
    {f : FlowRecord} (hambf : (matchingBundles sdd f).length ≤ 1)
    (hp : claimedInPred (updateSel sdd g sel') h procs f = true) :
    claimedInPred sdd h procs f = true := by
  unfold claimedInPred at hp ⊢
  rw [Bool.and_eq_true] at hp ⊢
  refine ⟨hp.1, ?_⟩
  have hp2 := hp.2
  cases hab' : attributeRecord (updateSel sdd g sel') f with
  | none => rw [hab'] at hp2; simp at hp2
  | some b =>
    rw [hab'] at hp2
    have hp2' : (decide (b.target = Endpoint.ref h)
        && decide (b.source ≠ Endpoint.elsewhere)) = true := hp2
    rw [Bool.and_eq_true] at hp2'
    simp only [decide_eq_true_eq] at hp2'
    obtain ⟨hbt, hbsne⟩ := hp2'
    obtain ⟨k1, hbs⟩ : ∃ k, b.source = Endpoint.ref k := by
      cases hsrc : b.source with
      | elsewhere => exact absurd hsrc hbsne
      | ref k => exact ⟨k, rfl⟩
    have hab := attributeRecord_updateSel_ref hg hsub hambf hab' hbs hbt
    rw [hab]
    show (decide (b.target = Endpoint.ref h)
        && decide (b.source ≠ Endpoint.elsewhere)) = true
    simp [hbt, hbsne]

theorem claimedOutPred_updateSel_imp {sdd : SankeyDefinition} {g : String}
    {sel sel' : List String} {part : Option Partition}
    (hg : lookupDef sdd g = some (.processGroup sel part))
    (hsub : ∀ p ∈ sel', p ∈ sel) (h : String) (procs : List String)
    {f : FlowRecord} (hambf : (matchingBundles sdd f).length ≤ 1)
    (hp : claimedOutPred (updateSel sdd g sel') h procs f = true) :
    claimedOutPred sdd h procs f = true := by
  unfold claimedOutPred at hp ⊢
  rw [Bool.and_eq_true] at hp ⊢
  refine ⟨hp.1, ?_⟩
  have hp2 := hp.2
  cases hab' : attributeRecord (updateSel sdd g sel') f with
  | none => rw [hab'] at hp2; simp at hp2
  | some b =>
    rw [hab'] at hp2
    have hp2' : (decide (b.source = Endpoint.ref h)
        && decide (b.target ≠ Endpoint.elsewhere)) = true := hp2
    rw [Bool.and_eq_true] at hp2'
    simp only [decide_eq_true_eq] at hp2'
    obtain ⟨hbs, hbtne⟩ := hp2'
    obtain ⟨k2, hbt⟩ : ∃ k, b.target = Endpoint.ref k := by
      cases htgt : b.target with
      | elsewhere => exact absurd htgt hbtne
      | ref k => exact ⟨k, rfl⟩
    have hab := attributeRecord_updateSel_ref hg hsub hambf hab' hbs hbt
    rw [hab]
    show (decide (b.source = Endpoint.ref h)
        && decide (b.target ≠ Endpoint.elsewhere)) = true
    simp [hbs, hbtne]

/-- C4 counterexample: with an explicit Bundle from Elsewhere into the
customer group, shrinking the farm group's selection moves a flow from the
direct link into the explicit Elsewhere link: the direct inflow at the
customer sub-node drops from 3 to 1, yet the implicit-elsewhere quantity is 0
before and after — the decrease is not matched by an increase in
implicit-elsewhere flow, so the claim as stated fails. -/
theorem selection_monotonicity_counterexample :
    (weave c4CexSdd c4Records = .ok (buildGraph c4CexSdd c4Records))
    ∧ (weave (updateSel c4CexSdd "F" ["f1"]) c4Records
        = .ok (buildGraph (updateSel c4CexSdd "F" ["f1"]) c4Records))
    ∧ ((((buildGraph c4CexSdd c4Records).links.filter
          (fun lk => decide (lk.target = NodeId.sub "C" none) && tagDirect lk.btag)).map
        (fun lk => lk.value)).sum = 3)
    ∧ ((((buildGraph (updateSel c4CexSdd "F" ["f1"]) c4Records).links.filter
          (fun lk => decide (lk.target = NodeId.sub "C" none) && tagDirect lk.btag)).map
        (fun lk => lk.value)).sum = 1)
    ∧ (implicitIn c4CexSdd c4Records "C" ["c"] = 0)
    ∧ (implicitIn (updateSel c4CexSdd "F" ["f1"]) c4Records "C" ["c"] = 0)
    ∧ ((3 : ℤ) - 1 ≠ 0 - 0) :=
  ⟨by rfl, by rfl, by decide, by decide, by decide, by decide, by decide⟩

/-- C4 (amended): when a process group's selection is shrunk to a subset and
both weaves succeed, then at every process-group sub-node of any other group,
with nonnegative record values: the direct (bundle-attributed,
non-elsewhere) inflow and outflow never increase, and the decrease in direct
flow equals the increase in the combined explicit-elsewhere link value plus
implicit-elsewhere remainder for that side (not in the implicit-elsewhere
flow alone, as the counterexample shows). -/
theorem selection_monotonicity_amended (sdd : SankeyDefinition)
    (records : List FlowRecord) (g : String) (sel sel' : List String)
    (part : Option Partition) (G G' : ResolvedGraph)
    (hg : lookupDef sdd g = some (.processGroup sel part))
    (hsub : ∀ p ∈ sel', p ∈ sel)
    (hok : weave sdd records = .ok G)
    (hok' : weave (updateSel sdd g sel') records = .ok G')
    (hnn : ∀ f ∈ records, 0 ≤ f.value) :
    ∀ x ∈ pgSubnodes sdd, ¬ x.1 = g →
      ((((G'.links.filter (fun lk => decide (lk.target = NodeId.sub x.1 x.2.1)
            && tagDirect lk.btag)).map (fun lk => lk.value)).sum
          ≤ ((G.links.filter (fun lk => decide (lk.target = NodeId.sub x.1 x.2.1)
            && tagDirect lk.btag)).map (fun lk => lk.value)).sum)
        ∧ (((G'.links.filter (fun lk => decide (lk.source = NodeId.sub x.1 x.2.1)
            && tagDirect lk.btag)).map (fun lk => lk.value)).sum
          ≤ ((G.links.filter (fun lk => decide (lk.source = NodeId.sub x.1 x.2.1)
            && tagDirect lk.btag)).map (fun lk => lk.value)).sum)
        ∧ (((G.links.filter (fun lk => decide (lk.target = NodeId.sub x.1 x.2.1)
            && tagDirect lk.btag)).map (fun lk => lk.value)).sum
          - ((G'.links.filter (fun lk => decide (lk.target = NodeId.sub x.1 x.2.1)
            && tagDirect lk.btag)).map (fun lk => lk.value)).sum
          = (((G'.links.filter (fun lk => decide (lk.target = NodeId.sub x.1 x.2.1)
              && tagFromElse lk.btag)).map (fun lk => lk.value)).sum
              + implicitIn (updateSel sdd g sel') records x.1 x.2.2)
            - (((G.links.filter (fun lk => decide (lk.target = NodeId.sub x.1 x.2.1)
              && tagFromElse lk.btag)).map (fun lk => lk.value)).sum
              + implicitIn sdd records x.1 x.2.2))
        ∧ (((G.links.filter (fun lk => decide (lk.source = NodeId.sub x.1 x.2.1)
            && tagDirect lk.btag)).map (fun lk => lk.value)).sum
          - ((G'.links.filter (fun lk => decide (lk.source = NodeId.sub x.1 x.2.1)
            && tagDirect lk.btag)).map (fun lk => lk.value)).sum
          = (((G'.links.filter (fun lk => decide (lk.source = NodeId.sub x.1 x.2.1)
              && tagToElse lk.btag)).map (fun lk => lk.value)).sum
              + implicitOut (updateSel sdd g sel') records x.1 x.2.2)
            - (((G.links.filter (fun lk => decide (lk.source = NodeId.sub x.1 x.2.1)
              && tagToElse lk.btag)).map (fun lk => lk.value)).sum
              + implicitOut sdd records x.1 x.2.2))) := by
  intro x hx hxg
  have hx' : x ∈ pgSubnodes (updateSel sdd g sel') := pgSubnodes_updateSel_mem hx hxg
  have hamb := ambiguityCheck_ok (weave_ok_parts hok).2.2.2.1
  rw [graph_claimedIn hok hx, graph_claimedIn hok' hx', graph_claimedOut hok hx,
    graph_claimedOut hok' hx', graph_explicitIn hok hx, graph_explicitIn hok' hx',
    graph_explicitOut hok hx, graph_explicitOut hok' hx']
  refine ⟨?_, ?_, ?_, ?_⟩
  · unfold claimedIn
    exact sum_filter_mono records _ _ _
      (fun f hf hp => claimedInPred_updateSel_imp hg hsub x.1 x.2.2 (hamb f hf) hp)
      (fun f hf => hnn f hf)
  · unfold claimedOut
    exact sum_filter_mono records _ _ _
      (fun f hf hp => claimedOutPred_updateSel_imp hg hsub x.1 x.2.2 (hamb f hf) hp)
      (fun f hf => hnn f hf)
  · unfold implicitIn
    ring
  · unfold implicitOut
    ring

theorem selection_monotonicity_witness :
    (weave c4Sdd c4Records = .ok (buildGraph c4Sdd c4Records))
    ∧ (weave (updateSel c4Sdd "F" ["f1"]) c4Records
        = .ok (buildGraph (updateSel c4Sdd "F" ["f1"]) c4Records))
    ∧ ((((buildGraph (updateSel c4Sdd "F" ["f1"]) c4Records).links.filter
          (fun lk => decide (lk.target = NodeId.sub "C" none) && tagDirect lk.btag)).map
        (fun lk => lk.value)).sum
        ≤ (((buildGraph c4Sdd c4Records).links.filter
          (fun lk => decide (lk.target = NodeId.sub "C" none) && tagDirect lk.btag)).map
        (fun lk => lk.value)).sum) := by
  have hok : weave c4Sdd c4Records = .ok (buildGraph c4Sdd c4Records) := by rfl
  have hok' : weave (updateSel c4Sdd "F" ["f1"]) c4Records
      = .ok (buildGraph (updateSel c4Sdd "F" ["f1"]) c4Records) := by rfl
  have h := selection_monotonicity_amended c4Sdd c4Records "F" ["f1", "f2"] ["f1"]
    none (buildGraph c4Sdd c4Records) (buildGraph (updateSel c4Sdd "F" ["f1"]) c4Records)
    (by rfl) (by decide) hok hok' (by decide) ("C", none, ["c"]) (by decide) (by decide)
  exact ⟨hok, hok', h.1⟩

/-! ## Claim C10: rearranging the ordering is a frame effect -/

/-- C10: for fixed nodes, bundles and records, two successful weaves whose
orderings reference the same node names (possibly reordered, moved between
layers or bands, with empty bands) produce literally the same aggregated
links, materialize the same visible-node ids, and give matching ids the same
totals; only the layout coordinates can differ. -/
theorem ordering_rearrangement_frame (N : List (String × NodeDef)) (B : List Bundle)
    (ord₁ ord₂ : List (List (List String))) (records : List FlowRecord)
    (G₁ G₂ : ResolvedGraph)
    (hok₁ : weave ⟨N, B, ord₁⟩ records = .ok G₁)
    (hok₂ : weave ⟨N, B, ord₂⟩ records = .ok G₂)
    (hperm : ord₁.flatten.flatten.Perm ord₂.flatten.flatten) :
    G₁.links = G₂.links
    ∧ (∀ id : NodeId, (∃ vn ∈ G₁.nodes, vn.id = id) ↔ (∃ vn ∈ G₂.nodes, vn.id = id))
    ∧ (∀ vn₁ ∈ G₁.nodes, ∀ vn₂ ∈ G₂.nodes, vn₁.id = vn₂.id →
        vn₁.total_in = vn₂.total_in ∧ vn₁.total_out = vn₂.total_out) := by
  have hlinks : allLinks ⟨N, B, ord₁⟩ records = allLinks ⟨N, B, ord₂⟩ records :=
    allLinks_ordering_free N B ord₁ ord₂ records
  refine ⟨?_, ?_, ?_⟩
  · rw [weave_links hok₁, weave_links hok₂, hlinks]
  · intro id
    rw [weave_nodes hok₁, weave_nodes hok₂, layoutNodes_id_mem, layoutNodes_id_mem]
    constructor
    · rintro ⟨name, hname, hid⟩
      exact ⟨name, hperm.mem_iff.mp hname, hid⟩
    · rintro ⟨name, hname, hid⟩
      exact ⟨name, hperm.mem_iff.mpr hname, hid⟩
  · intro vn₁ h₁ vn₂ h₂ hid
    rw [weave_nodes hok₁] at h₁
    rw [weave_nodes hok₂] at h₂
    obtain ⟨hi₁, ho₁⟩ := mem_layoutNodes_fields h₁
    obtain ⟨hi₂, ho₂⟩ := mem_layoutNodes_fields h₂
    rw [hi₁, ho₁, hi₂, ho₂, hid, hlinks]
    exact ⟨rfl, rfl⟩

theorem ordering_rearrangement_frame_witness :
    (weave c10Sdd1 c8Records = .ok (buildGraph c10Sdd1 c8Records))
    ∧ (weave c10Sdd2 c8Records = .ok (buildGraph c10Sdd2 c8Records))
    ∧ (buildGraph c10Sdd1 c8Records).links = (buildGraph c10Sdd2 c8Records).links := by
  have hok₁ : weave c10Sdd1 c8Records = .ok (buildGraph c10Sdd1 c8Records) := by rfl
  have hok₂ : weave c10Sdd2 c8Records = .ok (buildGraph c10Sdd2 c8Records) := by rfl
  have h := ordering_rearrangement_frame c10Sdd1.nodes c10Sdd1.bundles
    [[["farms"]], [["exp", "cust"]]] [[[], ["farms"]], [["cust"], ["exp"]]]
    c8Records (buildGraph c10Sdd1 c8Records) (buildGraph c10Sdd2 c8Records)
    hok₁ hok₂ (by decide)
  exact ⟨hok₁, hok₂, h.1⟩

/-! ## Claim C7: empty process groups are dropped -/

theorem find_none_of_all {α : Type} (l : List α) (p : α → Bool)
    (h : ∀ a ∈ l, p a = false) : l.find? p = none :=
  List.find?_eq_none.mpr (fun a ha => by rw [h a ha]; simp)

theorem find_congr_mem {α : Type} (l : List α) (p₁ p₂ : α → Bool)
    (h : ∀ a ∈ l, p₂ a = p₁ a) : l.find? p₂ = l.find? p₁ := by
  induction l with
  | nil => rfl
  | cons a t ih =>
    rw [List.find?_cons, List.find?_cons, h a (by simp)]
    cases p₁ a with
    | true => rfl
    | false => exact ih (fun b hb => h b (by simp [hb]))

theorem find_filter_congr {α : Type} (l : List α) (q p₁ p₂ : α → Bool)
    (hkeep : ∀ a ∈ l, q a = true → p₂ a = p₁ a)
    (hdrop : ∀ a ∈ l, q a = false → p₁ a = false) :
    (l.filter q).find? p₂ = l.find? p₁ := by
  induction l with
  | nil => rfl
  | cons a t ih =>
    have iht := ih (fun b hb hq => hkeep b (by simp [hb]) hq)
      (fun b hb hq => hdrop b (by simp [hb]) hq)
    rw [List.filter_cons]
    cases hq : q a with
    | true =>
      simp only [if_true]
      rw [List.find?_cons, List.find?_cons, hkeep a (by simp) hq]
      cases p₁ a with
      | true => rfl
      | false => exact iht
    | false =>
      simp only [Bool.false_eq_true, if_false]
      rw [List.find?_cons, hdrop a (by simp) hq]
      exact iht

theorem filter_filter_congr {α : Type} (l : List α) (q p₁ p₂ : α → Bool)
    (hkeep : ∀ a ∈ l, q a = true → p₂ a = p₁ a)
    (hdrop : ∀ a ∈ l, q a = false → p₁ a = false) :
    (l.filter q).filter p₂ = l.filter p₁ := by
  induction l with
  | nil => rfl
  | cons a t ih =>
    have iht := ih (fun b hb hq => hkeep b (by simp [hb]) hq)
      (fun b hb hq => hdrop b (by simp [hb]) hq)
    rw [List.filter_cons]
    cases hq : q a with
    | true =>
      simp only [if_true]
      rw [List.filter_cons, List.filter_cons, hkeep a (by simp) hq]
      cases p₁ a with
      | true => rw [iht]
      | false => exact iht
    | false =>
      simp only [Bool.false_eq_true, if_false]
      rw [List.filter_cons, hdrop a (by simp) hq]
      exact iht

theorem flatMap_filter_congr {α β : Type} (l : List α) (q : α → Bool)
    (f₁ f₂ : α → List β)
    (hkeep : ∀ a ∈ l, q a = true → f₂ a = f₁ a)
    (hdrop : ∀ a ∈ l, q a = false → f₁ a = []) :
    (l.filter q).flatMap f₂ = l.flatMap f₁ := by
  induction l with
  | nil => rfl
  | cons a t ih =>
    have iht := ih (fun b hb hq => hkeep b (by simp [hb]) hq)
      (fun b hb hq => hdrop b (by simp [hb]) hq)
    rw [List.filter_cons]
    cases hq : q a with
    | true =>
      simp only [if_true]
      rw [List.flatMap_cons, List.flatMap_cons, hkeep a (by simp) hq, iht]
    | false =>
      simp only [Bool.false_eq_true, if_false]
      rw [List.flatMap_cons, hdrop a (by simp) hq, iht]
      rfl

theorem any_filter_congr {α : Type} (l : List α) (q p₁ p₂ : α → Bool)
    (hkeep : ∀ a ∈ l, q a = true → p₂ a = p₁ a)
    (hdrop : ∀ a ∈ l, q a = false → p₁ a = false) :
    (l.filter q).any p₂ = l.any p₁ := by
  induction l with
  | nil => rfl
  | cons a t ih =>
    have iht := ih (fun b hb hq => hkeep b (by simp [hb]) hq)
      (fun b hb hq => hdrop b (by simp [hb]) hq)
    rw [List.filter_cons]
    cases hq : q a with
    | true =>
      simp only [if_true]
      rw [List.any_cons, List.any_cons, hkeep a (by simp) hq, iht]
    | false =>
      simp only [Bool.false_eq_true, if_false]
      rw [List.any_cons, hdrop a (by simp) hq, iht]
      rfl

theorem checkNames_eq (sdd : SankeyDefinition) :
    checkNames sdd
      = (match (sdd.nodes.map Prod.fst).find? (nameBad sdd) with
        | some n => .error (.duplicateNodeName n)
        | none => .ok ()) := rfl

theorem checkBundles_eq (sdd : SankeyDefinition) :
    checkBundles sdd
      = (match sdd.bundles.find? (bundleBad sdd) with
        | some b => .error (.unknownNodeReference (bundleErrName b))
        | none => .ok ()) := rfl

theorem classifyCheck_eq (sdd : SankeyDefinition) (records : List FlowRecord) :
    classifyCheck sdd records
      = (match sdd.nodes.find? classifyNodeBad with
        | some nd => .error (classifyNodeErr nd)
        | none =>
          match records.find? (classifyRecBad sdd) with
          | some f => .error (.unmatchedItem "" f.source)
          | none => .ok ()) := rfl

theorem ambiguityCheck_eq (sdd : SankeyDefinition) (records : List FlowRecord) :
    ambiguityCheck sdd records
      = (match records.find? (ambigBad sdd) with
        | some f => .error (.ambiguousAttribution f.source f.target)
        | none => .ok ()) := rfl

theorem orderingCheck_eq (sdd : SankeyDefinition) (records : List FlowRecord) :
    orderingCheck sdd records
      = (match (orderingNames sdd).find? (ordUnknown sdd) with
        | some n => .error (.unknownNodeReference n)
        | none =>
          match ((orderingNames sdd).filter (ordMat sdd records)).find?
              (ordDup sdd records) with
          | some n => .error (.duplicatePlacement n)
          | none =>
            match sdd.nodes.find? (ordUnplaced sdd records) with
            | some nd => .error (.unplacedNode nd.1)
            | none => .ok ()) := rfl

theorem conservationCheck_eq (sdd : SankeyDefinition) (records : List FlowRecord) :
    conservationCheck sdd records
      = (match (pgSubnodes sdd).find? (consBad sdd records) with
        | some x => .error (.inconsistentConservation x.1 x.2.1)
        | none => .ok ()) := rfl

theorem weave_congr (sdd₁ sdd₂ : SankeyDefinition) (records : List FlowRecord)
    (h1 : checkNames sdd₁ = checkNames sdd₂)
    (h2 : checkBundles sdd₁ = checkBundles sdd₂)
    (h3 : classifyCheck sdd₁ records = classifyCheck sdd₂ records)
    (h4 : ambiguityCheck sdd₁ records = ambiguityCheck sdd₂ records)
    (h5 : orderingCheck sdd₁ records = orderingCheck sdd₂ records)
    (h6 : conservationCheck sdd₁ records = conservationCheck sdd₂ records)
    (h7 : buildGraph sdd₁ records = buildGraph sdd₂ records) :
    weave sdd₁ records = weave sdd₂ records := by
  unfold weave
  rw [h1, h2, h3, h4, h5, h6, h7]

theorem pgLabels_empty (pt : Option Partition) : pgLabels [] pt = [] := by
  cases pt with
  | none => rfl
  | some p =>
    show ((p.groups.map (fun g => g.label)).dedup.filter
        (fun l => ([] : List String).any
          (fun q => decide (resolveItem p q = some l)))).map some = []
    have h : ((p.groups.map (fun g => g.label)).dedup.filter
        (fun l => ([] : List String).any
          (fun q => decide (resolveItem p q = some l)))) = [] := by
      apply List.filter_eq_nil_iff.mpr
      intro l _
      simp
    rw [h]
    rfl

theorem nodes_named_g {sdd : SankeyDefinition} {g : String} {pt : Option Partition}
    (hnodup : (sdd.nodes.map Prod.fst).Nodup)
    (hgdef : lookupDef sdd g = some (.processGroup [] pt)) :
    ∀ nd ∈ sdd.nodes, nd.1 = g → nd.2 = NodeDef.processGroup [] pt := by
  intro nd hnd h1
  have hmem : (nd.1, nd.2) ∈ sdd.nodes := by cases nd; exact hnd
  have hl := lookupDef_eq_of_mem hnodup hmem
  rw [h1, hgdef] at hl
  exact (Option.some.inj hl).symm

theorem lookupDef_dropGroup_ne (sdd : SankeyDefinition) (g k : String)
    (hk : ¬ k = g) : lookupDef (dropGroup sdd g) k = lookupDef sdd k := by
  unfold lookupDef
  have h : (dropGroup sdd g).nodes.find? (fun nd => decide (nd.1 = k))
      = sdd.nodes.find? (fun nd => decide (nd.1 = k)) := by
    apply find_filter_congr
    · intro nd _ _
      rfl
    · intro nd _ hq
      simp only [Bool.not_eq_false', decide_eq_true_eq] at hq
      rw [hq]
      simp only [decide_eq_false_iff_not]
      exact fun h2 => hk h2.symm
  rw [h]

theorem lookupDef_dropGroup_self (sdd : SankeyDefinition) (g : String) :
    lookupDef (dropGroup sdd g) g = none := by
  unfold lookupDef
  have h : (dropGroup sdd g).nodes.find? (fun nd => decide (nd.1 = g)) = none := by
    apply find_none_of_all
    intro nd hnd
    have hq := (List.mem_filter.mp hnd).2
    simp only [Bool.not_eq_true', decide_eq_false_iff_not] at hq
    simp only [decide_eq_false_iff_not]
    exact hq
  rw [h]
  rfl

theorem boundaryProcs_dropGroup {sdd : SankeyDefinition} {g : String}
    {pt : Option Partition}
    (hnodup : (sdd.nodes.map Prod.fst).Nodup)
    (hgdef : lookupDef sdd g = some (.processGroup [] pt)) :
    boundaryProcs (dropGroup sdd g) = boundaryProcs sdd := by
  unfold boundaryProcs
  apply flatMap_filter_congr
  · intro nd _ _
    rfl
  · intro nd hnd hq
    simp only [Bool.not_eq_false', decide_eq_true_eq] at hq
    have h2 := nodes_named_g hnodup hgdef nd hnd hq
    rw [h2]

theorem insideBoundary_dropGroup {sdd : SankeyDefinition} {g : String}
    {pt : Option Partition}
    (hnodup : (sdd.nodes.map Prod.fst).Nodup)
    (hgdef : lookupDef sdd g = some (.processGroup [] pt)) (q : String) :
    insideBoundary (dropGroup sdd g) q = insideBoundary sdd q := by
  unfold insideBoundary
  rw [boundaryProcs_dropGroup hnodup hgdef]

theorem srcMatches_dropGroup {sdd : SankeyDefinition} {g : String}
    {pt : Option Partition}
    (hnodup : (sdd.nodes.map Prod.fst).Nodup)
    (hgdef : lookupDef sdd g = some (.processGroup [] pt))
    {e : Endpoint} (he : ¬ e = .ref g) (f : FlowRecord) :
    srcMatches (dropGroup sdd g) e f = srcMatches sdd e f := by
  cases e with
  | elsewhere =>
    show (! insideBoundary (dropGroup sdd g) f.source) = (! insideBoundary sdd f.source)
    rw [insideBoundary_dropGroup hnodup hgdef]
  | ref n =>
    exact srcMatches_ref_congr
      (lookupDef_dropGroup_ne sdd g n (fun h => he (by rw [h]))) f

theorem tgtMatches_dropGroup {sdd : SankeyDefinition} {g : String}
    {pt : Option Partition}
    (hnodup : (sdd.nodes.map Prod.fst).Nodup)
    (hgdef : lookupDef sdd g = some (.processGroup [] pt))
    {e : Endpoint} (he : ¬ e = .ref g) (f : FlowRecord) :
    tgtMatches (dropGroup sdd g) e f = tgtMatches sdd e f := by
  cases e with
  | elsewhere =>
    show (! insideBoundary (dropGroup sdd g) f.target) = (! insideBoundary sdd f.target)
    rw [insideBoundary_dropGroup hnodup hgdef]
  | ref n =>
    exact tgtMatches_ref_congr
      (lookupDef_dropGroup_ne sdd g n (fun h => he (by rw [h]))) f

theorem matchingBundles_dropGroup {sdd : SankeyDefinition} {g : String}
    {pt : Option Partition}
    (hnodup : (sdd.nodes.map Prod.fst).Nodup)
    (hgdef : lookupDef sdd g = some (.processGroup [] pt)) (f : FlowRecord) :
    matchingBundles (dropGroup sdd g) f = matchingBundles sdd f := by
  unfold matchingBundles
  apply filter_filter_congr
  · intro b _ hq
    simp only [Bool.and_eq_true, Bool.not_eq_true', decide_eq_false_iff_not] at hq
    unfold bundleMatches
    rw [srcMatches_dropGroup hnodup hgdef hq.1 f,
      tgtMatches_dropGroup hnodup hgdef hq.2 f]
  · intro b _ hq
    rw [Bool.and_eq_false_iff] at hq
    unfold bundleMatches
    cases hq with
    | inl h1 =>
      simp only [Bool.not_eq_false', decide_eq_true_eq] at h1
      rw [h1, srcMatches_pg hgdef]
      simp
    | inr h1 =>
      simp only [Bool.not_eq_false', decide_eq_true_eq] at h1
      rw [h1, tgtMatches_pg hgdef]
      simp

theorem attributeRecord_dropGroup {sdd : SankeyDefinition} {g : String}
    {pt : Option Partition}
    (hnodup : (sdd.nodes.map Prod.fst).Nodup)
    (hgdef : lookupDef sdd g = some (.processGroup [] pt)) (f : FlowRecord) :
    attributeRecord (dropGroup sdd g) f = attributeRecord sdd f := by
  unfold attributeRecord
  rw [matchingBundles_dropGroup hnodup hgdef]

theorem routedPred_dropGroup {sdd : SankeyDefinition} {g : String}
    {pt : Option Partition}
    (hnodup : (sdd.nodes.map Prod.fst).Nodup)
    (hgdef : lookupDef sdd g = some (.processGroup [] pt)) (w : String) :
    routedPred (dropGroup sdd g) w = routedPred sdd w := by
  funext f
  unfold routedPred
  rw [attributeRecord_dropGroup hnodup hgdef]

theorem wpLabels_dropGroup {sdd : SankeyDefinition} {g : String}
    {pt : Option Partition}
    (hnodup : (sdd.nodes.map Prod.fst).Nodup)
    (hgdef : lookupDef sdd g = some (.processGroup [] pt))
    (records : List FlowRecord) (w : String) (part : Option Partition) :
    wpLabels (dropGroup sdd g) records w part = wpLabels sdd records w part := by
  cases part with
  | none => rfl
  | some p =>
    show ((p.groups.map (fun gr => gr.label)).dedup.filter
        (fun l => (records.filter (routedPred (dropGroup sdd g) w)).any
          (fun f => decide (wpLabel p f = some l)))).map some
      = ((p.groups.map (fun gr => gr.label)).dedup.filter
        (fun l => (records.filter (routedPred sdd w)).any
          (fun f => decide (wpLabel p f = some l)))).map some
    rw [routedPred_dropGroup hnodup hgdef]

theorem subIdsOf_empty_nil {sdd : SankeyDefinition} {g : String}
    {pt : Option Partition}
    (hgdef : lookupDef sdd g = some (.processGroup [] pt))
    (records : List FlowRecord) :
    subIdsOf sdd records g = [] := by
  unfold subIdsOf
  rw [hgdef]
  show (pgLabels [] pt).map (NodeId.sub g) = []
  rw [pgLabels_empty]
  rfl

theorem subIdsOf_dropGroup {sdd : SankeyDefinition} {g : String}
    {pt : Option Partition}
    (hnodup : (sdd.nodes.map Prod.fst).Nodup)
    (hgdef : lookupDef sdd g = some (.processGroup [] pt))
    (records : List FlowRecord) (n : String) :
    subIdsOf (dropGroup sdd g) records n = subIdsOf sdd records n := by
  by_cases hn : n = g
  · subst hn
    rw [subIdsOf_empty_nil hgdef records]
    unfold subIdsOf
    rw [lookupDef_dropGroup_self]
  · unfold subIdsOf
    rw [lookupDef_dropGroup_ne sdd g n hn]
    cases hl : lookupDef sdd n with
    | none => rfl
    | some d =>
      cases d with
      | processGroup sel dpart => rfl
      | waypoint dpart =>
        show (wpLabels (dropGroup sdd g) records n dpart).map (NodeId.sub n)
          = (wpLabels sdd records n dpart).map (NodeId.sub n)
        rw [wpLabels_dropGroup hnodup hgdef records n dpart]

theorem pgSubnodes_dropGroup {sdd : SankeyDefinition} {g : String}
    {pt : Option Partition}
    (hnodup : (sdd.nodes.map Prod.fst).Nodup)
    (hgdef : lookupDef sdd g = some (.processGroup [] pt)) :
    pgSubnodes (dropGroup sdd g) = pgSubnodes sdd := by
  unfold pgSubnodes
  apply flatMap_filter_congr
  · intro nd _ _
    rfl
  · intro nd hnd hq
    simp only [Bool.not_eq_false', decide_eq_true_eq] at hq
    have h2 := nodes_named_g hnodup hgdef nd hnd hq
    rw [h2]
    show (pgLabels [] pt).map (fun l => (nd.1, l, subProcs [] pt l)) = []
    rw [pgLabels_empty]
    rfl

theorem pgSubnodes_ne_g {sdd : SankeyDefinition} {g : String}
    {pt : Option Partition}
    (hnodup : (sdd.nodes.map Prod.fst).Nodup)
    (hgdef : lookupDef sdd g = some (.processGroup [] pt)) :
    ∀ x ∈ pgSubnodes sdd, ¬ x.1 = g := by
  intro x hx hxg
  obtain ⟨sel, spart, hmem, hlab, _⟩ := pgSubnodes_mem_elim hx
  have h2 := nodes_named_g hnodup hgdef (x.1, NodeDef.processGroup sel spart) hmem hxg
  have hsel : sel = [] := by
    injection h2 with h3 h4
  rw [hsel] at hlab
  rw [pgLabels_empty] at hlab
  exact absurd hlab (by simp)

theorem claimedIn_dropGroup {sdd : SankeyDefinition} {g : String}
    {pt : Option Partition}
    (hnodup : (sdd.nodes.map Prod.fst).Nodup)
    (hgdef : lookupDef sdd g = some (.processGroup [] pt))
    (records : List FlowRecord) (h : String) (procs : List String) :
    claimedIn (dropGroup sdd g) records h procs = claimedIn sdd records h procs := by
  unfold claimedIn
  have hf : records.filter (claimedInPred (dropGroup sdd g) h procs)
      = records.filter (claimedInPred sdd h procs) := by
    apply List.filter_congr
    intro f _
    unfold claimedInPred
    rw [attributeRecord_dropGroup hnodup hgdef]
  rw [hf]

theorem claimedOut_dropGroup {sdd : SankeyDefinition} {g : String}
    {pt : Option Partition}
    (hnodup : (sdd.nodes.map Prod.fst).Nodup)
    (hgdef : lookupDef sdd g = some (.processGroup [] pt))
    (records : List FlowRecord) (h : String) (procs : List String) :
    claimedOut (dropGroup sdd g) records h procs = claimedOut sdd records h procs := by
  unfold claimedOut
  have hf : records.filter (claimedOutPred (dropGroup sdd g) h procs)
      = records.filter (claimedOutPred sdd h procs) := by
    apply List.filter_congr
    intro f _
    unfold claimedOutPred
    rw [attributeRecord_dropGroup hnodup hgdef]
  rw [hf]

theorem explicitIn_dropGroup {sdd : SankeyDefinition} {g : String}
    {pt : Option Partition}
    (hnodup : (sdd.nodes.map Prod.fst).Nodup)
    (hgdef : lookupDef sdd g = some (.processGroup [] pt))
    (records : List FlowRecord) (h : String) (procs : List String) :
    explicitIn (dropGroup sdd g) records h procs = explicitIn sdd records h procs := by
  unfold explicitIn
  have hf : records.filter (explicitInPred (dropGroup sdd g) h procs)
      = records.filter (explicitInPred sdd h procs) := by
    apply List.filter_congr
    intro f _
    unfold explicitInPred
    rw [attributeRecord_dropGroup hnodup hgdef]
  rw [hf]

theorem explicitOut_dropGroup {sdd : SankeyDefinition} {g : String}
    {pt : Option Partition}
    (hnodup : (sdd.nodes.map Prod.fst).Nodup)
    (hgdef : lookupDef sdd g = some (.processGroup [] pt))
    (records : List FlowRecord) (h : String) (procs : List String) :
    explicitOut (dropGroup sdd g) records h procs = explicitOut sdd records h procs := by
  unfold explicitOut
  have hf : records.filter (explicitOutPred (dropGroup sdd g) h procs)
      = records.filter (explicitOutPred sdd h procs) := by
    apply List.filter_congr
    intro f _
    unfold explicitOutPred
    rw [attributeRecord_dropGroup hnodup hgdef]
  rw [hf]

theorem implicitIn_dropGroup {sdd : SankeyDefinition} {g : String}
    {pt : Option Partition}
    (hnodup : (sdd.nodes.map Prod.fst).Nodup)
    (hgdef : lookupDef sdd g = some (.processGroup [] pt))
    (records : List FlowRecord) (h : String) (procs : List String) :
    implicitIn (dropGroup sdd g) records h procs = implicitIn sdd records h procs := by
  unfold implicitIn
  rw [claimedIn_dropGroup hnodup hgdef, explicitIn_dropGroup hnodup hgdef]

theorem implicitOut_dropGroup {sdd : SankeyDefinition} {g : String}
    {pt : Option Partition}
    (hnodup : (sdd.nodes.map Prod.fst).Nodup)
    (hgdef : lookupDef sdd g = some (.processGroup [] pt))
    (records : List FlowRecord) (h : String) (procs : List String) :
    implicitOut (dropGroup sdd g) records h procs = implicitOut sdd records h procs := by
  unfold implicitOut
  rw [claimedOut_dropGroup hnodup hgdef, explicitOut_dropGroup hnodup hgdef]

theorem hasExplicitIn_dropGroup {sdd : SankeyDefinition} {g : String} (h : String)
    (hne : ¬ h = g) :
    hasExplicitIn (dropGroup sdd g) h = hasExplicitIn sdd h := by
  unfold hasExplicitIn
  apply any_filter_congr
  · intro b _ _
    rfl
  · intro b _ hq
    rw [Bool.and_eq_false_iff] at hq
    cases hq with
    | inl h1 =>
      simp only [Bool.not_eq_false', decide_eq_true_eq] at h1
      rw [h1]
      simp
    | inr h1 =>
      simp only [Bool.not_eq_false', decide_eq_true_eq] at h1
      rw [h1]
      have : ¬ (Endpoint.ref g = Endpoint.ref h) := by
        intro h2
        injection h2 with h3
        exact hne h3.symm
      simp [this]

theorem hasExplicitOut_dropGroup {sdd : SankeyDefinition} {g : String} (h : String)
    (hne : ¬ h = g) :
    hasExplicitOut (dropGroup sdd g) h = hasExplicitOut sdd h := by
  unfold hasExplicitOut
  apply any_filter_congr
  · intro b _ _
    rfl
  · intro b _ hq
    rw [Bool.and_eq_false_iff] at hq
    cases hq with
    | inl h1 =>
      simp only [Bool.not_eq_false', decide_eq_true_eq] at h1
      rw [h1]
      have : ¬ (Endpoint.ref g = Endpoint.ref h) := by
        intro h2
        injection h2 with h3
        exact hne h3.symm
      simp [this]
    | inr h1 =>
      simp only [Bool.not_eq_false', decide_eq_true_eq] at h1
      rw [h1]
      simp

theorem any_congr_mem {α : Type} (l : List α) (p₁ p₂ : α → Bool)
    (h : ∀ a ∈ l, p₂ a = p₁ a) : l.any p₂ = l.any p₁ := by
  induction l with
  | nil => rfl
  | cons a t ih =>
    rw [List.any_cons, List.any_cons, h a (by simp),
      ih (fun b hb => h b (by simp [hb]))]

theorem flatMap_congr_mem {α β : Type} (l : List α) (f₁ f₂ : α → List β)
    (h : ∀ a ∈ l, f₂ a = f₁ a) : l.flatMap f₂ = l.flatMap f₁ := by
  induction l with
  | nil => rfl
  | cons a t ih =>
    rw [List.flatMap_cons, List.flatMap_cons, h a (by simp),
      ih (fun b hb => h b (by simp [hb]))]

theorem flatten_map_map {α β : Type} (L : List (List α)) (h : α → β) :
    (L.map (List.map h)).flatten = L.flatten.map h := by
  induction L with
  | nil => rfl
  | cons a t ih =>
    rw [List.map_cons, List.flatten_cons, List.flatten_cons, List.map_append, ih]

theorem flatten_map_filter {α : Type} (L : List (List α)) (p : α → Bool) :
    (L.map (fun l => l.filter p)).flatten = L.flatten.filter p := by
  induction L with
  | nil => rfl
  | cons a t ih =>
    rw [List.map_cons, List.flatten_cons, List.flatten_cons, List.filter_append, ih]

theorem checkNames_ok_of_nodup (sdd : SankeyDefinition)
    (h : (sdd.nodes.map Prod.fst).Nodup) : checkNames sdd = .ok () := by
  rw [checkNames_eq]
  have hnone : (sdd.nodes.map Prod.fst).find? (nameBad sdd) = none := by
    apply find_none_of_all
    intro n _
    unfold nameBad
    simp only [decide_eq_false_iff_not]
    exact Nat.not_lt.mpr (List.nodup_iff_count_le_one.mp h n)
  rw [hnone]

theorem dropGroup_nodup {sdd : SankeyDefinition} {g : String}
    (hnodup : (sdd.nodes.map Prod.fst).Nodup) :
    ((dropGroup sdd g).nodes.map Prod.fst).Nodup := by
  have hsub : ((dropGroup sdd g).nodes.map Prod.fst).Sublist (sdd.nodes.map Prod.fst) :=
    List.Sublist.map Prod.fst (List.filter_sublist sdd.nodes)
  exact hsub.nodup hnodup

theorem checkBundles_dropGroup {sdd : SankeyDefinition} {g : String}
    {pt : Option Partition}
    (hnodup : (sdd.nodes.map Prod.fst).Nodup)
    (hgdef : lookupDef sdd g = some (.processGroup [] pt))
    (hbOK : checkBundles sdd = .ok ()) :
    checkBundles (dropGroup sdd g) = .ok () := by
  have hall : ∀ b ∈ sdd.bundles, bundleBad sdd b = false := by
    rw [checkBundles_eq] at hbOK
    cases hf : sdd.bundles.find? (bundleBad sdd) with
    | some b => rw [hf] at hbOK; exact absurd hbOK (by simp)
    | none =>
      intro b hb
      have h2 := List.find?_eq_none.mp hf b hb
      cases hbb : bundleBad sdd b with
      | true => exact absurd hbb h2
      | false => rfl
  rw [checkBundles_eq]
  have hnone : (dropGroup sdd g).bundles.find? (bundleBad (dropGroup sdd g)) = none := by
    apply find_none_of_all
    intro b hb
    have hbm := (List.mem_filter.mp hb).1
    have hkeep := (List.mem_filter.mp hb).2
    simp only [Bool.and_eq_true, Bool.not_eq_true', decide_eq_false_iff_not] at hkeep
    have hbase := hall b hbm
    unfold bundleBad at hbase ⊢
    rw [Bool.or_eq_false_iff, Bool.or_eq_false_iff] at hbase
    obtain ⟨⟨hc1, hc2⟩, hc3⟩ := hbase
    rw [Bool.or_eq_false_iff, Bool.or_eq_false_iff]
    refine ⟨⟨?_, ?_⟩, ?_⟩
    · cases hbs : b.source with
      | elsewhere => rfl
      | ref n =>
        have hng : ¬ n = g := by
          intro h2
          apply hkeep.1
          rw [hbs, h2]
        show (lookupDef (dropGroup sdd g) n).isNone = false
        rw [lookupDef_dropGroup_ne sdd g n hng]
        rw [hbs] at hc1
        exact hc1
    · cases hbt : b.target with
      | elsewhere => rfl
      | ref n =>
        have hng : ¬ n = g := by
          intro h2
          apply hkeep.2
          rw [hbt, h2]
        show (lookupDef (dropGroup sdd g) n).isNone = false
        rw [lookupDef_dropGroup_ne sdd g n hng]
        rw [hbt] at hc2
        exact hc2
    · rw [List.any_eq_false]
      intro w hw
      have h3 := List.any_eq_false.mp hc3 w hw
      have h4 : ∃ pw, lookupDef sdd w = some (.waypoint pw) := by
        cases hlw : lookupDef sdd w with
        | none =>
          exfalso
          apply h3
          show (match lookupDef sdd w with
            | some (NodeDef.waypoint _) => false
            | _ => true) = true
          rw [hlw]
        | some d =>
          cases d with
          | waypoint pw => exact ⟨pw, rfl⟩
          | processGroup s sp =>
            exfalso
            apply h3
            show (match lookupDef sdd w with
              | some (NodeDef.waypoint _) => false
              | _ => true) = true
            rw [hlw]
      obtain ⟨pw, hpw⟩ := h4
      have hwg : ¬ w = g := by
        intro h5
        rw [h5, hgdef] at hpw
        exact absurd (Option.some.inj hpw) (by simp)
      show ¬ (match lookupDef (dropGroup sdd g) w with
        | some (NodeDef.waypoint _) => false
        | _ => true) = true
      rw [lookupDef_dropGroup_ne sdd g w hwg, hpw]
      simp
  rw [hnone]

theorem classifyCheck_dropGroup {sdd : SankeyDefinition} {g : String}
    {pt : Option Partition}
    (hnodup : (sdd.nodes.map Prod.fst).Nodup)
    (hgdef : lookupDef sdd g = some (.processGroup [] pt))
    (records : List FlowRecord) :
    classifyCheck (dropGroup sdd g) records = classifyCheck sdd records := by
  rw [classifyCheck_eq, classifyCheck_eq]
  have hA : (dropGroup sdd g).nodes.find? classifyNodeBad
      = sdd.nodes.find? classifyNodeBad := by
    apply find_filter_congr
    · intro nd _ _
      rfl
    · intro nd hnd hq
      simp only [Bool.not_eq_false', decide_eq_true_eq] at hq
      have h2 := nodes_named_g hnodup hgdef nd hnd hq
      unfold classifyNodeBad
      rw [h2]
      cases pt with
      | none => rfl
      | some p => rfl
  rw [hA]
  have hB : records.find? (classifyRecBad (dropGroup sdd g))
      = records.find? (classifyRecBad sdd) := by
    apply find_congr_mem
    intro f _
    unfold classifyRecBad
    rw [attributeRecord_dropGroup hnodup hgdef]
    cases hab : attributeRecord sdd f with
    | none => rfl
    | some b =>
      apply any_congr_mem
      intro w _
      by_cases hw : w = g
      · subst hw
        show (match lookupDef (dropGroup sdd w) w with
            | some (NodeDef.waypoint (some p)) => (wpLabel p f).isNone
            | _ => false)
          = (match lookupDef sdd w with
            | some (NodeDef.waypoint (some p)) => (wpLabel p f).isNone
            | _ => false)
        rw [lookupDef_dropGroup_self, hgdef]
      · show (match lookupDef (dropGroup sdd g) w with
            | some (NodeDef.waypoint (some p)) => (wpLabel p f).isNone
            | _ => false)
          = (match lookupDef sdd w with
            | some (NodeDef.waypoint (some p)) => (wpLabel p f).isNone
            | _ => false)
        rw [lookupDef_dropGroup_ne sdd g w hw]
  rw [hB]

theorem ambiguityCheck_dropGroup {sdd : SankeyDefinition} {g : String}
    {pt : Option Partition}
    (hnodup : (sdd.nodes.map Prod.fst).Nodup)
    (hgdef : lookupDef sdd g = some (.processGroup [] pt))
    (records : List FlowRecord) :
    ambiguityCheck (dropGroup sdd g) records = ambiguityCheck sdd records := by
  rw [ambiguityCheck_eq, ambiguityCheck_eq]
  have hB : records.find? (ambigBad (dropGroup sdd g))
      = records.find? (ambigBad sdd) := by
    apply find_congr_mem
    intro f _
    unfold ambigBad
    rw [matchingBundles_dropGroup hnodup hgdef]
  rw [hB]

theorem orderingNames_dropGroup (sdd : SankeyDefinition) (g : String) :
    orderingNames (dropGroup sdd g)
      = (orderingNames sdd).filter (fun n => !decide (n = g)) := by
  unfold orderingNames
  show ((sdd.ordering.map (fun layer => layer.map
      (fun band => band.filter (fun n => !decide (n = g))))).flatten).flatten
    = (sdd.ordering.flatten.flatten).filter (fun n => !decide (n = g))
  rw [flatten_map_map, flatten_map_filter]

theorem orderingCheck_dropGroup {sdd : SankeyDefinition} {g : String}
    {pt : Option Partition}
    (hnodup : (sdd.nodes.map Prod.fst).Nodup)
    (hgdef : lookupDef sdd g = some (.processGroup [] pt))
    (records : List FlowRecord) :
    orderingCheck (dropGroup sdd g) records = orderingCheck sdd records := by
  rw [orderingCheck_eq, orderingCheck_eq]
  have hA : (orderingNames (dropGroup sdd g)).find? (ordUnknown (dropGroup sdd g))
      = (orderingNames sdd).find? (ordUnknown sdd) := by
    rw [orderingNames_dropGroup]
    apply find_filter_congr
    · intro n _ hq
      simp only [Bool.not_eq_true', decide_eq_false_iff_not] at hq
      unfold ordUnknown
      rw [lookupDef_dropGroup_ne sdd g n hq]
    · intro n _ hq
      simp only [Bool.not_eq_false', decide_eq_true_eq] at hq
      unfold ordUnknown
      rw [hq, hgdef]
      rfl
  rw [hA]
  have hFL : (orderingNames (dropGroup sdd g)).filter (ordMat (dropGroup sdd g) records)
      = (orderingNames sdd).filter (ordMat sdd records) := by
    rw [orderingNames_dropGroup]
    apply filter_filter_congr
    · intro n _ _
      unfold ordMat
      rw [subIdsOf_dropGroup hnodup hgdef records n]
    · intro n _ hq
      simp only [Bool.not_eq_false', decide_eq_true_eq] at hq
      unfold ordMat
      rw [hq, subIdsOf_empty_nil hgdef records]
      rfl
  rw [hFL]
  have hB : ((orderingNames sdd).filter (ordMat sdd records)).find?
        (ordDup (dropGroup sdd g) records)
      = ((orderingNames sdd).filter (ordMat sdd records)).find? (ordDup sdd records) := by
    apply find_congr_mem
    intro n _
    unfold ordDup
    rw [hFL]
  rw [hB]
  have hC : (dropGroup sdd g).nodes.find? (ordUnplaced (dropGroup sdd g) records)
      = sdd.nodes.find? (ordUnplaced sdd records) := by
    apply find_filter_congr
    · intro nd _ hq
      simp only [Bool.not_eq_true', decide_eq_false_iff_not] at hq
      unfold ordUnplaced
      rw [subIdsOf_dropGroup hnodup hgdef records nd.1]
      congr 1
      apply decide_eq_decide.mpr
      apply not_congr
      rw [orderingNames_dropGroup]
      rw [List.mem_filter]
      constructor
      · exact fun h => h.1
      · intro h
        refine ⟨h, ?_⟩
        simp [hq]
    · intro nd hnd hq
      simp only [Bool.not_eq_false', decide_eq_true_eq] at hq
      unfold ordUnplaced
      rw [hq, subIdsOf_empty_nil hgdef records]
      rfl
  rw [hC]

theorem conservationCheck_dropGroup {sdd : SankeyDefinition} {g : String}
    {pt : Option Partition}
    (hnodup : (sdd.nodes.map Prod.fst).Nodup)
    (hgdef : lookupDef sdd g = some (.processGroup [] pt))
    (records : List FlowRecord) :
    conservationCheck (dropGroup sdd g) records = conservationCheck sdd records := by
  rw [conservationCheck_eq, conservationCheck_eq, pgSubnodes_dropGroup hnodup hgdef]
  have hB : (pgSubnodes sdd).find? (consBad (dropGroup sdd g) records)
      = (pgSubnodes sdd).find? (consBad sdd records) := by
    apply find_congr_mem
    intro x _
    unfold consBad
    rw [implicitIn_dropGroup hnodup hgdef, implicitOut_dropGroup hnodup hgdef]
  rw [hB]

theorem endNodeT_dropGroup {sdd : SankeyDefinition} {g : String}
    {e : Endpoint} (he : ¬ e = .ref g) (item : String) :
    endNodeT (dropGroup sdd g) e item = endNodeT sdd e item := by
  cases e with
  | elsewhere => rfl
  | ref n =>
    have hn : ¬ n = g := fun h => he (by rw [h])
    show (match lookupDef (dropGroup sdd g) n with
      | some (NodeDef.processGroup _ (some p)) => NodeId.sub n (resolveItem p item)
      | _ => NodeId.sub n none)
      = (match lookupDef sdd n with
      | some (NodeDef.processGroup _ (some p)) => NodeId.sub n (resolveItem p item)
      | _ => NodeId.sub n none)
    rw [lookupDef_dropGroup_ne sdd g n hn]

theorem wpNodeT_dropGroup {sdd : SankeyDefinition} {g : String}
    {pt : Option Partition}
    (hgdef : lookupDef sdd g = some (.processGroup [] pt))
    (w : String) (f : FlowRecord) :
    wpNodeT (dropGroup sdd g) w f = wpNodeT sdd w f := by
  by_cases hw : w = g
  · subst hw
    unfold wpNodeT
    rw [lookupDef_dropGroup_self, hgdef]
  · unfold wpNodeT
    rw [lookupDef_dropGroup_ne sdd g w hw]

theorem pathNodes_dropGroup {sdd : SankeyDefinition} {g : String}
    {pt : Option Partition}
    (hgdef : lookupDef sdd g = some (.processGroup [] pt))
    {b : Bundle} (hs : ¬ b.source = .ref g) (ht : ¬ b.target = .ref g)
    (f : FlowRecord) :
    pathNodes (dropGroup sdd g) b f = pathNodes sdd b f := by
  unfold pathNodes
  rw [endNodeT_dropGroup hs, endNodeT_dropGroup ht]
  have hm : b.waypoints.map (fun w => wpNodeT (dropGroup sdd g) w f)
      = b.waypoints.map (fun w => wpNodeT sdd w f) :=
    List.map_congr_left (fun w _ => wpNodeT_dropGroup hgdef w f)
  rw [hm]

theorem recordContribs_dropGroup {sdd : SankeyDefinition} {g : String}
    {pt : Option Partition}
    (hnodup : (sdd.nodes.map Prod.fst).Nodup)
    (hgdef : lookupDef sdd g = some (.processGroup [] pt))
    (f : FlowRecord) :
    recordContribs (dropGroup sdd g) f = recordContribs sdd f := by
  unfold recordContribs
  rw [attributeRecord_dropGroup hnodup hgdef]
  cases hab : attributeRecord sdd f with
  | none => rfl
  | some b =>
    have hbm := (attributeRecord_mem hab).2
    have hs : ¬ b.source = .ref g := by
      intro h
      unfold bundleMatches at hbm
      rw [h, srcMatches_pg hgdef] at hbm
      simp at hbm
    have ht : ¬ b.target = .ref g := by
      intro h
      unfold bundleMatches at hbm
      rw [h, tgtMatches_pg hgdef] at hbm
      simp at hbm
    show (match pathNodes (dropGroup sdd g) b f with
      | [] => []
      | s :: rest => (segs s rest).map (fun (uv : NodeId × NodeId) =>
          (⟨uv.1, uv.2, some (b.source, b.target), f.value⟩ : Contrib)))
      = (match pathNodes sdd b f with
      | [] => []
      | s :: rest => (segs s rest).map (fun (uv : NodeId × NodeId) =>
          (⟨uv.1, uv.2, some (b.source, b.target), f.value⟩ : Contrib)))
    rw [pathNodes_dropGroup hgdef hs ht f]

theorem allContribs_dropGroup {sdd : SankeyDefinition} {g : String}
    {pt : Option Partition}
    (hnodup : (sdd.nodes.map Prod.fst).Nodup)
    (hgdef : lookupDef sdd g = some (.processGroup [] pt))
    (records : List FlowRecord) :
    allContribs (dropGroup sdd g) records = allContribs sdd records := by
  unfold allContribs
  exact flatMap_congr_mem records _ _
    (fun f _ => recordContribs_dropGroup hnodup hgdef f)

theorem synthLinks_dropGroup {sdd : SankeyDefinition} {g : String}
    {pt : Option Partition}
    (hnodup : (sdd.nodes.map Prod.fst).Nodup)
    (hgdef : lookupDef sdd g = some (.processGroup [] pt))
    (records : List FlowRecord) :
    synthLinks (dropGroup sdd g) records = synthLinks sdd records := by
  unfold synthLinks
  rw [pgSubnodes_dropGroup hnodup hgdef]
  apply flatMap_congr_mem
  intro x hx
  have hne := pgSubnodes_ne_g hnodup hgdef x hx
  have hIn : synthIn (dropGroup sdd g) records x = synthIn sdd records x := by
    unfold synthIn
    rw [implicitIn_dropGroup hnodup hgdef, hasExplicitIn_dropGroup x.1 hne]
  have hOut : synthOut (dropGroup sdd g) records x = synthOut sdd records x := by
    unfold synthOut
    rw [implicitOut_dropGroup hnodup hgdef, hasExplicitOut_dropGroup x.1 hne]
  rw [hIn, hOut]

theorem allLinks_dropGroup {sdd : SankeyDefinition} {g : String}
    {pt : Option Partition}
    (hnodup : (sdd.nodes.map Prod.fst).Nodup)
    (hgdef : lookupDef sdd g = some (.processGroup [] pt))
    (records : List FlowRecord) :
    allLinks (dropGroup sdd g) records = allLinks sdd records := by
  unfold allLinks
  rw [allContribs_dropGroup hnodup hgdef, synthLinks_dropGroup hnodup hgdef]

theorem layoutNodes_dropGroup {sdd : SankeyDefinition} {g : String}
    {pt : Option Partition}
    (hnodup : (sdd.nodes.map Prod.fst).Nodup)
    (hgdef : lookupDef sdd g = some (.processGroup [] pt))
    (records : List FlowRecord) (links : List AggregatedLink) :
    layoutNodes (dropGroup sdd g) records links = layoutNodes sdd records links := by
  unfold layoutNodes
  have hord : (dropGroup sdd g).ordering = sdd.ordering.map (fun layer => layer.map
      (fun band => band.filter (fun n => !decide (n = g)))) := rfl
  rw [hord, List.enum_map, List.flatMap_map]
  apply flatMap_congr_mem
  intro il _
  simp only [Prod.map_fst, Prod.map_snd, id_eq]
  rw [List.enum_map, List.flatMap_map]
  apply flatMap_congr_mem
  intro jb _
  simp only [Prod.map_fst, Prod.map_snd, id_eq]
  have hband : (jb.2.filter (fun n => !decide (n = g))).flatMap
      (subIdsOf (dropGroup sdd g) records) = jb.2.flatMap (subIdsOf sdd records) := by
    apply flatMap_filter_congr
    · intro n _ _
      exact subIdsOf_dropGroup hnodup hgdef records n
    · intro n _ hq
      simp only [Bool.not_eq_false', decide_eq_true_eq] at hq
      rw [hq]
      exact subIdsOf_empty_nil hgdef records
  rw [hband]

theorem buildGraph_dropGroup {sdd : SankeyDefinition} {g : String}
    {pt : Option Partition}
    (hnodup : (sdd.nodes.map Prod.fst).Nodup)
    (hgdef : lookupDef sdd g = some (.processGroup [] pt))
    (records : List FlowRecord) :
    buildGraph (dropGroup sdd g) records = buildGraph sdd records := by
  unfold buildGraph
  rw [allLinks_dropGroup hnodup hgdef, layoutNodes_dropGroup hnodup hgdef]

/-- C7: a process group whose selection is empty materializes no visible
sub-node, and (with unique node names and well-formed bundles) the weave of
the definition equals the weave of the definition with the group, every
bundle referencing it as an endpoint, and its ordering references removed:
the empty group is treated as absent, never as an error. -/
theorem empty_group_dropped (sdd : SankeyDefinition) (records : List FlowRecord)
    (g : String) (pt : Option Partition)
    (hnodup : (sdd.nodes.map Prod.fst).Nodup)
    (hgdef : lookupDef sdd g = some (.processGroup [] pt))
    (hbOK : checkBundles sdd = .ok ()) :
    subIdsOf sdd records g = []
    ∧ weave sdd records = weave (dropGroup sdd g) records := by
  refine ⟨subIdsOf_empty_nil hgdef records, ?_⟩
  apply weave_congr
  · rw [checkNames_ok_of_nodup sdd hnodup,
      checkNames_ok_of_nodup (dropGroup sdd g) (dropGroup_nodup hnodup)]
  · rw [hbOK, checkBundles_dropGroup hnodup hgdef hbOK]
  · exact (classifyCheck_dropGroup hnodup hgdef records).symm
  · exact (ambiguityCheck_dropGroup hnodup hgdef records).symm
  · exact (orderingCheck_dropGroup hnodup hgdef records).symm
  · exact (conservationCheck_dropGroup hnodup hgdef records).symm
  · exact (buildGraph_dropGroup hnodup hgdef records).symm

theorem empty_group_dropped_witness :
    (subIdsOf c7Sdd c7Records "E" = []
      ∧ weave c7Sdd c7Records = weave (dropGroup c7Sdd "E") c7Records)
    ∧ weave c7Sdd c7Records = .ok (buildGraph c7Sdd c7Records) :=
  ⟨empty_group_dropped c7Sdd c7Records "E" none (by decide) (by rfl) (by rfl),
   by rfl⟩

end Floweaver
